import Mathlib

/-!
Verification development for the rts-pathfinding core (Map, Pathfinding::aStar,
MultiUnitCoordinator).  The C++ sources are shallowly embedded as executable
Lean definitions:

* Cell values (`double` in C++) are modelled as exact rationals `ℚ`; the
  program only ever compares cell values (exact `==` against the sentinel 3.0,
  and `|v - t| < 1e-6` tolerance tests), so exact rationals model the doubles
  faithfully for every comparison the code performs.
* A* costs (`double gCost/hCost`) only ever take the values 0, 1, 2, ... and
  IEEE +infinity (g starts at 0 / infinity and grows by exactly 1; h is a
  Manhattan distance of `int`s).  IEEE doubles are exact on such values, so
  costs are modelled as `Option Nat` with `none` playing +infinity.
* `std::vector` element accesses whose index may be out of range are modelled
  as fallible (`Except`): an out-of-range access is undefined behaviour in the
  C++ and surfaces as `.error .indexOutOfRange` here.  `Map::getCell/setCell`
  bounds failures (C++ `std::out_of_range` exceptions) are `.error .outOfRange`.
* The C++ `while (!openSet.empty())` loop is modelled with explicit fuel;
  `.error .fuelExhausted` marks a run that would need more iterations than the
  supplied fuel.  The fuel passed by `aStar` is proved sufficient below for
  every in-bounds start.
* `std::priority_queue` with the source's `NodeComparator` pops some node of
  minimal fCost, with ties resolved by the heap layout; the embedding
  determinises ties by popping the first-inserted minimal node.
* `std::unordered_map<int,int> cameFrom` with `cameFrom[k] = v` assignment is
  modelled as an association list consed at the front; `List.lookup` returns
  the most recent binding, matching the map's update-in-place semantics.
-/

/-- One (row, column) grid coordinate (a `std::pair<int,int>` in the C++). -/
abbrev Cell : Type := Int × Int

/-- Error outcomes of modelled C++ undefined/exceptional behaviour. -/
inductive CellErr : Type where
  | outOfRange : CellErr
deriving DecidableEq

/-- Errors surfacing from the A* embedding: an out-of-range `std::vector`
access (undefined behaviour in the C++), or fuel exhaustion of the modelled
`while` loop. -/
inductive AErr : Type where
  | indexOutOfRange : AErr
  | fuelExhausted : AErr
  | mapThrow : AErr
deriving DecidableEq

/-- The `Map` class: grid dimensions and the flattened row-major cell data
(`std::vector` of numeric cell values, length `width * height` for every map
produced by the loader). -/
structure Map where
  width : Nat
  height : Nat
  gridData : List ℚ
deriving DecidableEq

/-- Total in-bounds cell read: `gridData[r * width + c]`.  Used where the C++
reads the vector after a bounds check has already succeeded (so the access is
in range whenever the loader invariant `gridData.length = width * height`
holds). -/
def Map.cellAt (m : Map) (r c : Int) : ℚ :=
  m.gridData.getD (r * m.width + c).toNat 0

/-- `Map::getCell`: throws `std::out_of_range` iff the coordinates are outside
`[0,height) × [0,width)`, otherwise returns the stored value. -/
def Map.getCell (m : Map) (r c : Int) : Except CellErr ℚ :=
  if r < 0 ∨ r ≥ (m.height : Int) ∨ c < 0 ∨ c ≥ (m.width : Int) then
    .error .outOfRange
  else
    .ok (m.cellAt r c)

/-- `Map::setCell`: throws `std::out_of_range` iff the coordinates are outside
the grid, otherwise overwrites `gridData[r * width + c]` in place. -/
def Map.setCell (m : Map) (r c : Int) (v : ℚ) : Except CellErr Map :=
  if r < 0 ∨ r ≥ (m.height : Int) ∨ c < 0 ∨ c ≥ (m.width : Int) then
    .error .outOfRange
  else
    .ok { m with gridData := m.gridData.set (r * m.width + c).toNat v }

/-- The state view of a `Map::setCell` call on a mutable `Map` object: the map
after the call together with the thrown exception, if any (the C++ throws
before touching the vector, so on an exception the object is unchanged). -/
def Map.setCellRun (m : Map) (r c : Int) (v : ℚ) : Map × Option CellErr :=
  match m.setCell r c v with
  | .ok m' => (m', none)
  | .error e => (m, some e)

/-- The tolerance used by `Map::findCellsByValue` (`EPS = 1e-6`). -/
def mapEPS : ℚ := 1 / 1000000

/-- `Map::findCellsByValue`: row-major scan collecting every coordinate whose
value is within `1e-6` of the target. -/
def Map.findCellsByValue (m : Map) (target : ℚ) : List Cell :=
  (List.range m.height).flatMap (fun r : Nat =>
    (List.range m.width).filterMap (fun c : Nat =>
      if |m.cellAt (r : Int) (c : Int) - target| < mapEPS then
        some ((r : Int), (c : Int))
      else
        none))

/-- A node of the A* search space (`struct Node`): coordinates plus g and h
costs.  Costs are `Option Nat` (`none` = IEEE +infinity); see the module
comment. -/
structure Node where
  row : Int
  col : Int
  gCost : Option Nat
  hCost : Option Nat
deriving DecidableEq

/-- IEEE-faithful `<` on the cost domain: +infinity is below nothing and above
every finite value. -/
def gclt : Option Nat → Option Nat → Bool
  | none, _ => false
  | some _, none => true
  | some a, some b => a < b

/-- IEEE-faithful addition on the cost domain (no NaN can arise: the code only
adds finite values and +infinity). -/
def gcAdd : Option Nat → Option Nat → Option Nat
  | some a, some b => some (a + b)
  | _, _ => none

/-- `Node::fCost() = gCost + hCost`. -/
def Node.fCost (n : Node) : Option Nat := gcAdd n.gCost n.hCost

/-- Pop of the `std::priority_queue` ordered by `NodeComparator`
(min-`fCost` first): removes the first-inserted node of minimal fCost and
returns it with the remaining queue. -/
def popMin : List Node → Option (Node × List Node)
  | [] => none
  | n :: rest =>
    match popMin rest with
    | none => some (n, [])
    | some (m, rest') =>
      if gclt m.fCost n.fCost then some (m, n :: rest') else some (n, rest)

/-- `Pathfinding::heuristic`: Manhattan distance `|r1-r2| + |c1-c2|`
(computed on `int`s in the C++ and returned as an exact double). -/
def Pathfinding.heuristic (r1 c1 r2 c2 : Int) : Nat :=
  (r1 - r2).natAbs + (c1 - c2).natAbs

/-- The flattened index `r * width + c` used for `gCosts` and `cameFrom`. -/
def idxOf (w : Nat) (r c : Int) : Int := r * (w : Int) + c

/-- Checked read of the `gCosts` vector (`std::vector::operator[]` is
undefined behaviour out of range). -/
def gGet (g : List (Option Nat)) (i : Int) : Except AErr (Option Nat) :=
  if 0 ≤ i ∧ i.toNat < g.length then .ok (g.getD i.toNat none)
  else .error .indexOutOfRange

/-- Checked write of the `gCosts` vector. -/
def gSet (g : List (Option Nat)) (i : Int) (v : Option Nat) :
    Except AErr (List (Option Nat)) :=
  if 0 ≤ i ∧ i.toNat < g.length then .ok (g.set i.toNat v)
  else .error .indexOutOfRange

/-- The mutable state of the A* main loop: the open set (priority queue), the
`gCosts` vector and the `cameFrom` predecessor map. -/
structure AState where
  openSet : List Node
  gCosts : List (Option Nat)
  cameFrom : List (Int × Int)
deriving DecidableEq

/-- The neighbor-exploration body of the A* loop for one direction: bounds
check, blocked-cell check (`map.getCell(...) == 3.0`, an exact comparison in
the source), relaxation of the neighbor's g cost, push, and `cameFrom`
update.  `map.getCell` cannot throw here because the direction was just
bounds-checked against the same bounds, so the in-bounds read `cellAt` is
used directly. -/
def relaxDir (m : Map) (goalRow goalCol : Int) (cur : Node) (dir : Int × Int)
    (st : AState) : Except AErr AState :=
  let newRow := cur.row + dir.1
  let newCol := cur.col + dir.2
  if newRow < 0 ∨ newRow ≥ (m.height : Int) ∨ newCol < 0 ∨ newCol ≥ (m.width : Int) then
    .ok st
  else if m.cellAt newRow newCol = 3 then
    .ok st
  else
    match gGet st.gCosts (idxOf m.width cur.row cur.col) with
    | .error e => .error e
    | .ok gCur =>
      let newG := gcAdd gCur (some 1)
      match gGet st.gCosts (idxOf m.width newRow newCol) with
      | .error e => .error e
      | .ok gN =>
        if gclt newG gN then
          match gSet st.gCosts (idxOf m.width newRow newCol) newG with
          | .error e => .error e
          | .ok g' =>
            let hC := Pathfinding.heuristic newRow newCol goalRow goalCol
            let neighbor : Node := ⟨newRow, newCol, newG, some hC⟩
            .ok ⟨st.openSet ++ [neighbor], g',
                 (idxOf m.width newRow newCol, idxOf m.width cur.row cur.col) :: st.cameFrom⟩
        else
          .ok st

/-- The fixed neighbor exploration order: right, down, left, up. -/
def directions : List (Int × Int) := [(0, 1), (1, 0), (0, -1), (-1, 0)]

/-- Explore all four adjacent cells of the popped node. -/
def expandNode (m : Map) (goalRow goalCol : Int) (cur : Node) (st : AState) :
    Except AErr AState :=
  directions.foldlM (fun s d => relaxDir m goalRow goalCol cur d s) st

/-- The core A* `while (!openSet.empty())` loop, with fuel.  Returns the
`foundPath` flag and the final state. -/
def aStarLoop (m : Map) (goalRow goalCol : Int) :
    Nat → AState → Except AErr (Bool × AState)
  | 0, _ => .error .fuelExhausted
  | fuel + 1, st =>
    match popMin st.openSet with
    | none => .ok (false, st)
    | some (cur, rest) =>
      if cur.row = goalRow ∧ cur.col = goalCol then
        .ok (true, { st with openSet := rest })
      else
        match expandNode m goalRow goalCol cur { st with openSet := rest } with
        | .error e => .error e
        | .ok st' => aStarLoop m goalRow goalCol fuel st'

/-- Path reconstruction: walk the `cameFrom` map backward from the goal index,
collecting decoded `(index / width, index % width)` cells (C++ truncating
division) until an index with no predecessor is reached.  Fuel models the
unbounded `while` loop. -/
def reconstructPath (w : Nat) (cf : List (Int × Int)) :
    Nat → Int → Except AErr (List Cell)
  | 0, _ => .error .fuelExhausted
  | fuel + 1, curIdx =>
    match cf.lookup curIdx with
    | none => .ok []
    | some prev =>
      match reconstructPath w cf fuel prev with
      | .error e => .error e
      | .ok rest => .ok ((curIdx.tdiv (w : Int), curIdx.tmod (w : Int)) :: rest)

/-- `Pathfinding::aStar`: the full search.  The loop fuel
`5 * (w*h)^2 + 2` is proved sufficient below whenever the start's flattened
index is in range; the reconstruction fuel `w*h + 1` likewise. -/
def Pathfinding.aStar (m : Map) (startRow startCol goalRow goalCol : Int) :
    Except AErr (List Cell) :=
  match gSet (List.replicate (m.width * m.height) none)
      (idxOf m.width startRow startCol) (some 0) with
  | .error e => .error e
  | .ok g1 =>
    match aStarLoop m goalRow goalCol (5 * (m.width * m.height) * (m.width * m.height) + 2)
        ⟨[⟨startRow, startCol, some 0,
           some (Pathfinding.heuristic startRow startCol goalRow goalCol)⟩], g1, []⟩ with
    | .error e => .error e
    | .ok (found, stF) =>
      if found then
        match reconstructPath m.width stF.cameFrom (m.width * m.height + 1)
            (idxOf m.width goalRow goalCol) with
        | .error e => .error e
        | .ok p0 => .ok ((p0 ++ [(startRow, startCol)]).reverse)
      else
        .ok []

/-- An agent of the multi-unit coordinator (`struct Agent`). -/
structure Agent where
  id : Int
  startVal : ℚ
  row : Int
  col : Int
  goalRow : Int
  goalCol : Int
  path : List Cell
  pathIndex : Int
deriving DecidableEq

/-- The reserved agent start-marker values, in declaration order. -/
def START_VALUES : List ℚ := [0.5, 0.6, 0.9]

/-- The reserved goal-marker values, in declaration order. -/
def GOAL_VALUES : List ℚ := [8.1, 8.4, 8.13]

/-- `MultiUnitCoordinator::findStartsAndGoals`, agent half: one agent per
start-marker hit, in marker order then row-major order, with sequential ids
starting from 0. -/
def MultiUnitCoordinator.discoverAgents (m : Map) : List Agent :=
  (START_VALUES.flatMap (fun sv =>
    (m.findCellsByValue sv).map (fun pos => (sv, pos)))).enum.map
    (fun p => { id := (p.1 : Int), startVal := p.2.1,
                row := p.2.2.1, col := p.2.2.2,
                goalRow := -1, goalCol := -1, path := [], pathIndex := 0 })

/-- `MultiUnitCoordinator::findStartsAndGoals`, goal half: the flat list of
goal-marker hits, in marker order then row-major order. -/
def MultiUnitCoordinator.discoverGoals (m : Map) : List Cell :=
  GOAL_VALUES.flatMap (fun gv => m.findCellsByValue gv)

/-- `MultiUnitCoordinator::computeDistance`: Manhattan distance (exact on
doubles). -/
def MultiUnitCoordinator.computeDistance (r1 c1 r2 c2 : Int) : Nat :=
  (r1 - r2).natAbs + (c1 - c2).natAbs

/-- The nearest-goal scan of `assignGoals` (strict `<` against the best
distance so far, so the earliest goal index wins ties).  `bd = none` models
the initial `bestDist = infinity`. -/
def bestGoalAux (r c : Int) : List Cell → Nat → Option Nat → Option Nat → Option Nat
  | [], _, _, best => best
  | g :: rest, i, bd, best =>
    let d := MultiUnitCoordinator.computeDistance r c g.1 g.2
    if gclt (some d) bd then bestGoalAux r c rest (i + 1) (some d) (some i)
    else bestGoalAux r c rest (i + 1) bd best

/-- Index of the goal nearest to `(r, c)` under the `assignGoals` scan. -/
def bestGoalIdx (r c : Int) (goals : List Cell) : Option Nat :=
  bestGoalAux r c goals 0 none none

/-- `MultiUnitCoordinator::assignGoals`: positional 1:1 pairing when the
counts match, otherwise independent nearest-goal selection. -/
def MultiUnitCoordinator.assignGoals (agents : List Agent) (goalCells : List Cell) :
    List Agent :=
  if agents.isEmpty ∨ goalCells.isEmpty then agents
  else if agents.length = goalCells.length then
    (agents.zip goalCells).map (fun p =>
      { p.1 with goalRow := p.2.1, goalCol := p.2.2 })
  else
    agents.map (fun a =>
      match bestGoalIdx a.row a.col goalCells with
      | some i =>
        let g := goalCells.getD i (0, 0)
        { a with goalRow := g.1, goalCol := g.2 }
      | none => { a with goalRow := -1, goalCol := -1 })

/-- `MultiUnitCoordinator::planPaths`: run A* for every agent with an assigned
goal; keep the agent unchanged when no goal is assigned or the search returns
an empty path. -/
def MultiUnitCoordinator.planPaths (m : Map) : List Agent → Except AErr (List Agent)
  | [] => .ok []
  | a :: rest =>
    match
      (if a.goalRow < 0 ∨ a.goalCol < 0 then .ok a
       else
         match Pathfinding.aStar m a.row a.col a.goalRow a.goalCol with
         | .error e => .error e
         | .ok path =>
           if path.isEmpty then .ok a
           else .ok { a with path := path, pathIndex := 0 } :
        Except AErr Agent) with
    | .error e => .error e
    | .ok a' =>
      match MultiUnitCoordinator.planPaths m rest with
      | .error e => .error e
      | .ok rest' => .ok (a' :: rest')

/-- The inner marking loop of `markPathsOnMap` for one agent: overwrite the
given cells with the agent's start value (a `Map::setCell` exception
propagates). -/
def markAgentPath (m : Map) (v : ℚ) : List Cell → Except CellErr Map
  | [] => .ok m
  | c :: rest =>
    match m.setCell c.1 c.2 v with
    | .error e => .error e
    | .ok m' => markAgentPath m' v rest

/-- `MultiUnitCoordinator::markPathsOnMap`: for every agent with a non-empty
path, overwrite the path cells at indices `0 .. size-2` (i.e. all but the
last) with the agent's start value, in agent order. -/
def MultiUnitCoordinator.markPathsOnMap : Map → List Agent → Except CellErr Map
  | m, [] => .ok m
  | m, a :: rest =>
    if a.path.isEmpty then MultiUnitCoordinator.markPathsOnMap m rest
    else
      match markAgentPath m a.startVal a.path.dropLast with
      | .error e => .error e
      | .ok m' => MultiUnitCoordinator.markPathsOnMap m' rest

/-- `MultiUnitCoordinator::isOccupied` over an explicit agent list. -/
def MultiUnitCoordinator.isOccupied (agents : List Agent) (row col : Int) : Bool :=
  agents.any (fun ag => ag.row = row ∧ ag.col = col)

/-- The per-agent body of `step()`: the agent stays put unless it has a path,
is not done travelling, and the next path cell is unoccupied among the live
positions `done ++ a :: rest` (earlier agents already moved, later ones not
yet). -/
def stepNext (done : List Agent) (a : Agent) (rest : List Agent) : Agent :=
  if a.path.isEmpty ∨ a.pathIndex ≥ (a.path.length : Int) - 1 then a
  else
    let nxt := a.path.getD (a.pathIndex + 1).toNat (0, 0)
    if MultiUnitCoordinator.isOccupied (done ++ a :: rest) nxt.1 nxt.2 then a
    else { a with row := nxt.1, col := nxt.2, pathIndex := a.pathIndex + 1 }

/-- The sequential sweep of `step()` over the agent vector: `done` holds the
already-processed prefix (with its moves applied), `todo` the rest. -/
def stepGo : List Agent → List Agent → List Agent
  | done, [] => done
  | done, a :: rest => stepGo (done ++ [stepNext done a rest]) rest

/-- `MultiUnitCoordinator::step()`. -/
def MultiUnitCoordinator.step (agents : List Agent) : List Agent :=
  stepGo [] agents

/-- `MultiUnitCoordinator::allArrived`. -/
def MultiUnitCoordinator.allArrived (agents : List Agent) : Bool :=
  agents.all (fun a => a.path.isEmpty ∨ a.pathIndex ≥ (a.path.length : Int) - 1)

/-- The spec's formulation of `step()` as a left fold of the single-agent move
over the agent list: each fold step reads and updates the whole live agent
vector at one index. -/
def moveOneAt (ags : List Agent) (i : Nat) : List Agent :=
  match ags.get? i with
  | none => ags
  | some a =>
    if a.path.isEmpty ∨ a.pathIndex ≥ (a.path.length : Int) - 1 then ags
    else
      let nxt := a.path.getD (a.pathIndex + 1).toNat (0, 0)
      if MultiUnitCoordinator.isOccupied ags nxt.1 nxt.2 then ags
      else ags.set i { a with row := nxt.1, col := nxt.2, pathIndex := a.pathIndex + 1 }

/-- The sequential left-fold semantics of `step()` described by the spec. -/
def stepFoldSpec (ags : List Agent) : List Agent :=
  (List.range ags.length).foldl moveOneAt ags

instance {ε α : Type} [DecidableEq ε] [DecidableEq α] : DecidableEq (Except ε α) :=
  fun a b =>
    match a, b with
    | .ok x, .ok y =>
      match decEq x y with
      | isTrue h => isTrue (by rw [h])
      | isFalse h => isFalse (by intro hc; cases hc; exact h rfl)
    | .error x, .error y =>
      match decEq x y with
      | isTrue h => isTrue (by rw [h])
      | isFalse h => isFalse (by intro hc; cases hc; exact h rfl)
    | .ok _, .error _ => isFalse (by intro hc; cases hc)
    | .error _, .ok _ => isFalse (by intro hc; cases hc)

/-- A cell is inside the grid. -/
def inBounds (m : Map) (r c : Int) : Prop :=
  0 ≤ r ∧ r < (m.height : Int) ∧ 0 ≤ c ∧ c < (m.width : Int)

instance (m : Map) (r c : Int) : Decidable (inBounds m r c) :=
  inferInstanceAs (Decidable (0 ≤ r ∧ r < (m.height : Int) ∧ 0 ≤ c ∧ c < (m.width : Int)))

/-- A cell holds the blocked sentinel (the exact comparison the search
performs). -/
def blockedAt (m : Map) (r c : Int) : Prop := m.cellAt r c = 3

instance (m : Map) (r c : Int) : Decidable (blockedAt m r c) :=
  inferInstanceAs (Decidable (m.cellAt r c = 3))

/-- Two cells are 4-connected neighbors (Manhattan distance exactly 1). -/
def adjCell (a b : Cell) : Prop :=
  (a.1 - b.1).natAbs + (a.2 - b.2).natAbs = 1

instance (a b : Cell) : Decidable (adjCell a b) :=
  inferInstanceAs (Decidable ((a.1 - b.1).natAbs + (a.2 - b.2).natAbs = 1))

/-- Every pair of consecutive cells of the list is 4-adjacent. -/
def stepChain : List Cell → Prop
  | [] => True
  | [_] => True
  | a :: b :: rest => adjCell a b ∧ stepChain (b :: rest)

instance instDecidableStepChain : (p : List Cell) → Decidable (stepChain p)
  | [] => isTrue trivial
  | [_] => isTrue trivial
  | _ :: b :: rest =>
    @instDecidableAnd _ _ (inferInstance) (instDecidableStepChain (b :: rest))

/-- A valid 4-connected route on the grid from `s` to `g`: non-empty, starts
at `s`, ends at `g`, consecutive cells adjacent, every cell in bounds and not
blocked. -/
def ValidPath (m : Map) (s g : Cell) (p : List Cell) : Prop :=
  p ≠ [] ∧ p.head? = some s ∧ p.getLast? = some g ∧
    stepChain p ∧ ∀ c ∈ p, inBounds m c.1 c.2 ∧ ¬ blockedAt m c.1 c.2

instance (m : Map) (s g : Cell) (p : List Cell) : Decidable (ValidPath m s g p) :=
  inferInstanceAs (Decidable (p ≠ [] ∧ p.head? = some s ∧ p.getLast? = some g ∧
    stepChain p ∧ ∀ c ∈ p, inBounds m c.1 c.2 ∧ ¬ blockedAt m c.1 c.2))

/-- The bounds guard used by `Map::getCell`/`setCell` is exactly the negation
of `inBounds`. -/
theorem oob_guard_iff (m : Map) (r c : Int) :
    (r < 0 ∨ r ≥ (m.height : Int) ∨ c < 0 ∨ c ≥ (m.width : Int)) ↔ ¬ inBounds m r c := by
  unfold inBounds
  constructor
  · rintro (h | h | h | h) ⟨h1, h2, h3, h4⟩ <;> omega
  · intro h
    by_contra hc
    push_neg at hc
    exact h ⟨by omega, by omega, by omega, by omega⟩

/-- C9: `Map::getCell` and `Map::setCell` fail with the out-of-bounds error
exactly when the coordinates are outside `[0,height) × [0,width)`, succeed
otherwise, and a failing `setCell` call leaves the map object (hence every
cell) unchanged. -/
theorem getCell_setCell_bounds_contract (m : Map) (r c : Int) (v : ℚ) :
    (m.getCell r c = .error .outOfRange ↔ ¬ inBounds m r c) ∧
    ((∃ q, m.getCell r c = .ok q) ↔ inBounds m r c) ∧
    (m.setCell r c v = .error .outOfRange ↔ ¬ inBounds m r c) ∧
    ((∃ m', m.setCell r c v = .ok m') ↔ inBounds m r c) ∧
    (¬ inBounds m r c → (m.setCellRun r c v).1 = m) := by
  have hg := oob_guard_iff m r c
  unfold Map.getCell Map.setCell Map.setCellRun
  by_cases h : r < 0 ∨ r ≥ (m.height : Int) ∨ c < 0 ∨ c ≥ (m.width : Int)
  · rw [if_pos h, if_pos h]
    refine ⟨⟨fun _ => hg.mp h, fun _ => rfl⟩, ⟨?_, ?_⟩, ⟨fun _ => hg.mp h, fun _ => rfl⟩,
      ⟨?_, ?_⟩, fun _ => ?_⟩
    · rintro ⟨q, hq⟩
      exact Except.noConfusion hq
    · intro hin
      exact absurd hin (hg.mp h)
    · rintro ⟨m', hm⟩
      exact Except.noConfusion hm
    · intro hin
      exact absurd hin (hg.mp h)
    · simp [Map.setCell, if_pos h]
  · rw [if_neg h, if_neg h]
    have hin : inBounds m r c := by
      by_contra hc
      exact h (hg.mpr hc)
    refine ⟨⟨fun hq => Except.noConfusion hq, fun hni => absurd hin hni⟩,
      ⟨fun _ => hin, fun _ => ⟨_, rfl⟩⟩,
      ⟨fun hq => Except.noConfusion hq, fun hni => absurd hin hni⟩,
      ⟨fun _ => hin, fun _ => ⟨_, rfl⟩⟩,
      fun hni => absurd hin hni⟩

/-- Witness for C9 at a concrete map and concrete in- and out-of-bounds
coordinates. -/
theorem getCell_setCell_bounds_contract_witness :
    ((⟨1, 1, [0]⟩ : Map).setCell 5 0 7 = .error .outOfRange ↔ ¬ inBounds ⟨1, 1, [0]⟩ 5 0) ∧
    (¬ inBounds (⟨1, 1, [0]⟩ : Map) 5 0 → ((⟨1, 1, [0]⟩ : Map).setCellRun 5 0 7).1 = ⟨1, 1, [0]⟩) :=
  ⟨(getCell_setCell_bounds_contract ⟨1, 1, [0]⟩ 5 0 7).2.2.1,
   (getCell_setCell_bounds_contract ⟨1, 1, [0]⟩ 5 0 7).2.2.2.2⟩

/-- C2 counterexample: with the 1×1 grid whose only cell holds the blocked
sentinel 3, calling `aStar` with start = goal = (0,0) — an in-bounds but
blocked start and goal — returns the single-cell path `[(0,0)]`, not the
empty sequence the claim demands; likewise a blocked start `(0,0)` on the
grid `[3, 0]` still yields the path to `(0,1)`, and an out-of-bounds start
`(-1,0)` hits an out-of-range `gCosts` vector access rather than returning
empty. -/
theorem aStar_degenerate_counterexample :
    Pathfinding.aStar ⟨1, 1, [3]⟩ 0 0 0 0 = .ok [(0, 0)] ∧
    blockedAt ⟨1, 1, [3]⟩ 0 0 ∧
    Pathfinding.aStar ⟨2, 1, [3, 0]⟩ 0 0 0 1 = .ok [(0, 0), (0, 1)] ∧
    blockedAt ⟨2, 1, [3, 0]⟩ 0 0 ∧
    Pathfinding.aStar ⟨2, 2, [0, 0, 0, 0]⟩ (-1) 0 0 0 = .error .indexOutOfRange := by
  refine ⟨by decide, by decide, by decide, by decide, by decide⟩

/-- If two maps share their dimensions and agree on which in-bounds cells hold
the blocked sentinel, one neighbor-relaxation step behaves identically on
them. -/
theorem relaxDir_congr (m1 m2 : Map) (hW : m1.width = m2.width)
    (hH : m1.height = m2.height)
    (hB : ∀ r c, inBounds m1 r c → (m1.cellAt r c = 3 ↔ m2.cellAt r c = 3))
    (gr gc : Int) (cur : Node) (dir : Int × Int) (st : AState) :
    relaxDir m1 gr gc cur dir st = relaxDir m2 gr gc cur dir st := by
  obtain ⟨w1, h1, d1⟩ := m1
  obtain ⟨w2, h2, d2⟩ := m2
  simp only at hW hH
  subst hW
  subst hH
  simp only [relaxDir]
  by_cases hbound : cur.row + dir.1 < 0 ∨ cur.row + dir.1 ≥ ((⟨w1, h1, d1⟩ : Map).height : Int) ∨
      cur.col + dir.2 < 0 ∨ cur.col + dir.2 ≥ ((⟨w1, h1, d1⟩ : Map).width : Int)
  · rw [if_pos hbound, if_pos hbound]
  · rw [if_neg hbound, if_neg hbound]
    have hin : inBounds ⟨w1, h1, d1⟩ (cur.row + dir.1) (cur.col + dir.2) := by
      by_contra hc
      exact hbound ((oob_guard_iff _ _ _).mpr hc)
    have h3 := hB _ _ hin
    by_cases hb : Map.cellAt ⟨w1, h1, d1⟩ (cur.row + dir.1) (cur.col + dir.2) = 3
    · rw [if_pos hb, if_pos (h3.mp hb)]
    · rw [if_neg hb, if_neg (fun hc => hb (h3.mpr hc))]

/-- Congruence of the four-direction expansion. -/
theorem expandNode_congr (m1 m2 : Map) (hW : m1.width = m2.width)
    (hH : m1.height = m2.height)
    (hB : ∀ r c, inBounds m1 r c → (m1.cellAt r c = 3 ↔ m2.cellAt r c = 3))
    (gr gc : Int) (cur : Node) (st : AState) :
    expandNode m1 gr gc cur st = expandNode m2 gr gc cur st := by
  unfold expandNode
  generalize directions = l
  induction l generalizing st with
  | nil => rfl
  | cons d rest ih =>
    simp only [List.foldlM]
    rw [relaxDir_congr m1 m2 hW hH hB gr gc cur d st]
    cases relaxDir m2 gr gc cur d st with
    | error e => rfl
    | ok st' => exact ih st'

/-- Congruence of the main A* loop. -/
theorem aStarLoop_congr (m1 m2 : Map) (hW : m1.width = m2.width)
    (hH : m1.height = m2.height)
    (hB : ∀ r c, inBounds m1 r c → (m1.cellAt r c = 3 ↔ m2.cellAt r c = 3))
    (gr gc : Int) (fuel : Nat) (st : AState) :
    aStarLoop m1 gr gc fuel st = aStarLoop m2 gr gc fuel st := by
  induction fuel generalizing st with
  | zero => rfl
  | succ n ih =>
    simp only [aStarLoop]
    cases popMin st.openSet with
    | none => rfl
    | some p =>
      obtain ⟨cur, rest⟩ := p
      dsimp only
      by_cases hg : cur.row = gr ∧ cur.col = gc
      · rw [if_pos hg, if_pos hg]
      · rw [if_neg hg, if_neg hg]
        rw [expandNode_congr m1 m2 hW hH hB gr gc cur { st with openSet := rest }]
        cases expandNode m2 gr gc cur { st with openSet := rest } with
        | error e => rfl
        | ok st' => exact ih st'

/-- A* depends on the grid only through its dimensions and the set of
in-bounds cells holding the blocked sentinel. -/
theorem aStar_congr (m1 m2 : Map) (hW : m1.width = m2.width)
    (hH : m1.height = m2.height)
    (hB : ∀ r c, inBounds m1 r c → (m1.cellAt r c = 3 ↔ m2.cellAt r c = 3))
    (sr sc gr gc : Int) :
    Pathfinding.aStar m1 sr sc gr gc = Pathfinding.aStar m2 sr sc gr gc := by
  unfold Pathfinding.aStar
  rw [hW, hH]
  cases gSet (List.replicate (m2.width * m2.height) none) (idxOf m2.width sr sc) (some 0) with
  | error e => rfl
  | ok g1 =>
    dsimp only
    rw [aStarLoop_congr m1 m2 hW hH hB gr gc _ _]

/-- A rational within `1e-7` of 3 but distinct from it: a value the spec's
tolerance rule classifies as blocked while the code's exact `== 3.0` test
does not. -/
def nearBlocked : ℚ := ⟨30000001, 10000000, by norm_num, by norm_num⟩

theorem nearBlocked_eq : nearBlocked = 3 + 1 / 10000000 := by
  rw [show nearBlocked = (30000001 : ℚ) / (10000000 : ℚ) from by
    rw [← Rat.num_div_den nearBlocked]; norm_num [nearBlocked]]
  norm_num

/-- C3 counterexample: the cell value `3 + 1e-7` lies within the claimed
`1e-6` tolerance of the blocked sentinel, yet `aStar` walks straight through
it — the code's traversability test is exact equality, not a tolerance
comparison. -/
theorem blocked_tolerance_counterexample :
    |nearBlocked - 3| < mapEPS ∧ nearBlocked ≠ 3 ∧
    Pathfinding.aStar ⟨3, 1, [0, nearBlocked, 0]⟩ 0 0 0 2 =
      .ok [(0, 0), (0, 1), (0, 2)] := by
  refine ⟨?_, by decide, by decide⟩
  rw [nearBlocked_eq, mapEPS, show (3 : ℚ) + 1 / 10000000 - 3 = 1 / 10000000 by ring,
    abs_of_nonneg (by norm_num : (0 : ℚ) ≤ 1 / 10000000)]
  norm_num

/-- The 1×3 test corridor whose middle cell holds an arbitrary value. -/
def lineMap (v : ℚ) : Map := ⟨3, 1, [0, v, 0]⟩

/-- C3 amended: in `aStar`'s traversability test a cell is treated as blocked
exactly when its value equals 3 exactly (raw equality, no tolerance): on the
1×3 corridor the search fails iff the middle value is exactly 3, and succeeds
through any other value, however close to 3. -/
theorem blocked_test_exact_equality (v : ℚ) :
    (v = 3 → Pathfinding.aStar (lineMap v) 0 0 0 2 = .ok []) ∧
    (v ≠ 3 → Pathfinding.aStar (lineMap v) 0 0 0 2 = .ok [(0, 0), (0, 1), (0, 2)]) := by
  constructor
  · intro h
    subst h
    decide
  · intro h
    have hcong : Pathfinding.aStar (lineMap v) 0 0 0 2 = Pathfinding.aStar (lineMap 0) 0 0 0 2 := by
      apply aStar_congr
      · rfl
      · rfl
      · intro r c hin
        obtain ⟨h1, h2, h3, h4⟩ := hin
        have hr : r = 0 := by
          simp only [lineMap] at h2
          omega
        have hc : c = 0 ∨ c = 1 ∨ c = 2 := by
          simp only [lineMap] at h4
          omega
        subst hr
        rcases hc with hc | hc | hc
        · subst hc
          exact Iff.rfl
        · subst hc
          rw [show Map.cellAt (lineMap v) 0 1 = v from rfl,
            show Map.cellAt (lineMap 0) 0 1 = 0 from rfl]
          exact ⟨fun hv => absurd hv h, fun hv => absurd hv (by norm_num)⟩
        · subst hc
          exact Iff.rfl
    rw [hcong]
    decide

/-- Witness for the C3 amended theorem at the exactly-blocked value and at a
value inside the spec's tolerance window. -/
theorem blocked_test_exact_equality_witness :
    Pathfinding.aStar (lineMap 3) 0 0 0 2 = .ok [] ∧
    Pathfinding.aStar (lineMap nearBlocked) 0 0 0 2 = .ok [(0, 0), (0, 1), (0, 2)] :=
  ⟨(blocked_test_exact_equality 3).1 rfl,
   (blocked_test_exact_equality nearBlocked).2 (fun h => by
     have := nearBlocked_eq
     rw [h] at this
     norm_num at this)⟩

/-- `getD` after `set` at an in-range write index. -/
theorem getD_set_idx {α : Type} (l : List α) (i j : Nat) (a d : α) (hi : i < l.length) :
    (l.set i a).getD j d = if i = j then a else l.getD j d := by
  simp only [List.getD]
  rw [List.get?_set_of_lt' a l hi]
  by_cases h : i = j
  · rw [if_pos h, if_pos h]
    rfl
  · rw [if_neg h, if_neg h]

/-- The flattened index is injective on in-bounds coordinates. -/
theorem cell_index_inj (m : Map) (r c r' c' : Int) (h1 : inBounds m r c)
    (h2 : inBounds m r' c') (he : (r * m.width + c).toNat = (r' * m.width + c').toNat) :
    r = r' ∧ c = c' := by
  obtain ⟨hr0, hrH, hc0, hcW⟩ := h1
  obtain ⟨hr0', hrH', hc0', hcW'⟩ := h2
  have hnn : 0 ≤ r * (m.width : Int) + c := by positivity
  have hnn' : 0 ≤ r' * (m.width : Int) + c' := by positivity
  have heq : r * (m.width : Int) + c = r' * (m.width : Int) + c' := by omega
  have hrr : r = r' := by
    rcases lt_trichotomy r r' with hlt | he' | hgt
    · exfalso
      have : r * (m.width : Int) + c < r' * (m.width : Int) + c' := by
        have h1' : r * (m.width : Int) + c < (r + 1) * (m.width : Int) := by nlinarith
        have h2' : (r + 1) * (m.width : Int) ≤ r' * (m.width : Int) := by nlinarith
        nlinarith
      omega
    · exact he'
    · exfalso
      have : r' * (m.width : Int) + c' < r * (m.width : Int) + c := by
        have h1' : r' * (m.width : Int) + c' < (r' + 1) * (m.width : Int) := by nlinarith
        have h2' : (r' + 1) * (m.width : Int) ≤ r * (m.width : Int) := by nlinarith
        nlinarith
      omega
  subst hrr
  exact ⟨rfl, by omega⟩

/-- An in-bounds coordinate's flattened index lies inside the data vector
(under the loader length invariant). -/
theorem cell_index_lt (m : Map) (r c : Int) (hin : inBounds m r c)
    (hlen : m.gridData.length = m.width * m.height) :
    (r * m.width + c).toNat < m.gridData.length := by
  obtain ⟨a1, a2, a3, a4⟩ := hin
  have hf : 0 ≤ r * (m.width : Int) := by positivity
  have hub : r * (m.width : Int) + c < (m.width : Int) * (m.height : Int) := by
    nlinarith
  rw [hlen]
  omega

/-- Effect of a successful `setCell` on dimensions, data length and every
in-bounds cell (under the loader invariant on the data length). -/
theorem setCell_cellAt (m m' : Map) (r c : Int) (v : ℚ)
    (hlen : m.gridData.length = m.width * m.height)
    (hok : m.setCell r c v = .ok m') :
    m'.width = m.width ∧ m'.height = m.height ∧
      m'.gridData.length = m.gridData.length ∧
      ∀ r' c', inBounds m r' c' →
        m'.cellAt r' c' = if r' = r ∧ c' = c then v else m.cellAt r' c' := by
  unfold Map.setCell at hok
  by_cases h : r < 0 ∨ r ≥ (m.height : Int) ∨ c < 0 ∨ c ≥ (m.width : Int)
  · rw [if_pos h] at hok
    exact Except.noConfusion hok
  · rw [if_neg h] at hok
    have hin : inBounds m r c := by
      by_contra hcon
      exact h ((oob_guard_iff m r c).mpr hcon)
    cases hok
    refine ⟨rfl, rfl, List.length_set .., fun r' c' hin' => ?_⟩
    unfold Map.cellAt
    rw [getD_set_idx _ _ _ _ _ (cell_index_lt m r c hin hlen)]
    by_cases he : r' = r ∧ c' = c
    · obtain ⟨e1, e2⟩ := he
      subst e1
      subst e2
      rw [if_pos rfl, if_pos ⟨rfl, rfl⟩]
    · rw [if_neg he, if_neg (fun hc' => he ((cell_index_inj m r' c' r c hin' hin hc'.symm)))]

/-- Effect of one agent's marking loop: its cells take the value, everything
else in bounds is untouched. -/
theorem markAgentPath_cellAt (v : ℚ) (cells : List Cell) (m m' : Map)
    (hlen : m.gridData.length = m.width * m.height)
    (hok : markAgentPath m v cells = .ok m') :
    m'.width = m.width ∧ m'.height = m.height ∧
      m'.gridData.length = m.gridData.length ∧
      ∀ r c, inBounds m r c →
        m'.cellAt r c = if (r, c) ∈ cells then v else m.cellAt r c := by
  induction cells generalizing m with
  | nil =>
    cases hok
    exact ⟨rfl, rfl, rfl, fun r c _ => by simp⟩
  | cons c0 rest ih =>
    unfold markAgentPath at hok
    cases hset : m.setCell c0.1 c0.2 v with
    | error e =>
      rw [hset] at hok
      exact Except.noConfusion hok
    | ok m1 =>
      rw [hset] at hok
      obtain ⟨hw1, hh1, hl1, hc1⟩ := setCell_cellAt m m1 c0.1 c0.2 v hlen hset
      obtain ⟨hw2, hh2, hl2, hc2⟩ := ih m1 (by rw [hl1, hw1, hh1]; exact hlen) hok
      refine ⟨by rw [hw2, hw1], by rw [hh2, hh1], by rw [hl2, hl1], fun r c hin => ?_⟩
      have hin1 : inBounds m1 r c := by
        obtain ⟨a1, a2, a3, a4⟩ := hin
        exact ⟨a1, by rw [hh1]; exact a2, a3, by rw [hw1]; exact a4⟩
      rw [hc2 r c hin1, hc1 r c hin]
      by_cases hmem : (r, c) ∈ rest
      · rw [if_pos hmem, if_pos (List.mem_cons_of_mem c0 hmem)]
      · rw [if_neg hmem]
        by_cases he : r = c0.1 ∧ c = c0.2
        · rw [if_pos he, if_pos (by rw [he.1, he.2, List.mem_cons]; exact Or.inl rfl)]
        · rw [if_neg he, if_neg (by
            rw [List.mem_cons]
            rintro (hx | hx)
            · exact he ⟨congrArg Prod.fst hx, congrArg Prod.snd hx⟩
            · exact hmem hx)]

/-- The start value of the last agent in iteration order whose path prefix
(all cells but the last) contains the given cell, if any. -/
def lastMarker : List Agent → Cell → Option ℚ
  | [], _ => none
  | a :: rest, cell =>
    match lastMarker rest cell with
    | some v => some v
    | none =>
      if ¬ a.path.isEmpty ∧ cell ∈ a.path.dropLast then some a.startVal else none

theorem lastMarker_cons (a : Agent) (rest : List Agent) (cell : Cell) :
    lastMarker (a :: rest) cell =
      match lastMarker rest cell with
      | some v => some v
      | none =>
        if ¬ a.path.isEmpty ∧ cell ∈ a.path.dropLast then some a.startVal else none := rfl

/-- C5 amended: a successful `markPathsOnMap` leaves the dimensions unchanged
and sets every in-bounds cell to the start value of the last agent (in
iteration order) whose path prefix — the path cells at indices 0 through
length-2 — contains it, leaving every cell on no agent's prefix (including
any agent's final path cell when it lies on no prefix) at its prior value. -/
theorem markPathsOnMap_frame (ags : List Agent) (m m' : Map)
    (hlen : m.gridData.length = m.width * m.height)
    (hok : MultiUnitCoordinator.markPathsOnMap m ags = .ok m') :
    m'.width = m.width ∧ m'.height = m.height ∧
      ∀ r c, inBounds m r c →
        m'.cellAt r c = (lastMarker ags (r, c)).getD (m.cellAt r c) := by
  induction ags generalizing m with
  | nil =>
    cases hok
    exact ⟨rfl, rfl, fun r c _ => by simp [lastMarker]⟩
  | cons a rest ih =>
    unfold MultiUnitCoordinator.markPathsOnMap at hok
    by_cases hemp : a.path.isEmpty
    · rw [if_pos hemp] at hok
      obtain ⟨hw, hh, hc⟩ := ih m hlen hok
      refine ⟨hw, hh, fun r c hin => ?_⟩
      rw [hc r c hin, lastMarker_cons]
      cases lastMarker rest (r, c) with
      | some v => rfl
      | none =>
        rw [if_neg (fun hcon => hcon.1 hemp)]
    · rw [if_neg hemp] at hok
      cases hmark : markAgentPath m a.startVal a.path.dropLast with
      | error e =>
        rw [hmark] at hok
        exact Except.noConfusion hok
      | ok m1 =>
        rw [hmark] at hok
        obtain ⟨hw1, hh1, hl1, hc1⟩ :=
          markAgentPath_cellAt a.startVal a.path.dropLast m m1 hlen hmark
        obtain ⟨hw2, hh2, hc2⟩ := ih m1 (by rw [hl1, hw1, hh1]; exact hlen) hok
        refine ⟨by rw [hw2, hw1], by rw [hh2, hh1], fun r c hin => ?_⟩
        have hin1 : inBounds m1 r c := by
          obtain ⟨a1, a2, a3, a4⟩ := hin
          exact ⟨a1, by rw [hh1]; exact a2, a3, by rw [hw1]; exact a4⟩
        rw [hc2 r c hin1, hc1 r c hin, lastMarker_cons]
        cases lastMarker rest (r, c) with
        | some v => rfl
        | none =>
          by_cases hmem : (r, c) ∈ a.path.dropLast
          · rw [if_pos hmem, if_pos ⟨hemp, hmem⟩]
            rfl
          · rw [if_neg hmem, if_neg (fun hcon => hmem hcon.2)]

/-- 1/2, the first agent start-marker value, as an explicit reduced
fraction. -/
def q05 : ℚ := ⟨1, 2, by norm_num, by norm_num⟩

/-- 3/5, the second agent start-marker value, as an explicit reduced
fraction. -/
def q06 : ℚ := ⟨3, 5, by norm_num, by norm_num⟩

/-- 81/10, the first goal-marker value, as an explicit reduced fraction. -/
def q81 : ℚ := ⟨81, 10, by norm_num, by norm_num⟩

/-- A 2×2 demo map whose cell (0,1) holds the goal marker 8.1. -/
def mMarkDemo : Map := ⟨2, 2, [0, q81, 0, 0]⟩

/-- Demo agent 0: path (0,0) → (0,1), start value 0.5. -/
def agMarkA : Agent := ⟨0, q05, 0, 0, 0, 1, [(0, 0), (0, 1)], 0⟩

/-- Demo agent 1: path (0,1) → (1,1), start value 0.6; its path prefix covers
agent 0's final cell. -/
def agMarkB : Agent := ⟨1, q06, 0, 1, 1, 1, [(0, 1), (1, 1)], 0⟩

/-- The map after marking both demo agents' paths. -/
def mMarkedDemo : Map := ⟨2, 2, [q05, q06, 0, 0]⟩

/-- C5 counterexample: with two agents whose planned paths overlap,
`markPathsOnMap` does write to agent 0's final (goal) cell — agent 1's path
prefix covers it — so that cell's value changes from the goal marker 8.1 to
agent 1's start value 0.6, contradicting both "never writes to the final
cell of that agent's path" and "the final path cell's value is unchanged". -/
theorem markPaths_final_cell_counterexample :
    MultiUnitCoordinator.markPathsOnMap mMarkDemo [agMarkA, agMarkB] = .ok mMarkedDemo ∧
    agMarkA.path.getLast? = some (0, 1) ∧
    mMarkDemo.cellAt 0 1 = q81 ∧
    mMarkedDemo.cellAt 0 1 = q06 ∧
    q06 ≠ q81 ∧ q06 ≠ agMarkA.startVal := by
  exact ⟨by decide, by decide, by decide, by decide, by decide, by decide⟩

/-- Witness for the C5 amended theorem on the demo scenario: cell (0,1) (on
agent 1's prefix) takes agent 1's value, and cell (1,0) (on no prefix) keeps
its prior value. -/
theorem markPathsOnMap_frame_witness :
    mMarkDemo.gridData.length = mMarkDemo.width * mMarkDemo.height ∧
    MultiUnitCoordinator.markPathsOnMap mMarkDemo [agMarkA, agMarkB] = .ok mMarkedDemo ∧
    mMarkedDemo.cellAt 0 1 = (lastMarker [agMarkA, agMarkB] (0, 1)).getD (mMarkDemo.cellAt 0 1) ∧
    mMarkedDemo.cellAt 1 0 = (lastMarker [agMarkA, agMarkB] (1, 0)).getD (mMarkDemo.cellAt 1 0) :=
  ⟨by decide, by decide,
   (markPathsOnMap_frame [agMarkA, agMarkB] mMarkDemo mMarkedDemo (by decide) (by decide)).2.2
     0 1 (by decide),
   (markPathsOnMap_frame [agMarkA, agMarkB] mMarkDemo mMarkedDemo (by decide) (by decide)).2.2
     1 0 (by decide)⟩

/-- Reading an appended list at the boundary index yields the middle
element. -/
theorem get?_append_len {α : Type} (done : List α) (a : α) (rest : List α) :
    (done ++ a :: rest).get? done.length = some a := by
  rw [List.get?_append_right (le_refl _)]
  simp

/-- Writing an appended list at the boundary index replaces the middle
element. -/
theorem set_append_len {α : Type} (done : List α) (a b : α) (rest : List α) :
    (done ++ a :: rest).set done.length b = done ++ b :: rest := by
  induction done with
  | nil => rfl
  | cons x xs ih => simp [List.set, ih]

/-- One fold step of the spec's formulation at the boundary index is exactly
the per-agent body of the source's sweep. -/
theorem moveOneAt_append (done : List Agent) (a : Agent) (rest : List Agent) :
    moveOneAt (done ++ a :: rest) done.length = done ++ stepNext done a rest :: rest := by
  unfold moveOneAt stepNext
  rw [get?_append_len]
  dsimp only
  by_cases h1 : a.path.isEmpty ∨ a.pathIndex ≥ (a.path.length : Int) - 1
  · rw [if_pos h1, if_pos h1]
  · rw [if_neg h1, if_neg h1]
    by_cases h2 : MultiUnitCoordinator.isOccupied (done ++ a :: rest)
        (a.path.getD (a.pathIndex + 1).toNat (0, 0)).1
        (a.path.getD (a.pathIndex + 1).toNat (0, 0)).2 = true
    · rw [if_pos h2, if_pos h2]
    · rw [if_neg h2, if_neg h2, set_append_len]

/-- The source's sequential sweep equals the spec's indexed left fold,
generalized over an already-processed prefix. -/
theorem stepGo_eq_foldl (todo done : List Agent) :
    stepGo done todo = (List.range' done.length todo.length).foldl moveOneAt (done ++ todo) := by
  induction todo generalizing done with
  | nil => simp [stepGo]
  | cons a rest ih =>
    rw [show stepGo done (a :: rest) = stepGo (done ++ [stepNext done a rest]) rest from rfl]
    rw [ih (done ++ [stepNext done a rest]), List.length_append]
    rw [show (List.range' done.length (a :: rest).length) =
      done.length :: List.range' (done.length + 1) rest.length from List.range'_succ ..]
    rw [List.foldl_cons, moveOneAt_append]
    simp

/-- Demo agent moving (0,1) → (0,2). -/
def agSeqP : Agent := ⟨0, 1, 0, 1, 9, 9, [(0, 1), (0, 2)], 0⟩

/-- Demo agent moving (0,0) → (0,1): its target is agSeqP's initial cell. -/
def agSeqQ : Agent := ⟨1, 2, 0, 0, 9, 9, [(0, 0), (0, 1)], 0⟩

/-- Demo agent moving (1,1) → (0,1). -/
def agSeqR : Agent := ⟨0, 1, 1, 1, 9, 9, [(1, 1), (0, 1)], 0⟩

/-- Demo agent moving (0,0) → (0,1): same target cell as agSeqR. -/
def agSeqS : Agent := ⟨1, 2, 0, 0, 9, 9, [(0, 0), (0, 1)], 0⟩

/-- C8: `step()` is the sequential left fold of the single-agent move over
the agent list (each move sees all earlier moves of the same call), not a
simultaneous-snapshot update.  In particular, in the `[agSeqP, agSeqQ]` run
the second agent enters the cell (0,1) that the first agent vacated earlier
in the same call, and in the `[agSeqR, agSeqS]` run the second agent is
blocked by the cell (0,1) that the first agent entered earlier in the same
call even though that cell was free when the call began. -/
theorem step_is_sequential_left_fold :
    (∀ ags : List Agent, MultiUnitCoordinator.step ags = stepFoldSpec ags) ∧
    ((agSeqP.row, agSeqP.col) = (0, 1) ∧
      (MultiUnitCoordinator.step [agSeqP, agSeqQ]).map (fun x => (x.row, x.col)) =
        [(0, 2), (0, 1)]) ∧
    ((agSeqR.row, agSeqR.col) = (1, 1) ∧ (agSeqS.row, agSeqS.col) = (0, 0) ∧
      (MultiUnitCoordinator.step [agSeqR, agSeqS]).map (fun x => (x.row, x.col)) =
        [(0, 1), (0, 0)]) := by
  refine ⟨fun ags => ?_, ⟨by decide, by decide⟩, ⟨by decide, by decide, by decide⟩⟩
  unfold MultiUnitCoordinator.step stepFoldSpec
  rw [stepGo_eq_foldl ags [], List.range_eq_range']
  rfl

/-- Witness for the universally quantified half of the C8 theorem at a
concrete agent list. -/
theorem step_is_sequential_left_fold_witness :
    MultiUnitCoordinator.step [agSeqP, agSeqQ] = stepFoldSpec [agSeqP, agSeqQ] :=
  step_is_sequential_left_fold.1 [agSeqP, agSeqQ]

/-- The recorded position of an agent. -/
def agentPos (a : Agent) : Cell := (a.row, a.col)

/-- No two agents of the list occupy the same recorded cell. -/
def DistinctPos (ags : List Agent) : Prop :=
  ags.Pairwise (fun x y => agentPos x ≠ agentPos y)

instance (ags : List Agent) : Decidable (DistinctPos ags) :=
  inferInstanceAs (Decidable (ags.Pairwise (fun x y => agentPos x ≠ agentPos y)))

theorem distinctPos_iff_map (ags : List Agent) :
    DistinctPos ags ↔ (ags.map agentPos).Pairwise (fun x y => x ≠ y) :=
  (List.pairwise_map).symm

/-- Membership in a `findCellsByValue` scan. -/
theorem mem_findCellsByValue (m : Map) (t : ℚ) (p : Cell) :
    p ∈ m.findCellsByValue t ↔
      ∃ r : Nat, r < m.height ∧ ∃ c : Nat, c < m.width ∧ p = ((r : Int), (c : Int)) ∧
        |m.cellAt (r : Int) (c : Int) - t| < mapEPS := by
  unfold Map.findCellsByValue
  simp only [List.mem_flatMap, List.mem_filterMap, List.mem_range]
  constructor
  · rintro ⟨r, hr, c, hc, hp⟩
    by_cases h : |m.cellAt (r : Int) (c : Int) - t| < mapEPS
    · rw [if_pos h] at hp
      cases hp
      exact ⟨r, hr, c, hc, rfl, h⟩
    · rw [if_neg h] at hp
      cases hp
  · rintro ⟨r, hr, c, hc, hp, h⟩
    refine ⟨r, hr, c, hc, ?_⟩
    rw [if_pos h, hp]

/-- A single scan returns pairwise distinct coordinates. -/
theorem nodup_findCellsByValue (m : Map) (t : ℚ) : (m.findCellsByValue t).Nodup := by
  unfold Map.findCellsByValue
  rw [List.nodup_flatMap]
  constructor
  · intro r _
    apply List.Nodup.filterMap _ (List.nodup_range _)
    intro c c' b hb hb'
    by_cases h : |m.cellAt (r : Int) (c : Int) - t| < mapEPS
    · rw [if_pos h] at hb
      cases hb
      by_cases h' : |m.cellAt (r : Int) (c' : Int) - t| < mapEPS
      · rw [if_pos h'] at hb'
        cases hb'
        omega
      · rw [if_neg h'] at hb'
        cases hb'
    · rw [if_neg h] at hb
      cases hb
  · have hlt := List.pairwise_lt_range m.height
    apply hlt.imp
    intro r r' hrr p hp hp'
    have h1 : p.1 = (r : Int) := by
      rcases List.mem_filterMap.mp hp with ⟨c, _, hc⟩
      by_cases h : |m.cellAt (r : Int) (c : Int) - t| < mapEPS
      · rw [if_pos h] at hc
        cases hc
        rfl
      · rw [if_neg h] at hc
        cases hc
    have h2 : p.1 = (r' : Int) := by
      rcases List.mem_filterMap.mp hp' with ⟨c, _, hc⟩
      by_cases h : |m.cellAt (r' : Int) (c : Int) - t| < mapEPS
      · rw [if_pos h] at hc
        cases hc
        rfl
      · rw [if_neg h] at hc
        cases hc
    rw [h1] at h2
    omega

/-- Scans for targets at least `2e-6` apart return disjoint coordinate
lists. -/
theorem findCells_far_disjoint (m : Map) (t1 t2 : ℚ) (hfar : 2 * mapEPS ≤ |t1 - t2|) :
    List.Disjoint (m.findCellsByValue t1) (m.findCellsByValue t2) := by
  intro p h1 h2
  rw [mem_findCellsByValue] at h1 h2
  obtain ⟨r, _, c, _, hp, hv1⟩ := h1
  obtain ⟨r', _, c', _, hp', hv2⟩ := h2
  rw [hp] at hp'
  have hr : (r : Int) = (r' : Int) := congrArg Prod.fst hp'
  have hc : (c : Int) = (c' : Int) := congrArg Prod.snd hp'
  rw [← hr, ← hc] at hv2
  have habs : |t1 - t2| < 2 * mapEPS := by
    have h12 : t1 - t2 = -(m.cellAt (r : Int) (c : Int) - t1) + (m.cellAt (r : Int) (c : Int) - t2) := by
      ring
    calc |t1 - t2| = |(-(m.cellAt (r : Int) (c : Int) - t1)) + (m.cellAt (r : Int) (c : Int) - t2)| := by
          rw [← h12]
      _ ≤ |(-(m.cellAt (r : Int) (c : Int) - t1))| + |m.cellAt (r : Int) (c : Int) - t2| := abs_add _ _
      _ = |m.cellAt (r : Int) (c : Int) - t1| + |m.cellAt (r : Int) (c : Int) - t2| := by
          rw [abs_neg]
      _ < 2 * mapEPS := by linarith
  linarith

/-- Concatenated scans over pairwise-far targets have pairwise distinct
coordinates. -/
theorem flatMap_finds_nodup (m : Map) (ts : List ℚ)
    (hts : ts.Pairwise (fun a b => 2 * mapEPS ≤ |a - b|)) :
    (ts.flatMap (fun t => m.findCellsByValue t)).Nodup := by
  rw [List.nodup_flatMap]
  refine ⟨fun t _ => nodup_findCellsByValue m t, hts.imp ?_⟩
  intro a b h
  exact findCells_far_disjoint m a b h

/-- The three start-marker values are pairwise at least `2e-6` apart. -/
theorem start_values_far :
    START_VALUES.Pairwise (fun a b => 2 * mapEPS ≤ |a - b|) := by
  unfold START_VALUES
  refine List.Pairwise.cons ?_ (List.Pairwise.cons ?_ (List.pairwise_singleton _ _))
  · intro y hy
    rcases List.mem_cons.mp hy with h | h
    · subst h
      rw [le_abs]
      right
      rw [mapEPS]
      norm_num
    · rcases List.mem_cons.mp h with h' | h'
      · subst h'
        rw [le_abs]
        right
        rw [mapEPS]
        norm_num
      · cases h'
  · intro y hy
    rcases List.mem_cons.mp hy with h | h
    · subst h
      rw [le_abs]
      right
      rw [mapEPS]
      norm_num
    · cases h

/-- The three goal-marker values are pairwise at least `2e-6` apart. -/
theorem goal_values_far :
    GOAL_VALUES.Pairwise (fun a b => 2 * mapEPS ≤ |a - b|) := by
  unfold GOAL_VALUES
  refine List.Pairwise.cons ?_ (List.Pairwise.cons ?_ (List.pairwise_singleton _ _))
  · intro y hy
    rcases List.mem_cons.mp hy with h | h
    · subst h
      rw [le_abs]
      right
      rw [mapEPS]
      norm_num
    · rcases List.mem_cons.mp h with h' | h'
      · subst h'
        rw [le_abs]
        right
        rw [mapEPS]
        norm_num
      · cases h'
  · intro y hy
    rcases List.mem_cons.mp hy with h | h
    · subst h
      rw [le_abs]
      left
      rw [mapEPS]
      norm_num
    · cases h

/-- The discovered agents' positions are exactly the concatenated start-value
scans. -/
theorem discoverAgents_positions (m : Map) :
    (MultiUnitCoordinator.discoverAgents m).map agentPos =
      START_VALUES.flatMap (fun sv => m.findCellsByValue sv) := by
  unfold MultiUnitCoordinator.discoverAgents
  rw [List.map_map]
  have h1 : (agentPos ∘ fun p : Nat × (ℚ × Cell) =>
      ({ id := (p.1 : Int), startVal := p.2.1, row := p.2.2.1, col := p.2.2.2,
         goalRow := -1, goalCol := -1, path := [], pathIndex := 0 } : Agent)) =
      (fun x : ℚ × Cell => (x.2.1, x.2.2)) ∘ Prod.snd := rfl
  rw [h1, ← List.map_map, List.enum_map_snd, List.map_flatMap]
  congr 1
  funext sv
  rw [List.map_map]
  have h2 : ((fun x : ℚ × Cell => (x.2.1, x.2.2)) ∘ fun pos => (sv, pos)) = id := by
    funext pos
    rfl
  rw [h2, List.map_id]

/-- `isOccupied` returning false means no agent records that position. -/
theorem isOccupied_false_iff (l : List Agent) (r c : Int) :
    MultiUnitCoordinator.isOccupied l r c = false ↔ ∀ x ∈ l, (x.row, x.col) ≠ (r, c) := by
  unfold MultiUnitCoordinator.isOccupied
  rw [List.any_eq_false]
  constructor
  · intro h x hx hne
    refine h x hx ?_
    rw [decide_eq_true_eq]
    exact ⟨congrArg Prod.fst hne, congrArg Prod.snd hne⟩
  · intro h x hx hdec
    rw [decide_eq_true_eq] at hdec
    exact h x hx (by rw [hdec.1, hdec.2])

/-- The per-agent move either leaves the agent unchanged or places it on a
cell no live agent occupies at the moment of the check. -/
theorem stepNext_fresh (done : List Agent) (a : Agent) (rest : List Agent) :
    stepNext done a rest = a ∨
      ∀ x ∈ done ++ a :: rest,
        (x.row, x.col) ≠ ((stepNext done a rest).row, (stepNext done a rest).col) := by
  unfold stepNext
  by_cases h1 : a.path.isEmpty ∨ a.pathIndex ≥ (a.path.length : Int) - 1
  · rw [if_pos h1]
    left
    rfl
  · rw [if_neg h1]
    by_cases h2 : MultiUnitCoordinator.isOccupied (done ++ a :: rest)
        (a.path.getD (a.pathIndex + 1).toNat (0, 0)).1
        (a.path.getD (a.pathIndex + 1).toNat (0, 0)).2 = true
    · rw [if_pos h2]
      left
      rfl
    · rw [if_neg h2]
      right
      intro x hx
      have hocc := (isOccupied_false_iff (done ++ a :: rest)
        (a.path.getD (a.pathIndex + 1).toNat (0, 0)).1
        (a.path.getD (a.pathIndex + 1).toNat (0, 0)).2).mp
        (Bool.not_eq_true _ ▸ h2)
      exact hocc x hx

/-- Replacing the middle agent with one whose position is fresh preserves
pairwise-distinct positions. -/
theorem distinct_replace_mid (done : List Agent) (a a' : Agent) (rest : List Agent)
    (hd : DistinctPos (done ++ a :: rest))
    (hcase : a' = a ∨ ∀ x ∈ done ++ a :: rest, (x.row, x.col) ≠ (a'.row, a'.col)) :
    DistinctPos (done ++ a' :: rest) := by
  rcases hcase with h | hfresh
  · rwa [h]
  · unfold DistinctPos at hd ⊢
    rw [List.pairwise_append] at hd ⊢
    obtain ⟨hdone, hmid, hcross⟩ := hd
    rw [List.pairwise_cons] at hmid ⊢
    refine ⟨hdone, ⟨?_, hmid.2⟩, ?_⟩
    · intro y hy
      have := hfresh y (by
        rw [List.mem_append, List.mem_cons]
        exact Or.inr (Or.inr hy))
      intro hc
      exact this hc.symm
    · intro x hx b hb
      rcases List.mem_cons.mp hb with hba | hbr
      · subst hba
        exact hfresh x (by rw [List.mem_append]; exact Or.inl hx)
      · exact hcross x hx b (List.mem_cons_of_mem a hbr)

/-- The sequential sweep preserves pairwise-distinct positions. -/
theorem stepGo_distinct (todo done : List Agent) (hd : DistinctPos (done ++ todo)) :
    DistinctPos (stepGo done todo) := by
  induction todo generalizing done with
  | nil => simpa [stepGo] using hd
  | cons a rest ih =>
    rw [show stepGo done (a :: rest) = stepGo (done ++ [stepNext done a rest]) rest from rfl]
    apply ih
    rw [List.append_assoc, List.singleton_append]
    exact distinct_replace_mid done a _ rest hd (stepNext_fresh done a rest)

/-- `assignGoals` never changes any agent's recorded position. -/
theorem assignGoals_positions (ags : List Agent) (goals : List Cell) :
    (MultiUnitCoordinator.assignGoals ags goals).map agentPos = ags.map agentPos := by
  unfold MultiUnitCoordinator.assignGoals
  by_cases h1 : ags.isEmpty ∨ goals.isEmpty
  · rw [if_pos h1]
  · rw [if_neg h1]
    by_cases h2 : ags.length = goals.length
    · rw [if_pos h2, List.map_map]
      have : (agentPos ∘ fun p : Agent × Cell =>
          { p.1 with goalRow := p.2.1, goalCol := p.2.2 }) = agentPos ∘ Prod.fst := rfl
      rw [this, ← List.map_map, List.map_fst_zip ags goals (le_of_eq h2)]
    · rw [if_neg h2, List.map_map]
      apply List.map_congr_left
      intro a _
      show agentPos _ = agentPos a
      dsimp only
      cases hb : bestGoalIdx a.row a.col goals with
      | none => rfl
      | some i => rfl

/-- `planPaths` never changes any agent's recorded position. -/
theorem planPaths_positions (m : Map) (ags ags' : List Agent)
    (hok : MultiUnitCoordinator.planPaths m ags = .ok ags') :
    ags'.map agentPos = ags.map agentPos := by
  induction ags generalizing ags' with
  | nil =>
    cases hok
    rfl
  | cons a rest ih =>
    unfold MultiUnitCoordinator.planPaths at hok
    by_cases hg : a.goalRow < 0 ∨ a.goalCol < 0
    · rw [if_pos hg] at hok
      cases hrest : MultiUnitCoordinator.planPaths m rest with
      | error e =>
        rw [hrest] at hok
        exact Except.noConfusion hok
      | ok rest' =>
        rw [hrest] at hok
        cases hok
        rw [List.map_cons, List.map_cons, ih rest' hrest]
    · rw [if_neg hg] at hok
      cases hpath : Pathfinding.aStar m a.row a.col a.goalRow a.goalCol with
      | error e =>
        rw [hpath] at hok
        exact Except.noConfusion hok
      | ok path =>
        rw [hpath] at hok
        dsimp only at hok
        by_cases hemp : path.isEmpty
        · rw [if_pos hemp] at hok
          cases hrest : MultiUnitCoordinator.planPaths m rest with
          | error e =>
            rw [hrest] at hok
            exact Except.noConfusion hok
          | ok rest' =>
            rw [hrest] at hok
            cases hok
            rw [List.map_cons, List.map_cons, ih rest' hrest]
        · rw [if_neg hemp] at hok
          cases hrest : MultiUnitCoordinator.planPaths m rest with
          | error e =>
            rw [hrest] at hok
            exact Except.noConfusion hok
          | ok rest' =>
            rw [hrest] at hok
            cases hok
            rw [List.map_cons, List.map_cons, ih rest' hrest]
            rfl

/-- C4: `step()` preserves pairwise distinctness of the agents' recorded
positions; discovery produces agents at pairwise distinct cells; goal
assignment and path planning keep positions unchanged; and therefore, from
discovery on, no two agents ever occupy the same cell at the end of any
number of `step()` calls. -/
theorem step_preserves_distinct_positions :
    (∀ ags : List Agent, DistinctPos ags → DistinctPos (MultiUnitCoordinator.step ags)) ∧
    (∀ m : Map, DistinctPos (MultiUnitCoordinator.discoverAgents m)) ∧
    (∀ (ags : List Agent) (goals : List Cell),
      (MultiUnitCoordinator.assignGoals ags goals).map agentPos = ags.map agentPos) ∧
    (∀ (m : Map) (ags ags' : List Agent), MultiUnitCoordinator.planPaths m ags = .ok ags' →
      ags'.map agentPos = ags.map agentPos) ∧
    (∀ ags ags' : List Agent, ags.map agentPos = ags'.map agentPos →
      DistinctPos ags → DistinctPos ags') ∧
    (∀ (ags : List Agent) (n : Nat), DistinctPos ags →
      DistinctPos (MultiUnitCoordinator.step^[n] ags)) ∧
    (∀ (m : Map) (n : Nat),
      DistinctPos (MultiUnitCoordinator.step^[n] (MultiUnitCoordinator.discoverAgents m))) := by
  have hstep : ∀ ags : List Agent, DistinctPos ags → DistinctPos (MultiUnitCoordinator.step ags) := by
    intro ags hd
    unfold MultiUnitCoordinator.step
    exact stepGo_distinct ags [] (by simpa using hd)
  have hdisc : ∀ m : Map, DistinctPos (MultiUnitCoordinator.discoverAgents m) := by
    intro m
    rw [distinctPos_iff_map, discoverAgents_positions]
    exact flatMap_finds_nodup m START_VALUES start_values_far
  have hiter : ∀ (ags : List Agent) (n : Nat), DistinctPos ags →
      DistinctPos (MultiUnitCoordinator.step^[n] ags) := by
    intro ags n
    induction n generalizing ags with
    | zero => exact fun h => h
    | succ k ih =>
      intro hd
      rw [Function.iterate_succ_apply]
      exact ih _ (hstep ags hd)
  refine ⟨hstep, hdisc, assignGoals_positions, planPaths_positions, ?_, hiter,
    fun m n => hiter _ n (hdisc m)⟩
  intro ags ags' hmap hd
  rw [distinctPos_iff_map] at hd ⊢
  rw [← hmap]
  exact hd

/-- Witness for C4 at a concrete agent pair and step count. -/
theorem step_preserves_distinct_positions_witness :
    DistinctPos [agSeqP, agSeqQ] ∧
    DistinctPos (MultiUnitCoordinator.step^[2] [agSeqP, agSeqQ]) :=
  ⟨by decide, step_preserves_distinct_positions.2.2.2.2.2.1 [agSeqP, agSeqQ] 2 (by decide)⟩

/-- Every discovered goal has nonnegative coordinates. -/
theorem discoverGoals_nonneg (m : Map) (p : Cell)
    (hp : p ∈ MultiUnitCoordinator.discoverGoals m) : 0 ≤ p.1 ∧ 0 ≤ p.2 := by
  unfold MultiUnitCoordinator.discoverGoals at hp
  rcases List.mem_flatMap.mp hp with ⟨gv, _, hmem⟩
  rcases (mem_findCellsByValue m gv p).mp hmem with ⟨r, _, c, _, hpe, _⟩
  rw [hpe]
  exact ⟨Int.natCast_nonneg r, Int.natCast_nonneg c⟩

/-- The positional 1:1 assignment pairs agent `i` with goal `i`. -/
theorem zip_assign_forall2 :
    ∀ (ags : List Agent) (goals : List Cell), ags.length = goals.length →
      List.Forall₂ (fun (a : Agent) (g : Cell) => a.goalRow = g.1 ∧ a.goalCol = g.2)
        ((ags.zip goals).map (fun p => { p.1 with goalRow := p.2.1, goalCol := p.2.2 }))
        goals
  | [], [], _ => List.Forall₂.nil
  | [], g :: gs, h => by cases h
  | a :: as, [], h => by cases h
  | a :: as, g :: gs, h =>
    List.Forall₂.cons ⟨rfl, rfl⟩
      (zip_assign_forall2 as gs (by
        rw [List.length_cons, List.length_cons] at h
        omega))

/-- The assigned goal fields of the positional assignment read back exactly
the goal list. -/
theorem zip_assign_goals_map :
    ∀ (ags : List Agent) (goals : List Cell), ags.length = goals.length →
      ((ags.zip goals).map (fun p => { p.1 with goalRow := p.2.1, goalCol := p.2.2 })).map
          (fun a : Agent => (a.goalRow, a.goalCol)) = goals
  | [], [], _ => rfl
  | [], g :: gs, h => by cases h
  | a :: as, [], h => by cases h
  | a :: as, g :: gs, h => by
    rw [List.zip_cons_cons, List.map_cons, List.map_cons]
    rw [zip_assign_goals_map as gs (by
      rw [List.length_cons, List.length_cons] at h
      omega)]

/-- C6: when the discovered agents and goals are equinumerous (and non-empty),
`assignGoals` pairs agent `i` with goal `i` in discovery order; every agent
receives a (nonnegative-coordinate) goal, and no two agents share one. -/
theorem assignGoals_equal_counts_bijection (m : Map)
    (hne : MultiUnitCoordinator.discoverAgents m ≠ [])
    (hge : MultiUnitCoordinator.discoverGoals m ≠ [])
    (hlen : (MultiUnitCoordinator.discoverAgents m).length =
      (MultiUnitCoordinator.discoverGoals m).length) :
    List.Forall₂ (fun (a : Agent) (g : Cell) => a.goalRow = g.1 ∧ a.goalCol = g.2)
      (MultiUnitCoordinator.assignGoals (MultiUnitCoordinator.discoverAgents m)
        (MultiUnitCoordinator.discoverGoals m))
      (MultiUnitCoordinator.discoverGoals m) ∧
    (MultiUnitCoordinator.assignGoals (MultiUnitCoordinator.discoverAgents m)
        (MultiUnitCoordinator.discoverGoals m)).Pairwise
      (fun a b => (a.goalRow, a.goalCol) ≠ (b.goalRow, b.goalCol)) ∧
    ∀ a ∈ MultiUnitCoordinator.assignGoals (MultiUnitCoordinator.discoverAgents m)
        (MultiUnitCoordinator.discoverGoals m), 0 ≤ a.goalRow ∧ 0 ≤ a.goalCol := by
  have hnodup : (MultiUnitCoordinator.discoverGoals m).Nodup :=
    flatMap_finds_nodup m GOAL_VALUES goal_values_far
  have hassign : MultiUnitCoordinator.assignGoals (MultiUnitCoordinator.discoverAgents m)
      (MultiUnitCoordinator.discoverGoals m) =
      ((MultiUnitCoordinator.discoverAgents m).zip (MultiUnitCoordinator.discoverGoals m)).map
        (fun p => { p.1 with goalRow := p.2.1, goalCol := p.2.2 }) := by
    unfold MultiUnitCoordinator.assignGoals
    rw [if_neg (by
      rw [List.isEmpty_iff, List.isEmpty_iff]
      rintro (h | h)
      · exact hne h
      · exact hge h), if_pos hlen]
  rw [hassign]
  refine ⟨zip_assign_forall2 _ _ hlen, ?_, ?_⟩
  · have hmap := zip_assign_goals_map (MultiUnitCoordinator.discoverAgents m)
      (MultiUnitCoordinator.discoverGoals m) hlen
    rw [← List.pairwise_map (f := fun a : Agent => (a.goalRow, a.goalCol)), hmap]
    exact hnodup
  · intro a ha
    have hmap := zip_assign_goals_map (MultiUnitCoordinator.discoverAgents m)
      (MultiUnitCoordinator.discoverGoals m) hlen
    have hmem : (a.goalRow, a.goalCol) ∈ MultiUnitCoordinator.discoverGoals m := by
      rw [← hmap]
      exact List.mem_map_of_mem _ ha
    exact discoverGoals_nonneg m (a.goalRow, a.goalCol) hmem

/-- A 2×1 demo map: an agent start marker 0.5 at (0,0) and a goal marker 8.1
at (0,1). -/
def mAssignDemo : Map := ⟨2, 1, [0.5, 8.1]⟩

/-- Evaluation of a scan over the demo map: the result is determined by which
of the two stored values are within tolerance of the target. -/
theorem findCells_mAssignDemo (t : ℚ) :
    mAssignDemo.findCellsByValue t =
      (if |(0.5 : ℚ) - t| < mapEPS then [((0 : Int), (0 : Int))] else []) ++
      (if |(8.1 : ℚ) - t| < mapEPS then [((0 : Int), (1 : Int))] else []) := by
  unfold Map.findCellsByValue
  rw [show (List.range mAssignDemo.height) = [0] from rfl,
    show (List.range mAssignDemo.width) = [0, 1] from rfl]
  rw [List.flatMap_cons, List.flatMap_nil, List.append_nil]
  rw [List.filterMap_cons, List.filterMap_cons, List.filterMap_nil]
  rw [show mAssignDemo.cellAt ((0 : Nat) : Int) ((0 : Nat) : Int) = 0.5 from rfl,
    show mAssignDemo.cellAt ((0 : Nat) : Int) ((1 : Nat) : Int) = 8.1 from rfl]
  by_cases h0 : |(0.5 : ℚ) - t| < mapEPS
  · rw [if_pos h0, if_pos h0]
    by_cases h1 : |(8.1 : ℚ) - t| < mapEPS
    · rw [if_pos h1, if_pos h1]
      rfl
    · rw [if_neg h1, if_neg h1]
      rfl
  · rw [if_neg h0, if_neg h0]
    by_cases h1 : |(8.1 : ℚ) - t| < mapEPS
    · rw [if_pos h1, if_pos h1]
      rfl
    · rw [if_neg h1, if_neg h1]
      rfl

/-- `|t - t| < 1e-6` for the self-comparison of a marker value. -/
theorem abs_self_lt_eps (t : ℚ) : |t - t| < mapEPS := by
  rw [sub_self, abs_zero, mapEPS]
  norm_num

/-- The demo map's two markers each match exactly one reserved value. -/
theorem discoverAgents_mAssignDemo :
    MultiUnitCoordinator.discoverAgents mAssignDemo =
      [⟨0, 0.5, 0, 0, -1, -1, [], 0⟩] := by
  unfold MultiUnitCoordinator.discoverAgents START_VALUES
  rw [List.flatMap_cons, List.flatMap_cons, List.flatMap_cons, List.flatMap_nil]
  rw [findCells_mAssignDemo (0.5 : ℚ), findCells_mAssignDemo (0.6 : ℚ),
    findCells_mAssignDemo (0.9 : ℚ)]
  rw [if_pos (abs_self_lt_eps (0.5 : ℚ))]
  rw [if_neg (by rw [not_lt, le_abs, mapEPS]; left; norm_num)]
  rw [if_neg (by rw [not_lt, le_abs, mapEPS]; right; norm_num)]
  rw [if_neg (by rw [not_lt, le_abs, mapEPS]; left; norm_num)]
  rw [if_neg (by rw [not_lt, le_abs, mapEPS]; right; norm_num)]
  rw [if_neg (by rw [not_lt, le_abs, mapEPS]; left; norm_num)]
  rfl

/-- The demo map's goal scan finds exactly the 8.1 cell. -/
theorem discoverGoals_mAssignDemo :
    MultiUnitCoordinator.discoverGoals mAssignDemo = [(0, 1)] := by
  unfold MultiUnitCoordinator.discoverGoals GOAL_VALUES
  rw [List.flatMap_cons, List.flatMap_cons, List.flatMap_cons, List.flatMap_nil]
  rw [findCells_mAssignDemo (8.1 : ℚ), findCells_mAssignDemo (8.4 : ℚ),
    findCells_mAssignDemo (8.13 : ℚ)]
  rw [if_neg (by rw [not_lt, le_abs, mapEPS]; right; norm_num)]
  rw [if_pos (abs_self_lt_eps (8.1 : ℚ))]
  rw [if_neg (by rw [not_lt, le_abs, mapEPS]; right; norm_num)]
  rw [if_neg (by rw [not_lt, le_abs, mapEPS]; right; norm_num)]
  rw [if_neg (by rw [not_lt, le_abs, mapEPS]; right; norm_num)]
  rw [if_neg (by rw [not_lt, le_abs, mapEPS]; right; norm_num)]
  rfl

/-- Witness for C6 on the demo map with one agent and one goal. -/
theorem assignGoals_equal_counts_bijection_witness :
    List.Forall₂ (fun (a : Agent) (g : Cell) => a.goalRow = g.1 ∧ a.goalCol = g.2)
      (MultiUnitCoordinator.assignGoals (MultiUnitCoordinator.discoverAgents mAssignDemo)
        (MultiUnitCoordinator.discoverGoals mAssignDemo))
      (MultiUnitCoordinator.discoverGoals mAssignDemo) ∧
    (MultiUnitCoordinator.assignGoals (MultiUnitCoordinator.discoverAgents mAssignDemo)
        (MultiUnitCoordinator.discoverGoals mAssignDemo)).Pairwise
      (fun a b => (a.goalRow, a.goalCol) ≠ (b.goalRow, b.goalCol)) ∧
    ∀ a ∈ MultiUnitCoordinator.assignGoals (MultiUnitCoordinator.discoverAgents mAssignDemo)
        (MultiUnitCoordinator.discoverGoals mAssignDemo), 0 ≤ a.goalRow ∧ 0 ≤ a.goalCol :=
  assignGoals_equal_counts_bijection mAssignDemo
    (by rw [discoverAgents_mAssignDemo]; exact List.cons_ne_nil _ _)
    (by rw [discoverGoals_mAssignDemo]; exact List.cons_ne_nil _ _)
    (by rw [discoverAgents_mAssignDemo, discoverGoals_mAssignDemo]; rfl)

/-- Table read of the `gCosts` vector at a flattened index (the value `gGet`
returns when the index is in range). -/
def gAt (g : List (Option Nat)) (i : Int) : Option Nat := g.getD i.toNat none

/-- `x ≤ y` on the cost domain (`none` = +infinity). -/
def gle : Option Nat → Option Nat → Prop
  | none, none => True
  | none, some _ => False
  | some _, none => True
  | some a, some b => a ≤ b

theorem gle_refl (x : Option Nat) : gle x x := by
  cases x with
  | none => trivial
  | some a => exact le_refl a

theorem gle_trans (x y z : Option Nat) (h1 : gle x y) (h2 : gle y z) : gle x z := by
  cases x with
  | none =>
    cases y with
    | none => exact h2
    | some b => exact absurd h1 (by intro h; exact h)
  | some a =>
    cases z with
    | none => trivial
    | some c =>
      cases y with
      | none => exact absurd h2 (by intro h; exact h)
      | some b => exact le_trans (α := Nat) h1 h2

theorem gclt_false_of_gle (x y : Option Nat) (h : gle y x) : gclt x y = false := by
  cases x with
  | none => rfl
  | some a =>
    cases y with
    | none => exact absurd h (by intro hc; exact hc)
    | some b =>
      simp only [gclt, decide_eq_false_iff_not, not_lt]
      exact h

theorem gle_of_gclt_false (x y : Option Nat) (h : gclt x y = false) : gle y x := by
  cases x with
  | none =>
    cases y with
    | none => trivial
    | some b => trivial
  | some a =>
    cases y with
    | none => exact Bool.noConfusion h
    | some b =>
      simp only [gclt, decide_eq_false_iff_not, not_lt] at h
      exact h

/-- `popMin` fails exactly on the empty queue. -/
theorem popMin_none_iff (l : List Node) : popMin l = none ↔ l = [] := by
  cases l with
  | nil => exact ⟨fun _ => rfl, fun _ => rfl⟩
  | cons n rest =>
    constructor
    · intro h
      unfold popMin at h
      cases hr : popMin rest with
      | none =>
        rw [hr] at h
        dsimp only at h
        exact Option.noConfusion h
      | some p =>
        rw [hr] at h
        obtain ⟨mn, rest'⟩ := p
        dsimp only at h
        by_cases hc : gclt mn.fCost n.fCost
        · rw [if_pos hc] at h
          exact Option.noConfusion h
        · rw [if_neg hc] at h
          exact Option.noConfusion h
    · intro h
      exact List.noConfusion h

/-- A successful pop returns a permutation split of the queue. -/
theorem popMin_perm (l : List Node) (n : Node) (r : List Node)
    (h : popMin l = some (n, r)) : l.Perm (n :: r) := by
  induction l generalizing n r with
  | nil => exact Option.noConfusion h
  | cons x rest ih =>
    unfold popMin at h
    cases hr : popMin rest with
    | none =>
      rw [hr] at h
      dsimp only at h
      have hp := Option.some.inj h
      have h1 : x = n := congrArg Prod.fst hp
      have h2 : ([] : List Node) = r := congrArg Prod.snd hp
      rw [← h1, ← h2, (popMin_none_iff rest).mp hr]
    | some p =>
      rw [hr] at h
      obtain ⟨mn, rest'⟩ := p
      dsimp only at h
      by_cases hc : gclt mn.fCost x.fCost
      · rw [if_pos hc] at h
        have hp := Option.some.inj h
        have h1 : mn = n := congrArg Prod.fst hp
        have h2 : x :: rest' = r := congrArg Prod.snd hp
        rw [← h1, ← h2]
        have hperm := ih mn rest' hr
        exact (hperm.cons x).trans (List.Perm.swap mn x rest')
      · rw [if_neg hc] at h
        have hp := Option.some.inj h
        have h1 : x = n := congrArg Prod.fst hp
        have h2 : rest = r := congrArg Prod.snd hp
        rw [← h1, ← h2]

/-- The popped node has minimal fCost in the queue. -/
theorem popMin_min (l : List Node) (n : Node) (r : List Node)
    (h : popMin l = some (n, r)) : ∀ x ∈ l, gclt x.fCost n.fCost = false := by
  induction l generalizing n r with
  | nil => exact Option.noConfusion h
  | cons y rest ih =>
    unfold popMin at h
    cases hr : popMin rest with
    | none =>
      rw [hr] at h
      dsimp only at h
      have hp := Option.some.inj h
      have h1 : y = n := congrArg Prod.fst hp
      rw [← h1]
      intro x hx
      rcases List.mem_cons.mp hx with hxy | hxr
      · rw [hxy]
        exact gclt_false_of_gle _ _ (gle_refl _)
      · rw [(popMin_none_iff rest).mp hr] at hxr
        exact absurd hxr (List.not_mem_nil x)
    | some p =>
      rw [hr] at h
      obtain ⟨mn, rest'⟩ := p
      dsimp only at h
      by_cases hc : gclt mn.fCost y.fCost
      · rw [if_pos hc] at h
        have hp := Option.some.inj h
        have h1 : mn = n := congrArg Prod.fst hp
        rw [← h1]
        intro x hx
        rcases List.mem_cons.mp hx with hxy | hxr
        · rw [hxy]
          have h1 : gle mn.fCost y.fCost := by
            cases hyy : y.fCost with
            | none =>
              cases hmm : mn.fCost with
              | none => trivial
              | some b => trivial
            | some a =>
              cases hmm : mn.fCost with
              | none =>
                rw [hyy, hmm] at hc
                exact Bool.noConfusion hc
              | some b =>
                rw [hyy, hmm] at hc
                simp only [gclt, decide_eq_true_eq] at hc
                exact le_of_lt hc
          exact gclt_false_of_gle _ _ h1
        · exact ih mn rest' hr x hxr
      · rw [if_neg hc] at h
        have hp := Option.some.inj h
        have h1 : y = n := congrArg Prod.fst hp
        rw [← h1]
        intro x hx
        rcases List.mem_cons.mp hx with hxy | hxr
        · rw [hxy]
          exact gclt_false_of_gle _ _ (gle_refl _)
        · have hxmin := ih mn rest' hr x hxr
          have h1 : gle y.fCost mn.fCost := gle_of_gclt_false _ _ (Bool.eq_false_iff.mpr hc)
          have h2 : gle mn.fCost x.fCost := gle_of_gclt_false _ _ hxmin
          exact gclt_false_of_gle _ _ (gle_trans _ _ _ h1 h2)

/-- The flattened index of an in-bounds cell is nonnegative and below
`width * height`. -/
theorem idxOf_nonneg_lt (m : Map) (r c : Int) (hin : inBounds m r c) :
    0 ≤ idxOf m.width r c ∧ (idxOf m.width r c).toNat < m.width * m.height := by
  obtain ⟨h1, h2, h3, h4⟩ := hin
  unfold idxOf
  have hnn : 0 ≤ r * (m.width : Int) + c := by positivity
  have hub : r * (m.width : Int) + c < (m.width : Int) * (m.height : Int) := by nlinarith
  constructor
  · exact hnn
  · omega

/-- The flattened index is injective on in-bounds cells. -/
theorem idxOf_inj (m : Map) (r c r' c' : Int) (h1 : inBounds m r c) (h2 : inBounds m r' c')
    (he : idxOf m.width r c = idxOf m.width r' c') : r = r' ∧ c = c' :=
  cell_index_inj m r c r' c' h1 h2 (congrArg Int.toNat he)

/-- Decoding `index / width` and `index % width` with C++ truncating division
recovers an in-bounds cell's coordinates. -/
theorem decode_idxOf (m : Map) (r c : Int) (hin : inBounds m r c) :
    (idxOf m.width r c).tdiv (m.width : Int) = r ∧
      (idxOf m.width r c).tmod (m.width : Int) = c := by
  obtain ⟨h1, h2, h3, h4⟩ := hin
  unfold idxOf
  have hw : (0 : Int) < (m.width : Int) := by omega
  have hnn : 0 ≤ r * (m.width : Int) + c := by positivity
  constructor
  · rw [Int.tdiv_eq_ediv hnn (by omega)]
    rw [show r * (m.width : Int) + c = c + (m.width : Int) * r by ring]
    rw [Int.add_mul_ediv_left c r (by omega)]
    rw [Int.ediv_eq_zero_of_lt h3 h4]
    ring
  · rw [Int.tmod_eq_emod hnn (by omega)]
    rw [show r * (m.width : Int) + c = c + (m.width : Int) * r by ring]
    rw [Int.add_mul_emod_self_left]
    exact Int.emod_eq_of_lt h3 h4

/-- Characterization of a successful checked read. -/
theorem gGet_ok (g : List (Option Nat)) (i : Int) (v : Option Nat) :
    gGet g i = .ok v ↔ (0 ≤ i ∧ i.toNat < g.length) ∧ v = gAt g i := by
  unfold gGet gAt
  by_cases h : 0 ≤ i ∧ i.toNat < g.length
  · rw [if_pos h]
    constructor
    · intro hv
      exact ⟨h, (Except.ok.inj hv).symm⟩
    · rintro ⟨_, hv⟩
      rw [hv]
  · rw [if_neg h]
    constructor
    · intro hv
      exact Except.noConfusion hv
    · rintro ⟨hc, _⟩
      exact absurd hc h

/-- Characterization of a successful checked write. -/
theorem gSet_ok (g : List (Option Nat)) (i : Int) (v : Option Nat) (g' : List (Option Nat)) :
    gSet g i v = .ok g' ↔ (0 ≤ i ∧ i.toNat < g.length) ∧ g' = g.set i.toNat v := by
  unfold gSet
  by_cases h : 0 ≤ i ∧ i.toNat < g.length
  · rw [if_pos h]
    constructor
    · intro hv
      exact ⟨h, (Except.ok.inj hv).symm⟩
    · rintro ⟨_, hv⟩
      rw [hv]
  · rw [if_neg h]
    constructor
    · intro hv
      exact Except.noConfusion hv
    · rintro ⟨hc, _⟩
      exact absurd hc h

/-- Complete characterization of one successful neighbor-relaxation step:
either nothing changed (out of bounds, blocked, or no improvement), or the
neighbor was relaxed: its table entry dropped to `b + 1` where `b` is the
current node's table value, the neighbor node was pushed, and its `cameFrom`
entry points to the current node's index. -/
theorem relaxDir_spec (m : Map) (gr gc : Int) (cur : Node) (dir : Int × Int)
    (st st' : AState) (h : relaxDir m gr gc cur dir st = .ok st') :
    st' = st ∨
    ∃ b : Nat,
      inBounds m (cur.row + dir.1) (cur.col + dir.2) ∧
      ¬ blockedAt m (cur.row + dir.1) (cur.col + dir.2) ∧
      gAt st.gCosts (idxOf m.width cur.row cur.col) = some b ∧
      gclt (some (b + 1))
        (gAt st.gCosts (idxOf m.width (cur.row + dir.1) (cur.col + dir.2))) = true ∧
      0 ≤ idxOf m.width cur.row cur.col ∧
      (idxOf m.width cur.row cur.col).toNat < st.gCosts.length ∧
      st' = ⟨st.openSet ++ [⟨cur.row + dir.1, cur.col + dir.2, some (b + 1),
               some (Pathfinding.heuristic (cur.row + dir.1) (cur.col + dir.2) gr gc)⟩],
             st.gCosts.set (idxOf m.width (cur.row + dir.1) (cur.col + dir.2)).toNat
               (some (b + 1)),
             (idxOf m.width (cur.row + dir.1) (cur.col + dir.2),
              idxOf m.width cur.row cur.col) :: st.cameFrom⟩ := by
  simp only [relaxDir] at h
  by_cases hbound : cur.row + dir.1 < 0 ∨ cur.row + dir.1 ≥ (m.height : Int) ∨
      cur.col + dir.2 < 0 ∨ cur.col + dir.2 ≥ (m.width : Int)
  · rw [if_pos hbound] at h
    exact Or.inl (Except.ok.inj h).symm
  · rw [if_neg hbound] at h
    have hin : inBounds m (cur.row + dir.1) (cur.col + dir.2) := by
      by_contra hc
      exact hbound ((oob_guard_iff _ _ _).mpr hc)
    by_cases hblk : m.cellAt (cur.row + dir.1) (cur.col + dir.2) = 3
    · rw [if_pos hblk] at h
      exact Or.inl (Except.ok.inj h).symm
    · rw [if_neg hblk] at h
      cases hcur : gGet st.gCosts (idxOf m.width cur.row cur.col) with
      | error e =>
        rw [hcur] at h
        exact Except.noConfusion h
      | ok gCur =>
        rw [hcur] at h
        dsimp only at h
        obtain ⟨⟨hc1, hc2⟩, hcv⟩ := (gGet_ok _ _ _).mp hcur
        cases hngb : gGet st.gCosts (idxOf m.width (cur.row + dir.1) (cur.col + dir.2)) with
        | error e =>
          rw [hngb] at h
          exact Except.noConfusion h
        | ok gN =>
          rw [hngb] at h
          dsimp only at h
          obtain ⟨⟨hn1, hn2⟩, hnv⟩ := (gGet_ok _ _ _).mp hngb
          by_cases hlt : gclt (gcAdd gCur (some 1)) gN = true
          · rw [if_pos hlt] at h
            cases hset : gSet st.gCosts (idxOf m.width (cur.row + dir.1) (cur.col + dir.2))
                (gcAdd gCur (some 1)) with
            | error e =>
              rw [hset] at h
              exact Except.noConfusion h
            | ok g' =>
              rw [hset] at h
              dsimp only at h
              obtain ⟨_, hg'⟩ := (gSet_ok _ _ _ _).mp hset
              right
              cases hgcv : gCur with
              | none =>
                rw [hgcv] at hlt
                exact Bool.noConfusion hlt
              | some b =>
                refine ⟨b, hin, hblk, ?_, ?_, hc1, hc2, ?_⟩
                · rw [← hcv, hgcv]
                · rw [← hnv]
                  rw [hgcv] at hlt
                  exact hlt
                · rw [← Except.ok.inj h, hg', hgcv]
                  rfl
          · rw [if_neg hlt] at h
            exact Or.inl (Except.ok.inj h).symm

/-- Table read after a write. -/
theorem gAt_set (g : List (Option Nat)) (iN : Nat) (hiN : iN < g.length) (v : Option Nat)
    (j : Int) : gAt (g.set iN v) j = if iN = j.toNat then v else gAt g j :=
  getD_set_idx g iN j.toNat v none hiN

/-- Lookup in a freshly consed association list. -/
theorem lookup_cons (cf : List (Int × Int)) (k0 v0 k : Int) :
    ((k0, v0) :: cf).lookup k = if k = k0 then some v0 else cf.lookup k := by
  by_cases h : k = k0
  · rw [if_pos h]
    simp [List.lookup, h]
  · rw [if_neg h]
    simp only [List.lookup]
    rw [show (k == k0) = false from beq_eq_false_iff_ne.mpr h]

/-- Boolean "value is finite and at most j" on a table entry. -/
def valLeB : Option Nat → Nat → Bool
  | none, _ => false
  | some q, j => q ≤ j

/-- Everything the search maintains about one queue node: its cell is the
start or an in-bounds unblocked cell; its h cost is the Manhattan heuristic;
its g cost is finite and at least the current table entry of its cell; and
(unless it is the start) its cell has a `cameFrom` entry. -/
def NodeOK (m : Map) (sr sc gr gc : Int) (st : AState) (n : Node) : Prop :=
  ((n.row, n.col) = (sr, sc) ∨ (inBounds m n.row n.col ∧ ¬ blockedAt m n.row n.col)) ∧
  n.hCost = some (Pathfinding.heuristic n.row n.col gr gc) ∧
  (∃ gn tv : Nat, n.gCost = some gn ∧
    gAt st.gCosts (idxOf m.width n.row n.col) = some tv ∧ tv ≤ gn) ∧
  ((n.row, n.col) = (sr, sc) ∨ (st.cameFrom.lookup (idxOf m.width n.row n.col)).isSome)

/-- The invariant bundle of the A* main loop. -/
structure AInv (m : Map) (sr sc gr gc : Int) (st : AState) : Prop where
  glen : st.gCosts.length = m.width * m.height
  sIdxRange : 0 ≤ idxOf m.width sr sc ∧ (idxOf m.width sr sc).toNat < st.gCosts.length
  gstart : gAt st.gCosts (idxOf m.width sr sc) = some 0
  cfKeys : ∀ k v, st.cameFrom.lookup k = some v →
    ∃ nr nc, k = idxOf m.width nr nc ∧ inBounds m nr nc ∧ ¬ blockedAt m nr nc ∧
      k ≠ idxOf m.width sr sc ∧
      ∃ pr pc, v = idxOf m.width pr pc ∧ adjCell (nr, nc) (pr, pc) ∧
        ((pr, pc) = (sr, sc) ∨ (inBounds m pr pc ∧ ¬ blockedAt m pr pc ∧
          (st.cameFrom.lookup v).isSome))
  cfGap : ∀ k v, st.cameFrom.lookup k = some v →
    ∃ a b : Nat, gAt st.gCosts k = some a ∧ gAt st.gCosts v = some b ∧ b + 1 ≤ a
  finiteHasCf : ∀ i : Int, 0 ≤ i → i.toNat < st.gCosts.length → i ≠ idxOf m.width sr sc →
    (gAt st.gCosts i).isSome → (st.cameFrom.lookup i).isSome
  nodes : ∀ n ∈ st.openSet, NodeOK m sr sc gr gc st n
  card : ∀ j : Nat,
    (∃ i : Nat, i < st.gCosts.length ∧ ∃ q : Nat, st.gCosts.getD i none = some q ∧ j ≤ q) →
    j + 1 ≤ ((Finset.range st.gCosts.length).filter
      (fun i => valLeB (st.gCosts.getD i none) j = true)).card

/-- The invariant caps every finite table value strictly below the table
length. -/
theorem AInv_value_bound (m : Map) (sr sc gr gc : Int) (st : AState)
    (hinv : AInv m sr sc gr gc st) (i : Int) (q : Nat)
    (hq : gAt st.gCosts i = some q) : q < st.gCosts.length := by
  have hiN : i.toNat < st.gCosts.length := by
    by_contra hge
    unfold gAt at hq
    rw [List.getD_eq_default] at hq
    · exact Option.noConfusion hq
    · omega
  have hcard := hinv.card q ⟨i.toNat, hiN, q, hq, le_refl q⟩
  have hsub : ((Finset.range st.gCosts.length).filter
      (fun i => valLeB (st.gCosts.getD i none) q = true)).card ≤ st.gCosts.length := by
    calc ((Finset.range st.gCosts.length).filter
        (fun i => valLeB (st.gCosts.getD i none) q = true)).card
        ≤ (Finset.range st.gCosts.length).card := Finset.card_filter_le _ _
      _ = st.gCosts.length := Finset.card_range _
  omega

theorem gclt_some_iff (a b : Nat) : gclt (some a) (some b) = true ↔ a < b := by
  simp [gclt]


/-- `gAt` only depends on the truncated index. -/
theorem gAt_congr (g : List (Option Nat)) (i j : Int) (h : i.toNat = j.toNat) :
    gAt g i = gAt g j := by
  unfold gAt
  rw [h]

theorem valLeB_some_iff (q j : Nat) : valLeB (some q) j = true ↔ q ≤ j := by
  simp [valLeB]

/-- Lowering one table slot to a strictly smaller finite value preserves the
cardinality invariant of the cost table. -/
theorem card_field_set (g : List (Option Nat)) (nT cT b : Nat)
    (hnT : nT < g.length) (hcT : cT < g.length)
    (hb : g.getD cT none = some b)
    (hdec : gclt (some (b + 1)) (g.getD nT none) = true)
    (hcard : ∀ j : Nat,
      (∃ i : Nat, i < g.length ∧ ∃ q : Nat, g.getD i none = some q ∧ j ≤ q) →
      j + 1 ≤ ((Finset.range g.length).filter
        (fun i => valLeB (g.getD i none) j = true)).card)
    (j : Nat)
    (hex : ∃ i : Nat, i < (g.set nT (some (b + 1))).length ∧
      ∃ q : Nat, (g.set nT (some (b + 1))).getD i none = some q ∧ j ≤ q) :
    j + 1 ≤ ((Finset.range (g.set nT (some (b + 1))).length).filter
      (fun i => valLeB ((g.set nT (some (b + 1))).getD i none) j = true)).card := by
  obtain ⟨i, hi, q, hq, hjq⟩ := hex
  have hlen : (g.set nT (some (b + 1))).length = g.length := by simp
  have hget : ∀ x : Nat, (g.set nT (some (b + 1))).getD x none =
      if nT = x then some (b + 1) else g.getD x none :=
    fun x => getD_set_idx g nT x (some (b + 1)) none hnT
  have hsub : ∀ j1 j2 : Nat, j1 ≤ j2 →
      ((Finset.range g.length).filter (fun x => valLeB (g.getD x none) j1 = true)) ⊆
      ((Finset.range (g.set nT (some (b + 1))).length).filter
        (fun x => valLeB ((g.set nT (some (b + 1))).getD x none) j2 = true)) := by
    intro j1 j2 hle x hx
    rw [Finset.mem_filter] at hx
    rw [Finset.mem_filter]
    obtain ⟨hxr, hxv⟩ := hx
    rw [Finset.mem_range] at hxr
    refine ⟨Finset.mem_range.mpr (by rw [hlen]; exact hxr), ?_⟩
    rw [hget x]
    by_cases hxe : nT = x
    · rw [if_pos hxe]
      have hdec2 := hdec
      rw [hxe] at hdec2
      cases hgx : g.getD x none with
      | none =>
        rw [hgx] at hxv
        exact Bool.noConfusion hxv
      | some v0 =>
        rw [hgx] at hxv hdec2
        rw [valLeB_some_iff] at hxv
        rw [gclt_some_iff] at hdec2
        rw [valLeB_some_iff]
        omega
    · rw [if_neg hxe]
      cases hgx : g.getD x none with
      | none =>
        rw [hgx] at hxv
        exact Bool.noConfusion hxv
      | some v0 =>
        rw [hgx] at hxv
        rw [valLeB_some_iff]
        rw [valLeB_some_iff] at hxv
        omega
  by_cases hie : nT = i
  · rw [hget i, if_pos hie] at hq
    have hqe : b + 1 = q := Option.some.inj hq
    by_cases hjb : j ≤ b
    · exact le_trans (hcard j ⟨cT, hcT, b, hb, hjb⟩)
        (Finset.card_le_card (hsub j j (le_refl j)))
    · have hjeq : j = b + 1 := by omega
      have hold := hcard b ⟨cT, hcT, b, hb, le_refl b⟩
      have hnotmem : nT ∉ (Finset.range g.length).filter
          (fun x => valLeB (g.getD x none) b = true) := by
        rw [Finset.mem_filter]
        rintro ⟨_, hv⟩
        cases hgn : g.getD nT none with
        | none =>
          rw [hgn] at hv
          exact Bool.noConfusion hv
        | some v0 =>
          have hdec2 := hdec
          rw [hgn] at hv hdec2
          rw [valLeB_some_iff] at hv
          rw [gclt_some_iff] at hdec2
          omega
      have hins : insert nT ((Finset.range g.length).filter
          (fun x => valLeB (g.getD x none) b = true)) ⊆
          ((Finset.range (g.set nT (some (b + 1))).length).filter
            (fun x => valLeB ((g.set nT (some (b + 1))).getD x none) j = true)) := by
        intro x hx
        rcases Finset.mem_insert.mp hx with hxe | hxm
        · rw [Finset.mem_filter, hxe]
          refine ⟨Finset.mem_range.mpr (by rw [hlen]; exact hnT), ?_⟩
          rw [hget nT, if_pos rfl, valLeB_some_iff]
          omega
        · exact hsub b j (by omega) hxm
      have hclec := Finset.card_le_card hins
      rw [Finset.card_insert_of_not_mem hnotmem] at hclec
      omega
  · rw [hget i, if_neg hie] at hq
    rw [hlen] at hi
    exact le_trans (hcard j ⟨i, hi, q, hq, hjq⟩)
      (Finset.card_le_card (hsub j j (le_refl j)))

/-- One relaxation step preserves the invariant bundle; it only extends the
queue, only lowers table entries, and only extends the predecessor map. -/
theorem AInv_relax (m : Map) (sr sc gr gc : Int) (cur : Node) (dir : Int × Int)
    (st st' : AState)
    (hinv : AInv m sr sc gr gc st)
    (hcur : NodeOK m sr sc gr gc st cur)
    (hdir : dir ∈ directions)
    (hok : relaxDir m gr gc cur dir st = .ok st') :
    AInv m sr sc gr gc st' ∧
    NodeOK m sr sc gr gc st' cur ∧
    st'.gCosts.length = st.gCosts.length ∧
    (∀ n ∈ st.openSet, n ∈ st'.openSet) ∧
    (∀ i : Int, gle (gAt st'.gCosts i) (gAt st.gCosts i)) ∧
    (∀ k : Int, (st.cameFrom.lookup k).isSome → (st'.cameFrom.lookup k).isSome) := by
  rcases relaxDir_spec m gr gc cur dir st st' hok with heq | hspec
  · rw [heq]
    exact ⟨hinv, hcur, rfl, fun n hn => hn, fun i => gle_refl _, fun k hk => hk⟩
  · obtain ⟨b, hin, hblk, hcb, hlt, hc1, hc2, hst'⟩ := hspec
    have hw1 : (1 : Int) ≤ (m.width : Int) := by
      obtain ⟨_, _, h3, h4⟩ := hin
      omega
    have hs1 : 0 ≤ idxOf m.width sr sc := hinv.sIdxRange.1
    have hnrange := idxOf_nonneg_lt m (cur.row + dir.1) (cur.col + dir.2) hin
    have hn1 : 0 ≤ idxOf m.width (cur.row + dir.1) (cur.col + dir.2) := hnrange.1
    have hn2 : (idxOf m.width (cur.row + dir.1) (cur.col + dir.2)).toNat < st.gCosts.length := by
      rw [hinv.glen]
      exact hnrange.2
    have hdir4 : dir = ((0 : Int), (1 : Int)) ∨ dir = (1, 0) ∨ dir = (0, -1) ∨ dir = (-1, 0) := by
      simp only [directions] at hdir
      rcases List.mem_cons.mp hdir with h | h
      · exact Or.inl h
      rcases List.mem_cons.mp h with h | h
      · exact Or.inr (Or.inl h)
      rcases List.mem_cons.mp h with h | h
      · exact Or.inr (Or.inr (Or.inl h))
      rcases List.mem_cons.mp h with h | h
      · exact Or.inr (Or.inr (Or.inr h))
      · exact absurd h (List.not_mem_nil dir)
    have hne_cur : idxOf m.width (cur.row + dir.1) (cur.col + dir.2) ≠
        idxOf m.width cur.row cur.col := by
      unfold idxOf
      rcases hdir4 with hd | hd | hd | hd <;> rw [hd] <;> dsimp only <;>
        intro hcon <;> nlinarith [hw1]
    have hadj : adjCell (cur.row + dir.1, cur.col + dir.2) (cur.row, cur.col) := by
      unfold adjCell
      rcases hdir4 with hd | hd | hd | hd <;> rw [hd] <;> dsimp only <;> omega
    have hne_start : idxOf m.width (cur.row + dir.1) (cur.col + dir.2) ≠
        idxOf m.width sr sc := by
      intro hcon
      rw [hcon, hinv.gstart] at hlt
      rw [gclt_some_iff] at hlt
      omega
    have hOpen : st'.openSet = st.openSet ++ [⟨cur.row + dir.1, cur.col + dir.2, some (b + 1),
        some (Pathfinding.heuristic (cur.row + dir.1) (cur.col + dir.2) gr gc)⟩] := by
      rw [hst']
    have hG : st'.gCosts = st.gCosts.set
        (idxOf m.width (cur.row + dir.1) (cur.col + dir.2)).toNat (some (b + 1)) := by
      rw [hst']
    have hCF : st'.cameFrom = (idxOf m.width (cur.row + dir.1) (cur.col + dir.2),
        idxOf m.width cur.row cur.col) :: st.cameFrom := by
      rw [hst']
    have hgat' : ∀ j : Int, gAt (st.gCosts.set
        (idxOf m.width (cur.row + dir.1) (cur.col + dir.2)).toNat (some (b + 1))) j =
        if (idxOf m.width (cur.row + dir.1) (cur.col + dir.2)).toNat = j.toNat
        then some (b + 1) else gAt st.gCosts j :=
      fun j => gAt_set st.gCosts _ hn2 (some (b + 1)) j
    have hlook' : ∀ k : Int,
        (((idxOf m.width (cur.row + dir.1) (cur.col + dir.2),
          idxOf m.width cur.row cur.col) :: st.cameFrom).lookup k) =
        if k = idxOf m.width (cur.row + dir.1) (cur.col + dir.2)
        then some (idxOf m.width cur.row cur.col) else st.cameFrom.lookup k :=
      fun k => lookup_cons st.cameFrom _ _ k
    have hlookMono : ∀ k : Int, (st.cameFrom.lookup k).isSome →
        (((idxOf m.width (cur.row + dir.1) (cur.col + dir.2),
          idxOf m.width cur.row cur.col) :: st.cameFrom).lookup k).isSome := by
      intro k hk
      rw [hlook' k]
      by_cases h : k = idxOf m.width (cur.row + dir.1) (cur.col + dir.2)
      · rw [if_pos h]
        rfl
      · rw [if_neg h]
        exact hk
    have hglemono : ∀ i : Int, gle (gAt (st.gCosts.set
        (idxOf m.width (cur.row + dir.1) (cur.col + dir.2)).toNat (some (b + 1))) i)
        (gAt st.gCosts i) := by
      intro i
      rw [hgat' i]
      by_cases h : (idxOf m.width (cur.row + dir.1) (cur.col + dir.2)).toNat = i.toNat
      · rw [if_pos h]
        have hcongr : gAt st.gCosts i =
            gAt st.gCosts (idxOf m.width (cur.row + dir.1) (cur.col + dir.2)) :=
          gAt_congr _ _ _ (by omega)
        rw [hcongr]
        cases hgn : gAt st.gCosts (idxOf m.width (cur.row + dir.1) (cur.col + dir.2)) with
        | none => trivial
        | some v0 =>
          have hlt2 := hlt
          rw [hgn, gclt_some_iff] at hlt2
          show b + 1 ≤ v0
          omega
      · rw [if_neg h]
        exact gle_refl _
    have hnodeTrans : ∀ n : Node, NodeOK m sr sc gr gc st n → NodeOK m sr sc gr gc st' n := by
      intro n hOK
      unfold NodeOK at hOK ⊢
      obtain ⟨h1, h2, ⟨gn, tv, hgn, htv, htl⟩, h4⟩ := hOK
      refine ⟨h1, h2, ?_, ?_⟩
      · by_cases he : (idxOf m.width (cur.row + dir.1) (cur.col + dir.2)).toNat =
            (idxOf m.width n.row n.col).toNat
        · refine ⟨gn, b + 1, hgn, ?_, ?_⟩
          · rw [hG, hgat' _, if_pos he]
          · have hcongr : gAt st.gCosts (idxOf m.width (cur.row + dir.1) (cur.col + dir.2)) =
                gAt st.gCosts (idxOf m.width n.row n.col) := gAt_congr _ _ _ he
            have hlt2 := hlt
            rw [hcongr, htv, gclt_some_iff] at hlt2
            omega
        · exact ⟨gn, tv, hgn, by rw [hG, hgat' _, if_neg he]; exact htv, htl⟩
      · rcases h4 with h4 | h4
        · exact Or.inl h4
        · exact Or.inr (by rw [hCF]; exact hlookMono _ h4)
    refine ⟨⟨?_, ?_, ?_, ?_, ?_, ?_, ?_, ?_⟩, hnodeTrans cur hcur, ?_, ?_, ?_, ?_⟩
    · rw [hG]
      simp only [List.length_set]
      exact hinv.glen
    · refine ⟨hinv.sIdxRange.1, ?_⟩
      rw [hG]
      simp only [List.length_set]
      exact hinv.sIdxRange.2
    · rw [hG, hgat' _, if_neg (fun hcc => hne_start (by omega))]
      exact hinv.gstart
    · intro k v hkv
      rw [hCF, hlook' k] at hkv
      by_cases hk : k = idxOf m.width (cur.row + dir.1) (cur.col + dir.2)
      · rw [if_pos hk] at hkv
        have hv : v = idxOf m.width cur.row cur.col := (Option.some.inj hkv).symm
        refine ⟨cur.row + dir.1, cur.col + dir.2, hk, hin, hblk, ?_, cur.row, cur.col,
          hv, hadj, ?_⟩
        · rw [hk]
          exact hne_start
        · have hcurU := hcur
          unfold NodeOK at hcurU
          obtain ⟨hcur1, _, _, hcur4⟩ := hcurU
          rcases hcur4 with hstart | hlk
          · exact Or.inl hstart
          · rcases hcur1 with hstart | hbb
            · exact Or.inl hstart
            · refine Or.inr ⟨hbb.1, hbb.2, ?_⟩
              rw [hv, hCF]
              exact hlookMono _ hlk
      · rw [if_neg hk] at hkv
        obtain ⟨nr2, nc2, hkeq, hkin, hkblk, hkne, pr2, pc2, hveq, hvadj, hvdisj⟩ :=
          hinv.cfKeys k v hkv
        refine ⟨nr2, nc2, hkeq, hkin, hkblk, hkne, pr2, pc2, hveq, hvadj, ?_⟩
        rcases hvdisj with hstart | ⟨hbi, hbb, hlk⟩
        · exact Or.inl hstart
        · refine Or.inr ⟨hbi, hbb, ?_⟩
          rw [hCF]
          exact hlookMono _ hlk
    · intro k v hkv
      rw [hCF, hlook' k] at hkv
      rw [hG]
      by_cases hk : k = idxOf m.width (cur.row + dir.1) (cur.col + dir.2)
      · rw [if_pos hk] at hkv
        have hv : v = idxOf m.width cur.row cur.col := (Option.some.inj hkv).symm
        refine ⟨b + 1, b, ?_, ?_, le_refl _⟩
        · rw [hgat' k, if_pos (by rw [hk])]
        · rw [hgat' v, if_neg (fun hcc => hne_cur (by omega)), hv]
          exact hcb
      · rw [if_neg hk] at hkv
        obtain ⟨a, b2, ha, hb2, hgap⟩ := hinv.cfGap k v hkv
        obtain ⟨nr2, nc2, hkeq, hkin, _, _, pr2, pc2, hveq, _, hvdisj⟩ :=
          hinv.cfKeys k v hkv
        have hknn : 0 ≤ k := by
          rw [hkeq]
          exact (idxOf_nonneg_lt m nr2 nc2 hkin).1
        have hvnn : 0 ≤ v := by
          rcases hvdisj with hstart | ⟨hbi, _, _⟩
          · have h1 : pr2 = sr := congrArg Prod.fst hstart
            have h2 : pc2 = sc := congrArg Prod.snd hstart
            rw [hveq, h1, h2]
            exact hs1
          · rw [hveq]
            exact (idxOf_nonneg_lt m pr2 pc2 hbi).1
        by_cases hv : v = idxOf m.width (cur.row + dir.1) (cur.col + dir.2)
        · have hb2' : gAt st.gCosts (idxOf m.width (cur.row + dir.1) (cur.col + dir.2)) =
              some b2 := by
            rw [← hv]
            exact hb2
          have hlt2 := hlt
          rw [hb2', gclt_some_iff] at hlt2
          refine ⟨a, b + 1, ?_, ?_, by omega⟩
          · rw [hgat' k, if_neg (fun hcc => hk (by omega))]
            exact ha
          · rw [hgat' v, if_pos (by rw [hv])]
        · refine ⟨a, b2, ?_, ?_, hgap⟩
          · rw [hgat' k, if_neg (fun hcc => hk (by omega))]
            exact ha
          · rw [hgat' v, if_neg (fun hcc => hv (by omega))]
            exact hb2
    · intro i hi0 hilen hine hsome
      rw [hCF]
      by_cases hi : i = idxOf m.width (cur.row + dir.1) (cur.col + dir.2)
      · rw [hlook' i, if_pos hi]
        rfl
      · rw [hG, hgat' i, if_neg (fun hcc => hi (by omega))] at hsome
        rw [hG] at hilen
        simp only [List.length_set] at hilen
        exact hlookMono i (hinv.finiteHasCf i hi0 hilen hine hsome)
    · intro n hn
      rw [hOpen] at hn
      rcases List.mem_append.mp hn with hn2 | hn2
      · exact hnodeTrans n (hinv.nodes n hn2)
      · have hne2 : n = (⟨cur.row + dir.1, cur.col + dir.2, some (b + 1),
            some (Pathfinding.heuristic (cur.row + dir.1) (cur.col + dir.2) gr gc)⟩ : Node) :=
          List.mem_singleton.mp hn2
        rw [hne2]
        unfold NodeOK
        dsimp only
        refine ⟨Or.inr ⟨hin, hblk⟩, rfl, ⟨b + 1, b + 1, rfl, ?_, le_refl _⟩, Or.inr ?_⟩
        · rw [hG, hgat' _, if_pos rfl]
        · rw [hCF, hlook' _, if_pos rfl]
          rfl
    · intro j hex
      rw [hG] at hex ⊢
      exact card_field_set st.gCosts _ _ b hn2 hc2 hcb hlt hinv.card j hex
    · rw [hG]
      simp only [List.length_set]
    · intro n hn
      rw [hOpen]
      exact List.mem_append_left _ hn
    · intro i
      rw [hG]
      exact hglemono i
    · intro k hk
      rw [hCF]
      exact hlookMono k hk

/-- Folding the relaxation over any sublist of the four directions preserves
the invariant bundle and its monotonicity facts. -/
theorem AInv_expand_aux (m : Map) (sr sc gr gc : Int) (cur : Node)
    (l : List (Int × Int)) :
    (∀ d ∈ l, d ∈ directions) →
    ∀ st st' : AState, AInv m sr sc gr gc st → NodeOK m sr sc gr gc st cur →
    l.foldlM (fun s d => relaxDir m gr gc cur d s) st = .ok st' →
    AInv m sr sc gr gc st' ∧
    NodeOK m sr sc gr gc st' cur ∧
    st'.gCosts.length = st.gCosts.length ∧
    (∀ n ∈ st.openSet, n ∈ st'.openSet) ∧
    (∀ i : Int, gle (gAt st'.gCosts i) (gAt st.gCosts i)) ∧
    (∀ k : Int, (st.cameFrom.lookup k).isSome → (st'.cameFrom.lookup k).isSome) := by
  induction l with
  | nil =>
    intro _ st st' hinv hcur hok
    have he : st = st' := Except.ok.inj hok
    subst he
    exact ⟨hinv, hcur, rfl, fun n hn => hn, fun i => gle_refl _, fun k hk => hk⟩
  | cons d rest ih =>
    intro hl st st' hinv hcur hok
    simp only [List.foldlM] at hok
    cases hr : relaxDir m gr gc cur d st with
    | error e =>
      rw [hr] at hok
      exact Except.noConfusion hok
    | ok s1 =>
      rw [hr] at hok
      obtain ⟨hinv1, hcur1, hlen1, hopen1, hgle1, hcf1⟩ :=
        AInv_relax m sr sc gr gc cur d st s1 hinv hcur (hl d (List.mem_cons_self d rest)) hr
      obtain ⟨hinv2, hcur2, hlen2, hopen2, hgle2, hcf2⟩ :=
        ih (fun d2 hd2 => hl d2 (List.mem_cons_of_mem d hd2)) s1 st' hinv1 hcur1 hok
      exact ⟨hinv2, hcur2, hlen2.trans hlen1,
        fun n hn => hopen2 n (hopen1 n hn),
        fun i => gle_trans _ _ _ (hgle2 i) (hgle1 i),
        fun k hk => hcf2 k (hcf1 k hk)⟩

/-- Exploring all four neighbors of a popped node preserves the invariant. -/
theorem AInv_expand (m : Map) (sr sc gr gc : Int) (cur : Node) (st st' : AState)
    (hinv : AInv m sr sc gr gc st) (hcur : NodeOK m sr sc gr gc st cur)
    (hok : expandNode m gr gc cur st = .ok st') :
    AInv m sr sc gr gc st' ∧
    NodeOK m sr sc gr gc st' cur ∧
    st'.gCosts.length = st.gCosts.length ∧
    (∀ n ∈ st.openSet, n ∈ st'.openSet) ∧
    (∀ i : Int, gle (gAt st'.gCosts i) (gAt st.gCosts i)) ∧
    (∀ k : Int, (st.cameFrom.lookup k).isSome → (st'.cameFrom.lookup k).isSome) :=
  AInv_expand_aux m sr sc gr gc cur directions (fun _ hd => hd) st st' hinv hcur hok

/-- Popping the minimum preserves the invariant (on the state without the
popped node) and yields a node satisfying the per-node invariant. -/
theorem AInv_pop (m : Map) (sr sc gr gc : Int) (st : AState) (cur : Node)
    (rest : List Node) (hinv : AInv m sr sc gr gc st)
    (hpop : popMin st.openSet = some (cur, rest)) :
    AInv m sr sc gr gc { st with openSet := rest } ∧ NodeOK m sr sc gr gc st cur := by
  have hperm := popMin_perm st.openSet cur rest hpop
  have hmem : ∀ n ∈ cur :: rest, n ∈ st.openSet := fun n hn => hperm.mem_iff.mpr hn
  constructor
  · exact ⟨hinv.glen, hinv.sIdxRange, hinv.gstart, hinv.cfKeys, hinv.cfGap,
      hinv.finiteHasCf,
      fun n hn => hinv.nodes n (hmem n (List.mem_cons_of_mem cur hn)), hinv.card⟩
  · exact hinv.nodes cur (hmem cur (List.mem_cons_self cur rest))

/-- Reading an all-`none` table gives `none` everywhere. -/
theorem getD_replicate (n j : Nat) :
    (List.replicate n (none : Option Nat)).getD j none = none := by
  induction n generalizing j with
  | zero => rfl
  | succ k ih =>
    cases j with
    | zero => rfl
    | succ j2 => exact ih j2

/-- The invariant bundle holds for the initial search state whenever the
start's flattened index is in range. -/
theorem AInv_init (m : Map) (sr sc gr gc : Int)
    (h1 : 0 ≤ idxOf m.width sr sc)
    (h2 : (idxOf m.width sr sc).toNat < m.width * m.height) :
    AInv m sr sc gr gc ⟨[⟨sr, sc, some 0, some (Pathfinding.heuristic sr sc gr gc)⟩],
      (List.replicate (m.width * m.height) (none : Option Nat)).set
        (idxOf m.width sr sc).toNat (some 0), []⟩ := by
  have hrep : (List.replicate (m.width * m.height) (none : Option Nat)).length =
      m.width * m.height := by simp
  have hlen : ((List.replicate (m.width * m.height) (none : Option Nat)).set
      (idxOf m.width sr sc).toNat (some 0)).length = m.width * m.height := by simp
  have hgat0 : ∀ j : Int, gAt ((List.replicate (m.width * m.height) (none : Option Nat)).set
      (idxOf m.width sr sc).toNat (some 0)) j =
      if (idxOf m.width sr sc).toNat = j.toNat then some 0 else none := by
    intro j
    rw [gAt_set _ _ (by rw [hrep]; exact h2) _ j]
    by_cases h : (idxOf m.width sr sc).toNat = j.toNat
    · rw [if_pos h, if_pos h]
    · rw [if_neg h, if_neg h]
      exact getD_replicate _ _
  refine ⟨hlen, ⟨h1, by rw [hlen]; exact h2⟩, ?_, ?_, ?_, ?_, ?_, ?_⟩
  · show gAt _ (idxOf m.width sr sc) = some 0
    rw [hgat0, if_pos rfl]
  · intro k v hkv
    exact Option.noConfusion hkv
  · intro k v hkv
    exact Option.noConfusion hkv
  · intro i hi0 hilen hine hsome
    rw [show (⟨[⟨sr, sc, some 0, some (Pathfinding.heuristic sr sc gr gc)⟩],
      (List.replicate (m.width * m.height) (none : Option Nat)).set
        (idxOf m.width sr sc).toNat (some 0), []⟩ : AState).gCosts =
      (List.replicate (m.width * m.height) (none : Option Nat)).set
        (idxOf m.width sr sc).toNat (some 0) from rfl, hgat0 i] at hsome
    by_cases h : (idxOf m.width sr sc).toNat = i.toNat
    · exact absurd (by omega : i = idxOf m.width sr sc) hine
    · rw [if_neg h] at hsome
      exact Bool.noConfusion hsome
  · intro n hn
    have hn2 : n = (⟨sr, sc, some 0, some (Pathfinding.heuristic sr sc gr gc)⟩ : Node) :=
      List.mem_singleton.mp hn
    rw [hn2]
    unfold NodeOK
    dsimp only
    refine ⟨Or.inl rfl, rfl, ⟨0, 0, rfl, ?_, le_refl 0⟩, Or.inl rfl⟩
    rw [hgat0, if_pos rfl]
  · intro j hex
    dsimp only at hex ⊢
    obtain ⟨i, hi, q, hq, hjq⟩ := hex
    rw [getD_set_idx _ _ i (some 0) none (by rw [hrep]; exact h2)] at hq
    by_cases h : (idxOf m.width sr sc).toNat = i
    · rw [if_pos h] at hq
      have hq0 : (0 : Nat) = q := Option.some.inj hq
      have hj0 : j = 0 := by omega
      subst hj0
      have hmem : (idxOf m.width sr sc).toNat ∈
          (Finset.range ((List.replicate (m.width * m.height) (none : Option Nat)).set
            (idxOf m.width sr sc).toNat (some 0)).length).filter
            (fun x => valLeB (((List.replicate (m.width * m.height) (none : Option Nat)).set
              (idxOf m.width sr sc).toNat (some 0)).getD x none) 0 = true) := by
        rw [Finset.mem_filter]
        refine ⟨Finset.mem_range.mpr (by rw [hlen]; exact h2), ?_⟩
        rw [getD_set_idx _ _ _ (some 0) none (by rw [hrep]; exact h2), if_pos rfl]
        rfl
      have hpos := Finset.card_pos.mpr ⟨_, hmem⟩
      omega
    · rw [if_neg h, getD_replicate] at hq
      exact Option.noConfusion hq

/-- Conditional correctness of the A* main loop: when it returns, the
invariant holds for the final state, and if the goal was reached then the
goal coincides with the start or is an in-bounds unblocked cell with a
`cameFrom` entry. -/
theorem aStarLoop_spec (m : Map) (sr sc gr gc : Int) (fuel : Nat) :
    ∀ (st : AState) (found : Bool) (stF : AState), AInv m sr sc gr gc st →
    aStarLoop m gr gc fuel st = .ok (found, stF) →
    AInv m sr sc gr gc stF ∧
    (found = true → ((gr, gc) = (sr, sc) ∨
      (inBounds m gr gc ∧ ¬ blockedAt m gr gc ∧
        (stF.cameFrom.lookup (idxOf m.width gr gc)).isSome))) := by
  induction fuel with
  | zero =>
    intro st found stF _ hok
    exact Except.noConfusion hok
  | succ n ih =>
    intro st found stF hinv hok
    simp only [aStarLoop] at hok
    cases hpop : popMin st.openSet with
    | none =>
      rw [hpop] at hok
      dsimp only at hok
      have hp := Except.ok.inj hok
      have hf : false = found := congrArg Prod.fst hp
      have hs2 : st = stF := congrArg Prod.snd hp
      refine ⟨hs2 ▸ hinv, ?_⟩
      intro hfound
      rw [← hf] at hfound
      exact Bool.noConfusion hfound
    | some p =>
      rw [hpop] at hok
      obtain ⟨cur, rest⟩ := p
      dsimp only at hok
      obtain ⟨hinvP, hcurP⟩ := AInv_pop m sr sc gr gc st cur rest hinv hpop
      by_cases hg : cur.row = gr ∧ cur.col = gc
      · rw [if_pos hg] at hok
        have hp := Except.ok.inj hok
        have hf : true = found := congrArg Prod.fst hp
        have hs2 : ({ st with openSet := rest } : AState) = stF := congrArg Prod.snd hp
        refine ⟨hs2 ▸ hinvP, ?_⟩
        intro _
        have hOK := hcurP
        unfold NodeOK at hOK
        obtain ⟨h1, _, _, h4⟩ := hOK
        rcases h4 with h4 | h4
        · exact Or.inl (by rw [← hg.1, ← hg.2]; exact h4)
        · rcases h1 with h1 | h1
          · exact Or.inl (by rw [← hg.1, ← hg.2]; exact h1)
          · refine Or.inr ⟨?_, ?_, ?_⟩
            · rw [← hg.1, ← hg.2]
              exact h1.1
            · rw [← hg.1, ← hg.2]
              exact h1.2
            · rw [← hs2, ← hg.1, ← hg.2]
              exact h4
      · rw [if_neg hg] at hok
        cases hex : expandNode m gr gc cur { st with openSet := rest } with
        | error e =>
          rw [hex] at hok
          exact Except.noConfusion hok
        | ok st1 =>
          rw [hex] at hok
          dsimp only at hok
          obtain ⟨hinv1, _, _, _, _, _⟩ :=
            AInv_expand m sr sc gr gc cur { st with openSet := rest } st1 hinvP hcurP hex
          exact ih st1 found stF hinv1 hok

theorem adjCell_symm (a b : Cell) (h : adjCell a b) : adjCell b a := by
  unfold adjCell at h ⊢
  omega

/-- Appending one cell adjacent to the last cell keeps the chain property. -/
theorem stepChain_snoc (a : Cell) (l : List Cell) :
    stepChain l → (∀ x : Cell, l.getLast? = some x → adjCell x a) →
    stepChain (l ++ [a]) := by
  induction l with
  | nil =>
    intro _ _
    trivial
  | cons y l2 ih =>
    intro h hlast
    cases l2 with
    | nil =>
      exact ⟨hlast y rfl, True.intro⟩
    | cons z l3 =>
      have h2 : adjCell y z ∧ stepChain (z :: l3) := h
      refine ⟨h2.1, ?_⟩
      exact ih h2.2 (fun x hx => hlast x (by rw [List.getLast?_cons_cons]; exact hx))

/-- Reversal preserves the chain property (adjacency is symmetric). -/
theorem stepChain_reverse (l : List Cell) (h : stepChain l) : stepChain l.reverse := by
  induction l with
  | nil => trivial
  | cons a l2 ih =>
    cases l2 with
    | nil => trivial
    | cons b l3 =>
      have h2 : adjCell a b ∧ stepChain (b :: l3) := h
      have hrev := ih h2.2
      show stepChain ((a :: b :: l3).reverse)
      rw [List.reverse_cons]
      refine stepChain_snoc a ((b :: l3).reverse) hrev ?_
      intro x hx
      have hh : (b :: l3).reverse.getLast? = some b := by
        rw [List.getLast?_reverse]
        rfl
      have hxb : x = b := by
        rw [hx] at hh
        exact Option.some.inj hh
      rw [hxb]
      exact adjCell_symm a b h2.1

/-- The start's flattened index never acquires a `cameFrom` entry. -/
theorem lookup_start_none (m : Map) (sr sc gr gc : Int) (st : AState)
    (hinv : AInv m sr sc gr gc st) :
    st.cameFrom.lookup (idxOf m.width sr sc) = none := by
  cases hl : st.cameFrom.lookup (idxOf m.width sr sc) with
  | none => rfl
  | some v =>
    obtain ⟨_, _, _, _, _, hne, _, _, _, _, _⟩ := hinv.cfKeys _ v hl
    exact absurd rfl hne

/-- What a successful backward walk over the `cameFrom` map produces: either
the index has no entry and the collected list is empty, or the index decodes
to an in-bounds unblocked cell that heads the list, every collected cell is
in bounds and unblocked, and the list extended with the start cell is a
4-connected chain. -/
theorem reconstructPath_spec (m : Map) (sr sc gr gc : Int) (st : AState)
    (hinv : AInv m sr sc gr gc st) (fuel : Nat) :
    ∀ (k : Int) (p : List Cell),
    reconstructPath m.width st.cameFrom fuel k = .ok p →
    (st.cameFrom.lookup k = none ∧ p = []) ∨
    (∃ nr nc : Int, k = idxOf m.width nr nc ∧ inBounds m nr nc ∧
      ¬ blockedAt m nr nc ∧ (st.cameFrom.lookup k).isSome ∧
      p.head? = some (nr, nc) ∧
      (∀ c ∈ p, inBounds m c.1 c.2 ∧ ¬ blockedAt m c.1 c.2) ∧
      stepChain (p ++ [(sr, sc)])) := by
  induction fuel with
  | zero =>
    intro k p hok
    exact Except.noConfusion hok
  | succ n ih =>
    intro k p hok
    simp only [reconstructPath] at hok
    cases hlk : st.cameFrom.lookup k with
    | none =>
      rw [hlk] at hok
      dsimp only at hok
      exact Or.inl ⟨rfl, (Except.ok.inj hok).symm⟩
    | some v =>
      rw [hlk] at hok
      dsimp only at hok
      cases hrec : reconstructPath m.width st.cameFrom n v with
      | error e =>
        rw [hrec] at hok
        exact Except.noConfusion hok
      | ok rest =>
        rw [hrec] at hok
        dsimp only at hok
        have hpe : ((k.tdiv (m.width : Int), k.tmod (m.width : Int)) : Cell) :: rest = p :=
          Except.ok.inj hok
        obtain ⟨nr, nc, hkeq, hkin, hkblk, hkne, pr, pc, hveq, hvadj, hvdisj⟩ :=
          hinv.cfKeys k v hlk
        have hdecode := decode_idxOf m nr nc hkin
        have hcell : ((k.tdiv (m.width : Int), k.tmod (m.width : Int)) : Cell) = (nr, nc) := by
          rw [hkeq, hdecode.1, hdecode.2]
        right
        refine ⟨nr, nc, hkeq, hkin, hkblk, rfl, ?_, ?_, ?_⟩
        · rw [← hpe, hcell]
          rfl
        · rw [← hpe]
          intro c hc
          rcases List.mem_cons.mp hc with hc | hc
          · rw [hc, hcell]
            exact ⟨hkin, hkblk⟩
          · rcases ih v rest hrec with ⟨_, hrnil⟩ | ⟨nr2, nc2, _, _, _, _, _, hall2, _⟩
            · rw [hrnil] at hc
              exact absurd hc (List.not_mem_nil c)
            · exact hall2 c hc
        · rw [← hpe]
          rcases ih v rest hrec with ⟨hlv, hrnil⟩ |
            ⟨nr2, nc2, hveq2, hin2, _, hsome2, hhead2, _, hchain2⟩
          · rw [hrnil]
            rcases hvdisj with hstart | ⟨_, _, hsome⟩
            · have h1 : pr = sr := congrArg Prod.fst hstart
              have h2 : pc = sc := congrArg Prod.snd hstart
              rw [hcell]
              show adjCell (nr, nc) (sr, sc) ∧ stepChain [((sr, sc) : Cell)]
              refine ⟨?_, True.intro⟩
              rw [← h1, ← h2]
              exact hvadj
            · rw [hlv] at hsome
              exact Bool.noConfusion hsome
          · rcases hvdisj with hstart | ⟨hin3, _, _⟩
            · obtain ⟨v2, hv2⟩ := Option.isSome_iff_exists.mp hsome2
              obtain ⟨_, _, _, _, _, hvne, _, _, _, _, _⟩ := hinv.cfKeys v v2 hv2
              have h1 : pr = sr := congrArg Prod.fst hstart
              have h2 : pc = sc := congrArg Prod.snd hstart
              exact absurd (by rw [hveq, h1, h2]) hvne
            · have hinj := idxOf_inj m nr2 nc2 pr pc hin2 hin3 (by rw [← hveq2, ← hveq])
              cases rest with
              | nil => exact Option.noConfusion hhead2
              | cons c2 rest2 =>
                have hc2 : c2 = (nr2, nc2) := Option.some.inj hhead2
                show adjCell ((k.tdiv (m.width : Int), k.tmod (m.width : Int)) : Cell) c2 ∧
                  stepChain ((c2 :: rest2) ++ [((sr, sc) : Cell)])
                refine ⟨?_, hchain2⟩
                rw [hcell, hc2, hinj.1, hinj.2]
                exact hvadj

/-- C7: for every grid and every start/goal pair, each consecutive pair of
cells in a non-empty path returned by `aStar` differs by exactly one
orthogonal step (Manhattan distance 1), and the path's first cell is the
start and its last cell is the goal. -/
theorem aStar_path_contiguity (m : Map) (sr sc gr gc : Int) (p : List Cell)
    (hok : Pathfinding.aStar m sr sc gr gc = .ok p) (hne : p ≠ []) :
    p.head? = some (sr, sc) ∧ p.getLast? = some (gr, gc) ∧ stepChain p := by
  unfold Pathfinding.aStar at hok
  cases hgs : gSet (List.replicate (m.width * m.height) none)
      (idxOf m.width sr sc) (some 0) with
  | error e =>
    rw [hgs] at hok
    exact Except.noConfusion hok
  | ok g1 =>
    rw [hgs] at hok
    dsimp only at hok
    obtain ⟨⟨hs1, hs2⟩, hg1⟩ := (gSet_ok _ _ _ _).mp hgs
    rw [List.length_replicate] at hs2
    subst hg1
    cases hloop : aStarLoop m gr gc (5 * (m.width * m.height) * (m.width * m.height) + 2)
        ⟨[⟨sr, sc, some 0, some (Pathfinding.heuristic sr sc gr gc)⟩],
          (List.replicate (m.width * m.height) none).set (idxOf m.width sr sc).toNat (some 0),
          []⟩ with
    | error e =>
      rw [hloop] at hok
      exact Except.noConfusion hok
    | ok res =>
      rw [hloop] at hok
      obtain ⟨found, stF⟩ := res
      dsimp only at hok
      obtain ⟨hinvF, hfound⟩ := aStarLoop_spec m sr sc gr gc _ _ _ _
        (AInv_init m sr sc gr gc hs1 hs2) hloop
      cases found with
      | false =>
        exact absurd (Except.ok.inj hok).symm hne
      | true =>
        rw [if_pos rfl] at hok
        cases hrec : reconstructPath m.width stF.cameFrom (m.width * m.height + 1)
            (idxOf m.width gr gc) with
        | error e =>
          rw [hrec] at hok
          exact Except.noConfusion hok
        | ok p0 =>
          rw [hrec] at hok
          dsimp only at hok
          have hpe : (p0 ++ [((sr, sc) : Cell)]).reverse = p := Except.ok.inj hok
          have hfoundT := hfound rfl
          rcases reconstructPath_spec m sr sc gr gc stF hinvF _ _ _ hrec with
            ⟨hlnone, hp0nil⟩ | ⟨nr, nc, hkeq, hkin, hkblk, hksome, hhead, hall, hchain⟩
          · have hgs2 : ((gr, gc) : Cell) = (sr, sc) := by
              rcases hfoundT with h | ⟨_, _, hsome⟩
              · exact h
              · rw [hlnone] at hsome
                exact Bool.noConfusion hsome
            subst hp0nil
            rw [← hpe]
            refine ⟨rfl, ?_, True.intro⟩
            rw [hgs2]
            rfl
          · have hp0ne : p0 ≠ [] := by
              intro hcon
              rw [hcon] at hhead
              exact Option.noConfusion hhead
            have hgoal_in : inBounds m gr gc ∧ ¬ blockedAt m gr gc := by
              rcases hfoundT with h | ⟨hin2, hblk2, _⟩
              · exfalso
                have h1 : gr = sr := congrArg Prod.fst h
                have h2 : gc = sc := congrArg Prod.snd h
                have hnone := lookup_start_none m sr sc gr gc stF hinvF
                rw [← h1, ← h2] at hnone
                rw [hnone] at hksome
                exact Bool.noConfusion hksome
              · exact ⟨hin2, hblk2⟩
            have hinj := idxOf_inj m nr nc gr gc hkin hgoal_in.1 hkeq.symm
            rw [← hpe]
            have hrev : (p0 ++ [((sr, sc) : Cell)]).reverse = (sr, sc) :: p0.reverse := by
              simp
            refine ⟨?_, ?_, ?_⟩
            · rw [hrev]
              rfl
            · rw [List.getLast?_reverse]
              cases p0 with
              | nil => exact absurd rfl hp0ne
              | cons c0 p1 =>
                have hc0 : c0 = (nr, nc) := Option.some.inj hhead
                show some c0 = some ((gr, gc) : Cell)
                rw [hc0, hinj.1, hinj.2]
            · exact stepChain_reverse _ hchain

/-- A two-cell free corridor for exercising the path-contiguity theorem. -/
def mC7 : Map := ⟨2, 1, [0, 0]⟩

theorem aStar_path_contiguity_witness :
    (Pathfinding.aStar mC7 0 0 0 1 = .ok [((0 : Int), (0 : Int)), (0, 1)] ∧
      ([((0 : Int), (0 : Int)), (0, 1)] : List Cell) ≠ []) ∧
    (([((0 : Int), (0 : Int)), (0, 1)] : List Cell).head? = some (0, 0) ∧
      ([((0 : Int), (0 : Int)), (0, 1)] : List Cell).getLast? = some (0, 1) ∧
      stepChain [((0 : Int), (0 : Int)), (0, 1)]) :=
  ⟨⟨by decide, by decide⟩, aStar_path_contiguity mC7 0 0 0 1 _ (by decide) (by decide)⟩

/-- Potential of one cost-table entry: its value, or the table length for the
infinite entry (every finite value stays strictly below the length). -/
def pot (L : Nat) : Option Nat → Nat
  | none => L
  | some q => q

/-- Total potential of the cost table. -/
def sumPot (L : Nat) (g : List (Option Nat)) : Nat := (g.map (pot L)).sum

/-- Termination measure of the A* main loop. -/
def measureA (st : AState) : Nat :=
  st.openSet.length + 2 * sumPot st.gCosts.length st.gCosts

theorem sumPot_set_lt (L : Nat) (g : List (Option Nat)) (i : Nat) (hi : i < g.length)
    (v : Option Nat) (hlt : pot L v < pot L (g.getD i none)) :
    sumPot L (g.set i v) < sumPot L g := by
  induction g generalizing i with
  | nil => exact absurd hi (Nat.not_lt_zero i)
  | cons a g2 ih =>
    cases i with
    | zero =>
      show sumPot L (v :: g2) < sumPot L (a :: g2)
      unfold sumPot
      simp only [List.map_cons, List.sum_cons]
      have h1 : pot L v < pot L a := hlt
      omega
    | succ i2 =>
      show sumPot L (a :: g2.set i2 v) < sumPot L (a :: g2)
      unfold sumPot
      simp only [List.map_cons, List.sum_cons]
      have hrec := ih i2 (by simp only [List.length_cons] at hi; omega) hlt
      unfold sumPot at hrec
      omega

theorem sumPot_le (L : Nat) (g : List (Option Nat)) (h : ∀ e ∈ g, pot L e ≤ L) :
    sumPot L g ≤ L * g.length := by
  induction g with
  | nil => exact le_refl 0
  | cons a g2 ih =>
    unfold sumPot
    simp only [List.map_cons, List.sum_cons, List.length_cons]
    have h1 : pot L a ≤ L := h a (List.mem_cons_self a g2)
    have h2 := ih (fun e he => h e (List.mem_cons_of_mem a he))
    unfold sumPot at h2
    have h3 : L * (g2.length + 1) = L * g2.length + L := by ring
    omega

/-- With the invariant available, a relaxation step never fails: every vector
access it performs is in range. -/
theorem relaxDir_ok_exists (m : Map) (sr sc gr gc : Int) (cur : Node) (dir : Int × Int)
    (st : AState) (hinv : AInv m sr sc gr gc st) (hcur : NodeOK m sr sc gr gc st cur) :
    ∃ st', relaxDir m gr gc cur dir st = .ok st' := by
  have hcurR : 0 ≤ idxOf m.width cur.row cur.col ∧
      (idxOf m.width cur.row cur.col).toNat < st.gCosts.length := by
    have hc := hcur
    unfold NodeOK at hc
    rcases hc.1 with h1 | h1
    · have hr : cur.row = sr := congrArg Prod.fst h1
      have hcc : cur.col = sc := congrArg Prod.snd h1
      rw [hr, hcc]
      exact hinv.sIdxRange
    · have hx := idxOf_nonneg_lt m cur.row cur.col h1.1
      exact ⟨hx.1, by rw [hinv.glen]; exact hx.2⟩
  simp only [relaxDir]
  by_cases hbound : cur.row + dir.1 < 0 ∨ cur.row + dir.1 ≥ (m.height : Int) ∨
      cur.col + dir.2 < 0 ∨ cur.col + dir.2 ≥ (m.width : Int)
  · rw [if_pos hbound]
    exact ⟨st, rfl⟩
  · rw [if_neg hbound]
    have hin : inBounds m (cur.row + dir.1) (cur.col + dir.2) := by
      by_contra hc
      exact hbound ((oob_guard_iff _ _ _).mpr hc)
    have hnR := idxOf_nonneg_lt m (cur.row + dir.1) (cur.col + dir.2) hin
    have hnR2 : (idxOf m.width (cur.row + dir.1) (cur.col + dir.2)).toNat <
        st.gCosts.length := by
      rw [hinv.glen]
      exact hnR.2
    by_cases hblk : m.cellAt (cur.row + dir.1) (cur.col + dir.2) = 3
    · rw [if_pos hblk]
      exact ⟨st, rfl⟩
    · rw [if_neg hblk]
      rw [(gGet_ok st.gCosts (idxOf m.width cur.row cur.col) _).mpr ⟨hcurR, rfl⟩]
      dsimp only
      rw [(gGet_ok st.gCosts (idxOf m.width (cur.row + dir.1) (cur.col + dir.2)) _).mpr
        ⟨⟨hnR.1, hnR2⟩, rfl⟩]
      dsimp only
      by_cases hlt : gclt (gcAdd (gAt st.gCosts (idxOf m.width cur.row cur.col)) (some 1))
          (gAt st.gCosts (idxOf m.width (cur.row + dir.1) (cur.col + dir.2))) = true
      · rw [if_pos hlt]
        rw [(gSet_ok st.gCosts (idxOf m.width (cur.row + dir.1) (cur.col + dir.2)) _ _).mpr
          ⟨⟨hnR.1, hnR2⟩, rfl⟩]
        dsimp only
        exact ⟨_, rfl⟩
      · rw [if_neg hlt]
        exact ⟨st, rfl⟩

/-- A relaxation step never increases the termination measure. -/
theorem relaxDir_measure (m : Map) (sr sc gr gc : Int) (cur : Node) (dir : Int × Int)
    (st st' : AState) (hinv : AInv m sr sc gr gc st) (hcur : NodeOK m sr sc gr gc st cur)
    (hdir : dir ∈ directions) (hok : relaxDir m gr gc cur dir st = .ok st') :
    measureA st' ≤ measureA st := by
  rcases relaxDir_spec m gr gc cur dir st st' hok with heq | hspec
  · rw [heq]
  · obtain ⟨b, hin, hblk, hcb, hlt, hc1, hc2, hst'⟩ := hspec
    obtain ⟨hinv', _, hlen', _, _, _⟩ :=
      AInv_relax m sr sc gr gc cur dir st st' hinv hcur hdir hok
    have hnn := idxOf_nonneg_lt m (cur.row + dir.1) (cur.col + dir.2) hin
    have hnN : (idxOf m.width (cur.row + dir.1) (cur.col + dir.2)).toNat <
        st.gCosts.length := by
      rw [hinv.glen]
      exact hnn.2
    have hval : gAt st'.gCosts (idxOf m.width (cur.row + dir.1) (cur.col + dir.2)) =
        some (b + 1) := by
      rw [hst']
      show gAt (st.gCosts.set _ _) _ = _
      rw [gAt_set _ _ hnN, if_pos rfl]
    have hbound := AInv_value_bound m sr sc gr gc st' hinv' _ _ hval
    rw [hlen'] at hbound
    have hgd : st.gCosts.getD (idxOf m.width (cur.row + dir.1) (cur.col + dir.2)).toNat
        none = gAt st.gCosts (idxOf m.width (cur.row + dir.1) (cur.col + dir.2)) := rfl
    have hpot : pot st.gCosts.length (some (b + 1)) <
        pot st.gCosts.length (st.gCosts.getD
          (idxOf m.width (cur.row + dir.1) (cur.col + dir.2)).toNat none) := by
      rw [hgd]
      cases hgn : gAt st.gCosts (idxOf m.width (cur.row + dir.1) (cur.col + dir.2)) with
      | none =>
        show b + 1 < st.gCosts.length
        exact hbound
      | some v0 =>
        have hlt2 := hlt
        rw [hgn, gclt_some_iff] at hlt2
        show b + 1 < v0
        exact hlt2
    have hsum := sumPot_set_lt st.gCosts.length st.gCosts _ hnN _ hpot
    rw [hst']
    unfold measureA
    dsimp only
    simp only [List.length_append, List.length_set, List.length_cons, List.length_nil]
    omega

/-- Exploring all four neighbors succeeds under the invariant and never
increases the measure. -/
theorem expand_total_aux (m : Map) (sr sc gr gc : Int) (cur : Node)
    (l : List (Int × Int)) :
    (∀ d ∈ l, d ∈ directions) →
    ∀ st : AState, AInv m sr sc gr gc st → NodeOK m sr sc gr gc st cur →
    ∃ st', l.foldlM (fun s d => relaxDir m gr gc cur d s) st = .ok st' ∧
      measureA st' ≤ measureA st := by
  induction l with
  | nil =>
    intro _ st _ _
    exact ⟨st, rfl, le_refl _⟩
  | cons d rest ih =>
    intro hl st hinv hcur
    obtain ⟨s1, hr⟩ := relaxDir_ok_exists m sr sc gr gc cur d st hinv hcur
    have hm1 := relaxDir_measure m sr sc gr gc cur d st s1 hinv hcur
      (hl d (List.mem_cons_self d rest)) hr
    obtain ⟨hinv1, hcur1, _, _, _, _⟩ :=
      AInv_relax m sr sc gr gc cur d st s1 hinv hcur (hl d (List.mem_cons_self d rest)) hr
    obtain ⟨st', hfold, hm2⟩ :=
      ih (fun d2 hd2 => hl d2 (List.mem_cons_of_mem d hd2)) s1 hinv1 hcur1
    refine ⟨st', ?_, le_trans hm2 hm1⟩
    simp only [List.foldlM]
    rw [hr]
    exact hfold

theorem expandNode_total (m : Map) (sr sc gr gc : Int) (cur : Node) (st : AState)
    (hinv : AInv m sr sc gr gc st) (hcur : NodeOK m sr sc gr gc st cur) :
    ∃ st', expandNode m gr gc cur st = .ok st' ∧ measureA st' ≤ measureA st :=
  expand_total_aux m sr sc gr gc cur directions (fun _ hd => hd) st hinv hcur

/-- The A* main loop terminates cleanly whenever the fuel exceeds the
measure. -/
theorem aStarLoop_total (m : Map) (sr sc gr gc : Int) :
    ∀ (fuel : Nat) (st : AState), AInv m sr sc gr gc st → measureA st < fuel →
    ∃ (found : Bool) (stF : AState),
      aStarLoop m gr gc fuel st = .ok (found, stF) := by
  intro fuel
  induction fuel with
  | zero =>
    intro st _ hm
    exact absurd hm (Nat.not_lt_zero _)
  | succ n ih =>
    intro st hinv hm
    simp only [aStarLoop]
    cases hpop : popMin st.openSet with
    | none => exact ⟨false, st, rfl⟩
    | some p =>
      obtain ⟨cur, rest⟩ := p
      obtain ⟨hinvP, hcurP⟩ := AInv_pop m sr sc gr gc st cur rest hinv hpop
      have hopen : st.openSet.length = rest.length + 1 := by
        have hp := (popMin_perm st.openSet cur rest hpop).length_eq
        simpa using hp
      by_cases hg : cur.row = gr ∧ cur.col = gc
      · refine ⟨true, { st with openSet := rest }, ?_⟩
        dsimp only
        rw [if_pos hg]
      · obtain ⟨st1, hex, hm1⟩ :=
          expandNode_total m sr sc gr gc cur { st with openSet := rest } hinvP hcurP
        have hAInv1 :=
          (AInv_expand m sr sc gr gc cur { st with openSet := rest } st1 hinvP hcurP hex).1
        have hmRest : measureA { st with openSet := rest } + 1 = measureA st := by
          unfold measureA
          dsimp only
          omega
        obtain ⟨found, stF, hloop⟩ := ih st1 hAInv1 (by omega)
        refine ⟨found, stF, ?_⟩
        dsimp only
        rw [if_neg hg, hex]
        exact hloop

/-- The initial search state's measure is below the fuel `aStar` provides. -/
theorem measure_init_lt (m : Map) (sr sc gr gc : Int) :
    measureA ⟨[⟨sr, sc, some 0, some (Pathfinding.heuristic sr sc gr gc)⟩],
      (List.replicate (m.width * m.height) (none : Option Nat)).set
        (idxOf m.width sr sc).toNat (some 0), []⟩ <
    5 * (m.width * m.height) * (m.width * m.height) + 2 := by
  have hlen : ((List.replicate (m.width * m.height) (none : Option Nat)).set
      (idxOf m.width sr sc).toNat (some 0)).length = m.width * m.height := by simp
  have hb : ∀ e ∈ (List.replicate (m.width * m.height) (none : Option Nat)).set
      (idxOf m.width sr sc).toNat (some 0),
      pot (m.width * m.height) e ≤ m.width * m.height := by
    intro e he
    rcases List.mem_or_eq_of_mem_set he with he2 | he2
    · rw [List.eq_of_mem_replicate he2]
      exact le_refl _
    · rw [he2]
      exact Nat.zero_le _
  have hs := sumPot_le (m.width * m.height) _ hb
  rw [hlen] at hs
  unfold measureA
  dsimp only
  rw [hlen]
  simp only [List.length_cons, List.length_nil]
  have h2 : 5 * (m.width * m.height) * (m.width * m.height) =
      5 * ((m.width * m.height) * (m.width * m.height)) := by ring
  rw [h2]
  omega

/-- C2 (amended): with the start's flattened index in range, asking for a
goal that is out of bounds or blocked and different from the start makes
`aStar` return the empty sequence cleanly. -/
theorem aStar_invalid_goal_empty (m : Map) (sr sc gr gc : Int)
    (hs1 : 0 ≤ idxOf m.width sr sc)
    (hs2 : (idxOf m.width sr sc).toNat < m.width * m.height)
    (hg : ¬ inBounds m gr gc ∨ blockedAt m gr gc)
    (hne : ((gr, gc) : Cell) ≠ ((sr, sc) : Cell)) :
    Pathfinding.aStar m sr sc gr gc = .ok [] := by
  unfold Pathfinding.aStar
  rw [(gSet_ok (List.replicate (m.width * m.height) none)
    (idxOf m.width sr sc) (some 0) _).mpr
    ⟨⟨hs1, by rw [List.length_replicate]; exact hs2⟩, rfl⟩]
  dsimp only
  have hinv0 := AInv_init m sr sc gr gc hs1 hs2
  obtain ⟨found, stF, hloop⟩ := aStarLoop_total m sr sc gr gc
    (5 * (m.width * m.height) * (m.width * m.height) + 2) _ hinv0
    (measure_init_lt m sr sc gr gc)
  rw [hloop]
  dsimp only
  obtain ⟨hinvF, hfound⟩ := aStarLoop_spec m sr sc gr gc _ _ _ _ hinv0 hloop
  cases found with
  | false => rfl
  | true =>
    exfalso
    rcases hfound rfl with h | ⟨hin2, hblk2, _⟩
    · exact hne h
    · rcases hg with hg | hg
      · exact hg hin2
      · exact hblk2 hg

theorem aStar_invalid_goal_empty_witness :
    (0 ≤ idxOf mC7.width 0 0 ∧ (idxOf mC7.width 0 0).toNat < mC7.width * mC7.height ∧
      (¬ inBounds mC7 5 5 ∨ blockedAt mC7 5 5) ∧ ((5, 5) : Cell) ≠ ((0, 0) : Cell)) ∧
    Pathfinding.aStar mC7 0 0 5 5 = .ok [] :=
  ⟨⟨by decide, by decide, by decide, by decide⟩,
    aStar_invalid_goal_empty mC7 0 0 5 5 (by decide) (by decide) (by decide) (by decide)⟩

/-- The `pos = path[pathIndex]` invariant of an agent: trivial for an empty
path, otherwise the cursor is in range and points at the agent's recorded
position. -/
def cursorOK (a : Agent) : Prop :=
  a.path = [] ∨ (0 ≤ a.pathIndex ∧ a.pathIndex < (a.path.length : Int) ∧
    a.path.getD a.pathIndex.toNat ((0, 0) : Cell) = (a.row, a.col))

instance (a : Agent) : Decidable (cursorOK a) :=
  inferInstanceAs (Decidable (a.path = [] ∨ (0 ≤ a.pathIndex ∧
    a.pathIndex < (a.path.length : Int) ∧
    a.path.getD a.pathIndex.toNat ((0, 0) : Cell) = (a.row, a.col))))

/-- The two possible outcomes of the per-agent step body: stay put, or
advance the cursor by one and move onto the next path cell. -/
theorem stepNext_cases (done : List Agent) (a : Agent) (rest : List Agent) :
    stepNext done a rest = a ∨
    (a.path ≠ [] ∧ a.pathIndex < (a.path.length : Int) - 1 ∧
      stepNext done a rest = { a with
        row := (a.path.getD (a.pathIndex + 1).toNat ((0, 0) : Cell)).1,
        col := (a.path.getD (a.pathIndex + 1).toNat ((0, 0) : Cell)).2,
        pathIndex := a.pathIndex + 1 }) := by
  simp only [stepNext]
  by_cases h1 : a.path.isEmpty = true ∨ a.pathIndex ≥ (a.path.length : Int) - 1
  · rw [if_pos h1]
    exact Or.inl rfl
  · rw [if_neg h1]
    have h2 := not_or.mp h1
    by_cases h3 : MultiUnitCoordinator.isOccupied (done ++ a :: rest)
        (a.path.getD (a.pathIndex + 1).toNat ((0, 0) : Cell)).1
        (a.path.getD (a.pathIndex + 1).toNat ((0, 0) : Cell)).2 = true
    · rw [if_pos h3]
      exact Or.inl rfl
    · rw [if_neg h3]
      right
      refine ⟨?_, not_le.mp h2.2, rfl⟩
      intro hcon
      exact h2.1 (by rw [hcon]; rfl)

/-- The step body preserves the cursor invariant. -/
theorem stepNext_cursorOK (done : List Agent) (a : Agent) (rest : List Agent)
    (h : cursorOK a) : cursorOK (stepNext done a rest) := by
  rcases stepNext_cases done a rest with he | ⟨hne, hlt, he⟩
  · rw [he]
    exact h
  · rw [he]
    rcases h with hnil | ⟨h0, hlen, hpos⟩
    · exact absurd hnil hne
    · right
      refine ⟨?_, ?_, ?_⟩
      · show (0 : Int) ≤ a.pathIndex + 1
        omega
      · show a.pathIndex + 1 < (a.path.length : Int)
        omega
      · show a.path.getD (a.pathIndex + 1).toNat ((0, 0) : Cell) =
          ((a.path.getD (a.pathIndex + 1).toNat ((0, 0) : Cell)).1,
           (a.path.getD (a.pathIndex + 1).toNat ((0, 0) : Cell)).2)
        exact Prod.mk.eta.symm

/-- The sequential sweep appends its results to the processed prefix, each
output agent arising from `stepNext` on the matching input agent. -/
theorem stepGo_append_out :
    ∀ (todo done : List Agent), ∃ out, stepGo done todo = done ++ out ∧
      List.Forall₂ (fun a a' => ∃ d r, a' = stepNext d a r) todo out := by
  intro todo
  induction todo with
  | nil =>
    intro done
    exact ⟨[], by simp [stepGo], List.Forall₂.nil⟩
  | cons a rest ih =>
    intro done
    obtain ⟨out, heq, hf⟩ := ih (done ++ [stepNext done a rest])
    refine ⟨stepNext done a rest :: out, ?_, List.Forall₂.cons ⟨done, rest, rfl⟩ hf⟩
    rw [show stepGo done (a :: rest) = stepGo (done ++ [stepNext done a rest]) rest from rfl,
      heq]
    simp

theorem forall2_mem_right {α β : Type} {R : α → β → Prop} :
    ∀ {l1 : List α} {l2 : List β}, List.Forall₂ R l1 l2 → ∀ b ∈ l2, ∃ a ∈ l1, R a b := by
  intro l1 l2 h
  induction h with
  | nil =>
    intro b hb
    exact absurd hb (List.not_mem_nil b)
  | cons hr hrest ih =>
    intro b hb
    rcases List.mem_cons.mp hb with hb | hb
    · exact ⟨_, List.mem_cons_self _ _, hb ▸ hr⟩
    · obtain ⟨a, ha, hR⟩ := ih b hb
      exact ⟨a, List.mem_cons_of_mem _ ha, hR⟩

/-- `planPaths` establishes the cursor invariant on freshly discovered
agents. -/
theorem planPaths_cursorOK (m : Map) :
    ∀ (ags ags' : List Agent), (∀ a ∈ ags, a.path = [] ∧ a.pathIndex = 0) →
    MultiUnitCoordinator.planPaths m ags = .ok ags' →
    ∀ a' ∈ ags', cursorOK a' := by
  intro ags
  induction ags with
  | nil =>
    intro ags' _ hok a' ha'
    have he : ([] : List Agent) = ags' := Except.ok.inj hok
    rw [← he] at ha'
    exact absurd ha' (List.not_mem_nil a')
  | cons a rest ih =>
    intro ags' hin hok
    simp only [MultiUnitCoordinator.planPaths] at hok
    by_cases hgoal : a.goalRow < 0 ∨ a.goalCol < 0
    · rw [if_pos hgoal] at hok
      dsimp only at hok
      cases hrest : MultiUnitCoordinator.planPaths m rest with
      | error e =>
        rw [hrest] at hok
        exact Except.noConfusion hok
      | ok rest' =>
        rw [hrest] at hok
        dsimp only at hok
        have he : a :: rest' = ags' := Except.ok.inj hok
        intro a' ha'
        rw [← he] at ha'
        rcases List.mem_cons.mp ha' with ha' | ha'
        · rw [ha']
          exact Or.inl (hin a (List.mem_cons_self a rest)).1
        · exact ih rest' (fun x hx => hin x (List.mem_cons_of_mem a hx)) hrest a' ha'
    · rw [if_neg hgoal] at hok
      cases hstar : Pathfinding.aStar m a.row a.col a.goalRow a.goalCol with
      | error e =>
        rw [hstar] at hok
        dsimp only at hok
        exact Except.noConfusion hok
      | ok p =>
        rw [hstar] at hok
        dsimp only at hok
        by_cases hemp : p.isEmpty = true
        · rw [if_pos hemp] at hok
          dsimp only at hok
          cases hrest : MultiUnitCoordinator.planPaths m rest with
          | error e =>
            rw [hrest] at hok
            exact Except.noConfusion hok
          | ok rest' =>
            rw [hrest] at hok
            dsimp only at hok
            have he : a :: rest' = ags' := Except.ok.inj hok
            intro a' ha'
            rw [← he] at ha'
            rcases List.mem_cons.mp ha' with ha' | ha'
            · rw [ha']
              exact Or.inl (hin a (List.mem_cons_self a rest)).1
            · exact ih rest' (fun x hx => hin x (List.mem_cons_of_mem a hx)) hrest a' ha'
        · rw [if_neg hemp] at hok
          dsimp only at hok
          cases hrest : MultiUnitCoordinator.planPaths m rest with
          | error e =>
            rw [hrest] at hok
            exact Except.noConfusion hok
          | ok rest' =>
            rw [hrest] at hok
            dsimp only at hok
            have he : { a with path := p, pathIndex := 0 } :: rest' = ags' :=
              Except.ok.inj hok
            intro a' ha'
            rw [← he] at ha'
            rcases List.mem_cons.mp ha' with ha' | ha'
            · rw [ha']
              right
              have hpne : p ≠ [] := by
                intro hcon
                rw [hcon] at hemp
                exact hemp rfl
              obtain ⟨hhead, _, _⟩ :=
                aStar_path_contiguity m a.row a.col a.goalRow a.goalCol p hstar hpne
              refine ⟨le_refl (0 : Int), ?_, ?_⟩
              · show (0 : Int) < (p.length : Int)
                cases p with
                | nil => exact absurd rfl hpne
                | cons c0 p1 => exact_mod_cast Nat.succ_pos p1.length
              · show p.getD (Int.toNat 0) ((0, 0) : Cell) = (a.row, a.col)
                cases p with
                | nil => exact absurd rfl hpne
                | cons c0 p1 =>
                  show c0 = (a.row, a.col)
                  exact Option.some.inj hhead
            · exact ih rest' (fun x hx => hin x (List.mem_cons_of_mem a hx)) hrest a' ha'

/-- `step()` preserves the cursor invariant for every agent. -/
theorem step_cursorOK :
    ∀ ags : List Agent, (∀ a ∈ ags, cursorOK a) →
    ∀ a' ∈ MultiUnitCoordinator.step ags, cursorOK a' := by
  intro ags h a' ha'
  obtain ⟨out, heq, hf⟩ := stepGo_append_out ags []
  have hstep : MultiUnitCoordinator.step ags = out := by
    unfold MultiUnitCoordinator.step
    rw [heq]
    exact List.nil_append out
  rw [hstep] at ha'
  obtain ⟨a, ha, d, r, he⟩ := forall2_mem_right hf a' ha'
  rw [he]
  exact stepNext_cursorOK d a r (h a ha)

/-- `step()` keeps each agent's path and moves each cursor forward by zero or
one. -/
theorem step_cursor_monotone (ags : List Agent) :
    List.Forall₂ (fun a a' => a'.path = a.path ∧
      (a'.pathIndex = a.pathIndex ∨ a'.pathIndex = a.pathIndex + 1))
      ags (MultiUnitCoordinator.step ags) := by
  obtain ⟨out, heq, hf⟩ := stepGo_append_out ags []
  have hstep : MultiUnitCoordinator.step ags = out := by
    unfold MultiUnitCoordinator.step
    rw [heq]
    exact List.nil_append out
  rw [hstep]
  refine List.Forall₂.imp ?_ hf
  intro a b hr
  obtain ⟨d, r, he⟩ := hr
  rcases stepNext_cases d a r with he2 | ⟨_, _, he2⟩
  · rw [he, he2]
    exact ⟨rfl, Or.inl rfl⟩
  · rw [he, he2]
    exact ⟨rfl, Or.inr rfl⟩

/-- C10: for every agent with a non-empty planned path, `pos = path[pathIndex]`
holds right after `planPaths` (cursor 0, `path[0]` = the agent's position),
is preserved by every `step()` call, and the cursor advances by at most one
per call and never decreases. -/
theorem agent_cursor_invariant (m : Map) :
    (∀ (ags ags' : List Agent), (∀ a ∈ ags, a.path = [] ∧ a.pathIndex = 0) →
      MultiUnitCoordinator.planPaths m ags = .ok ags' → ∀ a' ∈ ags', cursorOK a') ∧
    (∀ ags : List Agent, (∀ a ∈ ags, cursorOK a) →
      ∀ a' ∈ MultiUnitCoordinator.step ags, cursorOK a') ∧
    (∀ ags : List Agent, List.Forall₂ (fun a a' => a'.path = a.path ∧
      (a'.pathIndex = a.pathIndex ∨ a'.pathIndex = a.pathIndex + 1))
      ags (MultiUnitCoordinator.step ags)) :=
  ⟨planPaths_cursorOK m, step_cursorOK, step_cursor_monotone⟩

/-- A freshly discovered agent aimed at the far cell of the two-cell
corridor. -/
def agC10 : Agent := ⟨0, 0, 0, 0, 0, 1, [], 0⟩

/-- The same agent after `planPaths` installed its route. -/
def agC10go : Agent := ⟨0, 0, 0, 0, 0, 1, [((0 : Int), (0 : Int)), (0, 1)], 0⟩

theorem agent_cursor_invariant_witness :
    ((∀ a ∈ [agC10], a.path = [] ∧ a.pathIndex = 0) ∧
      MultiUnitCoordinator.planPaths mC7 [agC10] = .ok [agC10go] ∧
      (∀ a' ∈ [agC10go], cursorOK a')) ∧
    ((∀ a ∈ [agC10go], cursorOK a) ∧
      (∀ a' ∈ MultiUnitCoordinator.step [agC10go], cursorOK a')) ∧
    List.Forall₂ (fun a a' => a'.path = a.path ∧
      (a'.pathIndex = a.pathIndex ∨ a'.pathIndex = a.pathIndex + 1))
      [agC10go] (MultiUnitCoordinator.step [agC10go]) :=
  ⟨⟨by decide, by decide,
    (agent_cursor_invariant mC7).1 [agC10] [agC10go] (by decide) (by decide)⟩,
   ⟨by decide, (agent_cursor_invariant mC7).2.1 [agC10go] (by decide)⟩,
   (agent_cursor_invariant mC7).2.2 [agC10go]⟩

theorem heuristic_self (r c : Int) : Pathfinding.heuristic r c r c = 0 := by
  unfold Pathfinding.heuristic
  omega

/-- The Manhattan heuristic from the head to the last cell of a 4-connected
chain is below the chain's step count: the heuristic is admissible. -/
theorem heuristic_le_chain (b : Cell) : ∀ (l : List Cell) (a : Cell),
    stepChain l → l.head? = some a → l.getLast? = some b →
    Pathfinding.heuristic a.1 a.2 b.1 b.2 + 1 ≤ l.length := by
  intro l
  induction l with
  | nil =>
    intro a _ hh _
    exact Option.noConfusion hh
  | cons c0 l2 ih =>
    intro a hch hh hl
    have hc0 : c0 = a := Option.some.inj hh
    cases l2 with
    | nil =>
      have hb : c0 = b := Option.some.inj hl
      rw [← hc0, ← hb, heuristic_self]
      exact le_refl 1
    | cons c1 l3 =>
      have hch2 : adjCell c0 c1 ∧ stepChain (c1 :: l3) := hch
      rw [List.getLast?_cons_cons] at hl
      have hih := ih c1 hch2.2 rfl hl
      have hadj : adjCell a c1 := hc0 ▸ hch2.1
      have htri : Pathfinding.heuristic a.1 a.2 b.1 b.2 ≤
          1 + Pathfinding.heuristic c1.1 c1.2 b.1 b.2 := by
        unfold Pathfinding.heuristic
        unfold adjCell at hadj
        omega
      simp only [List.length_cons] at hih ⊢
      omega

/-- The displacement between 4-adjacent cells is one of the four search
directions. -/
theorem diff_mem_directions (a b : Cell) (h : adjCell a b) :
    (a.1 - b.1, a.2 - b.2) ∈ directions := by
  unfold adjCell at h
  have h4 : (a.1 - b.1 = 0 ∧ a.2 - b.2 = 1) ∨ (a.1 - b.1 = 1 ∧ a.2 - b.2 = 0) ∨
      (a.1 - b.1 = 0 ∧ a.2 - b.2 = -1) ∨ (a.1 - b.1 = -1 ∧ a.2 - b.2 = 0) := by
    omega
  rcases h4 with ⟨h1, h2⟩ | ⟨h1, h2⟩ | ⟨h1, h2⟩ | ⟨h1, h2⟩ <;> rw [h1, h2] <;>
    simp [directions]

/-- A true 0-level with a false k-level has a first failure point. -/
theorem first_failure (P : Nat → Prop) (k : Nat) (h0 : P 0) (hk : ¬ P k) :
    ∃ j, j < k ∧ P j ∧ ¬ P (j + 1) := by
  classical
  induction k with
  | zero => exact absurd h0 hk
  | succ n ih =>
    by_cases hn : P n
    · exact ⟨n, Nat.lt_succ_self n, hn, hk⟩
    · obtain ⟨j, hj, h1, h2⟩ := ih hn
      exact ⟨j, Nat.lt_succ_of_lt hj, h1, h2⟩

/-- Among the valid routes between two cells there is one of minimal
length. -/
theorem exists_min_valid (m : Map) (s g : Cell) (q1 : List Cell)
    (h : ValidPath m s g q1) :
    ∃ p0, ValidPath m s g p0 ∧ ∀ q, ValidPath m s g q → p0.length ≤ q.length := by
  classical
  have hex : ∃ n : Nat, ∃ q, ValidPath m s g q ∧ q.length = n := ⟨q1.length, q1, h, rfl⟩
  obtain ⟨p0, hp0, hlen⟩ := Nat.find_spec hex
  refine ⟨p0, hp0, ?_⟩
  intro q hq
  rw [hlen]
  exact Nat.find_min' hex ⟨q, hq, rfl⟩

theorem stepChain_drop (j : Nat) : ∀ l : List Cell, stepChain l → stepChain (l.drop j) := by
  induction j with
  | zero =>
    intro l h
    exact h
  | succ n ih =>
    intro l h
    cases l with
    | nil => trivial
    | cons a t =>
      show stepChain (t.drop n)
      apply ih
      cases t with
      | nil => trivial
      | cons b t2 => exact (h : adjCell a b ∧ stepChain (b :: t2)).2

theorem head_drop_getD (j : Nat) : ∀ l : List Cell, j < l.length →
    (l.drop j).head? = some (l.getD j ((0, 0) : Cell)) := by
  induction j with
  | zero =>
    intro l hl
    cases l with
    | nil => exact absurd hl (Nat.lt_irrefl 0)
    | cons a t => rfl
  | succ n ih =>
    intro l hl
    cases l with
    | nil => exact absurd hl (Nat.not_lt_zero _)
    | cons a t =>
      show (t.drop n).head? = some (t.getD n _)
      exact ih t (by simp only [List.length_cons] at hl; omega)

theorem getLast_drop_eq (j : Nat) : ∀ l : List Cell, j < l.length →
    (l.drop j).getLast? = l.getLast? := by
  induction j with
  | zero =>
    intro l _
    rfl
  | succ n ih =>
    intro l hl
    cases l with
    | nil => exact absurd hl (Nat.not_lt_zero _)
    | cons a t =>
      cases t with
      | nil =>
        exfalso
        simp only [List.length_cons, List.length_nil] at hl
        omega
      | cons b t2 =>
        show ((b :: t2).drop n).getLast? = (a :: b :: t2).getLast?
        rw [ih (b :: t2) (by simp only [List.length_cons] at hl ⊢; omega),
          List.getLast?_cons_cons]

theorem set_oob (g : List (Option Nat)) : ∀ (i : Nat) (v : Option Nat),
    g.length ≤ i → g.set i v = g := by
  induction g with
  | nil =>
    intro i v _
    rfl
  | cons a t ih =>
    intro i v hi
    cases i with
    | zero =>
      exfalso
      simp only [List.length_cons] at hi
      omega
    | succ n =>
      show a :: t.set n v = a :: t
      rw [ih n v (by simp only [List.length_cons] at hi; omega)]

/-- The popped node's flattened index is always in table range. -/
theorem curIdx_range (m : Map) (sr sc gr gc : Int) (st : AState) (cur : Node)
    (hinv : AInv m sr sc gr gc st) (hcur : NodeOK m sr sc gr gc st cur) :
    0 ≤ idxOf m.width cur.row cur.col ∧
      (idxOf m.width cur.row cur.col).toNat < st.gCosts.length := by
  have hc := hcur
  unfold NodeOK at hc
  rcases hc.1 with h1 | h1
  · have hr : cur.row = sr := congrArg Prod.fst h1
    have hcc : cur.col = sc := congrArg Prod.snd h1
    rw [hr, hcc]
    exact hinv.sIdxRange
  · have hx := idxOf_nonneg_lt m cur.row cur.col h1.1
    exact ⟨hx.1, by rw [hinv.glen]; exact hx.2⟩

/-- One relaxation only extends the queue and only lowers table entries
(no invariant needed). -/
theorem relax_mono (m : Map) (gr gc : Int) (cur : Node) (dir : Int × Int)
    (st st' : AState) (hok : relaxDir m gr gc cur dir st = .ok st') :
    (∀ n ∈ st.openSet, n ∈ st'.openSet) ∧
    (∀ i : Int, gle (gAt st'.gCosts i) (gAt st.gCosts i)) := by
  rcases relaxDir_spec m gr gc cur dir st st' hok with heq | hspec
  · rw [heq]
    exact ⟨fun n hn => hn, fun i => gle_refl _⟩
  · obtain ⟨b, hin, hblk, hcb, hlt, hc1, hc2, hst'⟩ := hspec
    have hO : st'.openSet = st.openSet ++ [⟨cur.row + dir.1, cur.col + dir.2, some (b + 1),
        some (Pathfinding.heuristic (cur.row + dir.1) (cur.col + dir.2) gr gc)⟩] := by
      rw [hst']
    have hG : st'.gCosts = st.gCosts.set
        (idxOf m.width (cur.row + dir.1) (cur.col + dir.2)).toNat (some (b + 1)) := by
      rw [hst']
    constructor
    · intro n hn
      rw [hO]
      exact List.mem_append_left _ hn
    · intro i
      rw [hG]
      by_cases hr : (idxOf m.width (cur.row + dir.1) (cur.col + dir.2)).toNat <
          st.gCosts.length
      · rw [gAt_set _ _ hr]
        by_cases he : (idxOf m.width (cur.row + dir.1) (cur.col + dir.2)).toNat = i.toNat
        · rw [if_pos he]
          have hcongr : gAt st.gCosts i =
              gAt st.gCosts (idxOf m.width (cur.row + dir.1) (cur.col + dir.2)) :=
            gAt_congr _ _ _ (by omega)
          rw [hcongr]
          cases hgn : gAt st.gCosts (idxOf m.width (cur.row + dir.1) (cur.col + dir.2)) with
          | none => trivial
          | some v0 =>
            have hlt2 := hlt
            rw [hgn, gclt_some_iff] at hlt2
            show b + 1 ≤ v0
            omega
        · rw [if_neg he]
          exact gle_refl _
      · rw [set_oob _ _ _ (by omega)]
        exact gle_refl _

/-- Queue extension and table decrease across the whole neighbor fold. -/
theorem fold_mono (m : Map) (gr gc : Int) (cur : Node) (l : List (Int × Int)) :
    ∀ st st1 : AState, l.foldlM (fun s d => relaxDir m gr gc cur d s) st = .ok st1 →
    (∀ n ∈ st.openSet, n ∈ st1.openSet) ∧
    (∀ i : Int, gle (gAt st1.gCosts i) (gAt st.gCosts i)) := by
  induction l with
  | nil =>
    intro st st1 hok
    have he : st = st1 := Except.ok.inj hok
    subst he
    exact ⟨fun n hn => hn, fun i => gle_refl _⟩
  | cons d rest ih =>
    intro st st1 hok
    simp only [List.foldlM] at hok
    cases hr : relaxDir m gr gc cur d st with
    | error e =>
      rw [hr] at hok
      exact Except.noConfusion hok
    | ok s1 =>
      rw [hr] at hok
      obtain ⟨ho1, hg1⟩ := relax_mono m gr gc cur d st s1 hr
      obtain ⟨ho2, hg2⟩ := ih s1 st1 hok
      exact ⟨fun n hn => ho2 n (ho1 n hn),
        fun i => gle_trans _ _ _ (hg2 i) (hg1 i)⟩

/-- Relaxing toward an in-bounds unblocked neighbor leaves the neighbor's
table entry finite and at most one above the current cell's entry. -/
theorem relaxDir_settles (m : Map) (gr gc : Int) (cur : Node) (dir : Int × Int)
    (st s1 : AState) (hok : relaxDir m gr gc cur dir st = .ok s1)
    (hin : inBounds m (cur.row + dir.1) (cur.col + dir.2))
    (hblk : ¬ blockedAt m (cur.row + dir.1) (cur.col + dir.2))
    (b : Nat) (hcb : gAt st.gCosts (idxOf m.width cur.row cur.col) = some b)
    (hcR : 0 ≤ idxOf m.width cur.row cur.col ∧
      (idxOf m.width cur.row cur.col).toNat < st.gCosts.length)
    (hnR : (idxOf m.width (cur.row + dir.1) (cur.col + dir.2)).toNat < st.gCosts.length) :
    ∃ v, gAt s1.gCosts (idxOf m.width (cur.row + dir.1) (cur.col + dir.2)) = some v ∧
      v ≤ b + 1 := by
  have hnn := (idxOf_nonneg_lt m (cur.row + dir.1) (cur.col + dir.2) hin).1
  simp only [relaxDir] at hok
  rw [if_neg (fun hcon => (oob_guard_iff _ _ _).mp hcon hin),
    if_neg (show ¬(m.cellAt (cur.row + dir.1) (cur.col + dir.2) = 3) from hblk),
    (gGet_ok st.gCosts (idxOf m.width cur.row cur.col) _).mpr ⟨hcR, rfl⟩] at hok
  dsimp only at hok
  rw [(gGet_ok st.gCosts (idxOf m.width (cur.row + dir.1) (cur.col + dir.2)) _).mpr
    ⟨⟨hnn, hnR⟩, rfl⟩] at hok
  dsimp only at hok
  rw [hcb] at hok
  by_cases hlt : gclt (gcAdd (some b) (some 1))
      (gAt st.gCosts (idxOf m.width (cur.row + dir.1) (cur.col + dir.2))) = true
  · rw [if_pos hlt,
      (gSet_ok st.gCosts (idxOf m.width (cur.row + dir.1) (cur.col + dir.2)) _ _).mpr
        ⟨⟨hnn, hnR⟩, rfl⟩] at hok
    dsimp only at hok
    have hs1 := (Except.ok.inj hok).symm
    have hgeq : s1.gCosts = st.gCosts.set
        (idxOf m.width (cur.row + dir.1) (cur.col + dir.2)).toNat
        (gcAdd (some b) (some 1)) := by
      rw [hs1]
    refine ⟨b + 1, ?_, le_refl _⟩
    rw [hgeq, gAt_set _ _ hnR, if_pos rfl]
    rfl
  · rw [if_neg hlt] at hok
    have hs1 := (Except.ok.inj hok).symm
    have hgle := gle_of_gclt_false _ _ (Bool.eq_false_iff.mpr hlt)
    cases hgn : gAt st.gCosts (idxOf m.width (cur.row + dir.1) (cur.col + dir.2)) with
    | none =>
      rw [hgn] at hgle
      exact absurd hgle (fun h => h)
    | some v0 =>
      rw [hgn] at hgle
      refine ⟨v0, by rw [hs1]; exact hgn, ?_⟩
      exact hgle

/-- If the neighbor fold changed the table at a nonnegative index, the queue
now holds a node from an in-bounds unblocked cell with exactly that index and
that g cost. -/
theorem fold_change_witness (m : Map) (gr gc : Int) (cur : Node) (l : List (Int × Int)) :
    ∀ st st1 : AState, l.foldlM (fun s d => relaxDir m gr gc cur d s) st = .ok st1 →
    ∀ i : Int, 0 ≤ i → gAt st1.gCosts i ≠ gAt st.gCosts i →
    ∃ n ∈ st1.openSet, idxOf m.width n.row n.col = i ∧ n.gCost = gAt st1.gCosts i ∧
      inBounds m n.row n.col ∧ ¬ blockedAt m n.row n.col := by
  induction l with
  | nil =>
    intro st st1 hok i _ hne
    have he : st = st1 := Except.ok.inj hok
    subst he
    exact absurd rfl hne
  | cons d rest ih =>
    intro st st1 hok i hi hne
    simp only [List.foldlM] at hok
    cases hr : relaxDir m gr gc cur d st with
    | error e =>
      rw [hr] at hok
      exact Except.noConfusion hok
    | ok s1 =>
      rw [hr] at hok
      by_cases hch1 : gAt st1.gCosts i = gAt s1.gCosts i
      · have hchS : gAt s1.gCosts i ≠ gAt st.gCosts i := by
          intro hcon
          apply hne
          rw [hch1, hcon]
        rcases relaxDir_spec m gr gc cur d st s1 hr with heq | hspec
        · rw [heq] at hchS
          exact absurd rfl hchS
        · obtain ⟨b, hin, hblk, hcb, hlt, hc1, hc2, hst'⟩ := hspec
          have hgeq : s1.gCosts = st.gCosts.set
              (idxOf m.width (cur.row + d.1) (cur.col + d.2)).toNat (some (b + 1)) := by
            rw [hst']
          by_cases hlen : (idxOf m.width (cur.row + d.1) (cur.col + d.2)).toNat <
              st.gCosts.length
          · rw [hgeq, gAt_set _ _ hlen] at hchS
            by_cases he : (idxOf m.width (cur.row + d.1) (cur.col + d.2)).toNat = i.toNat
            · have hnn := (idxOf_nonneg_lt m (cur.row + d.1) (cur.col + d.2) hin).1
              have hieq : idxOf m.width (cur.row + d.1) (cur.col + d.2) = i := by omega
              obtain ⟨homono, _⟩ := fold_mono m gr gc cur rest s1 st1 hok
              refine ⟨⟨cur.row + d.1, cur.col + d.2, some (b + 1),
                some (Pathfinding.heuristic (cur.row + d.1) (cur.col + d.2) gr gc)⟩,
                ?_, hieq, ?_, hin, hblk⟩
              · apply homono
                rw [hst']
                exact List.mem_append_right _ (List.mem_singleton_self _)
              · rw [hch1, hgeq, gAt_set _ _ hlen, if_pos he]
            · rw [if_neg he] at hchS
              exact absurd rfl hchS
          · rw [hgeq, set_oob _ _ _ (by omega)] at hchS
            exact absurd rfl hchS
      · exact ih s1 st1 hok i hi hch1

/-- If the fold visits the direction of an in-bounds unblocked neighbor of the
node being expanded, and the node's own table entry is at most `j`, then the
neighbor's entry ends up finite and at most `j + 1`. -/
theorem fold_settles (m : Map) (sr sc gr gc : Int) (cur : Node) (x y : Int)
    (hin : inBounds m x y) (hblk : ¬ blockedAt m x y) (j : Nat) :
    ∀ l : List (Int × Int), (∀ d2 ∈ l, d2 ∈ directions) →
    ((x - cur.row, y - cur.col) ∈ l) →
    ∀ st st1 : AState, AInv m sr sc gr gc st → NodeOK m sr sc gr gc st cur →
    (∃ v, gAt st.gCosts (idxOf m.width cur.row cur.col) = some v ∧ v ≤ j) →
    l.foldlM (fun s d => relaxDir m gr gc cur d s) st = .ok st1 →
    ∃ v, gAt st1.gCosts (idxOf m.width x y) = some v ∧ v ≤ j + 1 := by
  intro l
  induction l with
  | nil =>
    intro _ hmem
    exact absurd hmem (List.not_mem_nil _)
  | cons d rest ih =>
    intro hl hmem st st1 hinv hcur hv hok
    simp only [List.foldlM] at hok
    cases hr : relaxDir m gr gc cur d st with
    | error e =>
      rw [hr] at hok
      exact Except.noConfusion hok
    | ok s1 =>
      rw [hr] at hok
      obtain ⟨hinv1, hcur1, _, _, hgle1, _⟩ :=
        AInv_relax m sr sc gr gc cur d st s1 hinv hcur (hl d (List.mem_cons_self d rest)) hr
      by_cases hd : d = (x - cur.row, y - cur.col)
      · obtain ⟨v, hvv, hvj⟩ := hv
        have hx : cur.row + d.1 = x := by
          rw [hd]
          dsimp only
          omega
        have hy : cur.col + d.2 = y := by
          rw [hd]
          dsimp only
          omega
        have hinD : inBounds m (cur.row + d.1) (cur.col + d.2) := by
          rw [hx, hy]
          exact hin
        have hblkD : ¬ blockedAt m (cur.row + d.1) (cur.col + d.2) := by
          rw [hx, hy]
          exact hblk
        have hcR := curIdx_range m sr sc gr gc st cur hinv hcur
        have hnR : (idxOf m.width (cur.row + d.1) (cur.col + d.2)).toNat <
            st.gCosts.length := by
          rw [hinv.glen]
          exact (idxOf_nonneg_lt m _ _ hinD).2
        obtain ⟨v1, hv1, hv1le⟩ :=
          relaxDir_settles m gr gc cur d st s1 hr hinD hblkD v hvv hcR hnR
        rw [hx, hy] at hv1
        obtain ⟨_, hgleF⟩ := fold_mono m gr gc cur rest s1 st1 hok
        have hglei := hgleF (idxOf m.width x y)
        rw [hv1] at hglei
        cases hgn : gAt st1.gCosts (idxOf m.width x y) with
        | none =>
          rw [hgn] at hglei
          exact absurd hglei (fun h => h)
        | some v2 =>
          rw [hgn] at hglei
          refine ⟨v2, rfl, ?_⟩
          have hle2 : v2 ≤ v1 := hglei
          omega
      · have hmem2 : (x - cur.row, y - cur.col) ∈ rest := by
          rcases List.mem_cons.mp hmem with hcon | h2
          · exact absurd hcon.symm hd
          · exact h2
        have hv1 : ∃ v, gAt s1.gCosts (idxOf m.width cur.row cur.col) = some v ∧ v ≤ j := by
          obtain ⟨v, hvv, hvj⟩ := hv
          have hg := hgle1 (idxOf m.width cur.row cur.col)
          rw [hvv] at hg
          cases hgn : gAt s1.gCosts (idxOf m.width cur.row cur.col) with
          | none =>
            rw [hgn] at hg
            exact absurd hg (fun h => h)
          | some v2 =>
            rw [hgn] at hg
            have hle2 : v2 ≤ v := hg
            exact ⟨v2, rfl, by omega⟩
        exact ih (fun d2 hd2 => hl d2 (List.mem_cons_of_mem d hd2)) hmem2 s1 st1
          hinv1 hcur1 hv1 hok

/-- The table entry of a cell is finite and at most `j`. -/
def settled (st : AState) (w : Nat) (c : Cell) (j : Nat) : Prop :=
  ∃ v, gAt st.gCosts (idxOf w c.1 c.2) = some v ∧ v ≤ j

/-- The frontier-witness invariant along a fixed route `π`: whenever some
`π j` is settled at cost `j` but `π (j+1)` is not yet settled at `j + 1`,
the queue still holds a node at `π j` with g cost at most `j`. -/
def WInv (m : Map) (π : List Cell) (st : AState) : Prop :=
  ∀ j : Nat, j + 1 < π.length →
    settled st m.width (π.getD j ((0, 0) : Cell)) j →
    ¬ settled st m.width (π.getD (j + 1) ((0, 0) : Cell)) (j + 1) →
    ∃ n ∈ st.openSet, (n.row, n.col) = π.getD j ((0, 0) : Cell) ∧
      ∃ gn, n.gCost = some gn ∧ gn ≤ j

/-- While the loop is running, a finite table entry at the goal's index means
the queue still holds a node at the goal cell. -/
def GoalOpen (m : Map) (gr gc : Int) (st : AState) : Prop :=
  (gAt st.gCosts (idxOf m.width gr gc)).isSome →
  ∃ n ∈ st.openSet, n.row = gr ∧ n.col = gc

theorem getD_last (l : List Cell) (x : Cell) (h : l.getLast? = some x) :
    l.getD (l.length - 1) ((0, 0) : Cell) = x := by
  induction l with
  | nil => exact Option.noConfusion h
  | cons a t ih =>
    cases t with
    | nil => exact Option.some.inj h
    | cons b t2 =>
      rw [List.getLast?_cons_cons] at h
      have hlen2 : (a :: b :: t2).length - 1 = ((b :: t2).length - 1) + 1 := by
        simp only [List.length_cons]
        omega
      rw [hlen2]
      show (b :: t2).getD ((b :: t2).length - 1) ((0, 0) : Cell) = x
      exact ih h

theorem chain_adj (l : List Cell) (h : stepChain l) : ∀ j : Nat, j + 1 < l.length →
    adjCell (l.getD j ((0, 0) : Cell)) (l.getD (j + 1) ((0, 0) : Cell)) := by
  induction l with
  | nil =>
    intro j hj
    exfalso
    simp only [List.length_nil] at hj
    omega
  | cons a t ih =>
    intro j hj
    cases t with
    | nil =>
      exfalso
      simp only [List.length_cons, List.length_nil] at hj
      omega
    | cons b t2 =>
      have h2 : adjCell a b ∧ stepChain (b :: t2) := h
      cases j with
      | zero => exact h2.1
      | succ n =>
        show adjCell ((b :: t2).getD n _) ((b :: t2).getD (n + 1) _)
        exact ih h2.2 n (by simp only [List.length_cons] at hj ⊢; omega)

theorem getD_mem_cell (l : List Cell) : ∀ j : Nat, j < l.length →
    l.getD j ((0, 0) : Cell) ∈ l := by
  induction l with
  | nil =>
    intro j hj
    exfalso
    simp only [List.length_nil] at hj
    omega
  | cons a t ih =>
    intro j hj
    cases j with
    | zero => exact List.mem_cons_self a t
    | succ n =>
      exact List.mem_cons_of_mem a (ih n (by simp only [List.length_cons] at hj; omega))

/-- The initial cost table read: `0` at the start's slot, `none` elsewhere. -/
theorem gAt_init (m : Map) (sr sc : Int)
    (h2 : (idxOf m.width sr sc).toNat < m.width * m.height) (j : Int) :
    gAt ((List.replicate (m.width * m.height) (none : Option Nat)).set
      (idxOf m.width sr sc).toNat (some 0)) j =
    if (idxOf m.width sr sc).toNat = j.toNat then some 0 else none := by
  rw [gAt_set _ _ (by rw [List.length_replicate]; exact h2) _ j]
  by_cases h : (idxOf m.width sr sc).toNat = j.toNat
  · rw [if_pos h, if_pos h]
  · rw [if_neg h, if_neg h]
    exact getD_replicate _ _

theorem WInv_init (m : Map) (sr sc gr gc : Int) (π : List Cell)
    (hsin : inBounds m sr sc)
    (hcells : ∀ c ∈ π, inBounds m c.1 c.2 ∧ ¬ blockedAt m c.1 c.2)
    (h2 : (idxOf m.width sr sc).toNat < m.width * m.height) :
    WInv m π ⟨[⟨sr, sc, some 0, some (Pathfinding.heuristic sr sc gr gc)⟩],
      (List.replicate (m.width * m.height) (none : Option Nat)).set
        (idxOf m.width sr sc).toNat (some 0), []⟩ := by
  intro j hj hset _
  obtain ⟨v, hvv, _⟩ := hset
  have hG : (⟨[⟨sr, sc, some 0, some (Pathfinding.heuristic sr sc gr gc)⟩],
      (List.replicate (m.width * m.height) (none : Option Nat)).set
        (idxOf m.width sr sc).toNat (some 0), []⟩ : AState).gCosts =
      (List.replicate (m.width * m.height) (none : Option Nat)).set
        (idxOf m.width sr sc).toNat (some 0) := rfl
  rw [hG, gAt_init m sr sc h2] at hvv
  by_cases he : (idxOf m.width sr sc).toNat =
      (idxOf m.width (π.getD j ((0, 0) : Cell)).1 (π.getD j ((0, 0) : Cell)).2).toNat
  · have hπin : inBounds m (π.getD j ((0, 0) : Cell)).1 (π.getD j ((0, 0) : Cell)).2 :=
      (hcells _ (getD_mem_cell π j (by omega))).1
    have hnn1 := (idxOf_nonneg_lt m sr sc hsin).1
    have hnn2 := (idxOf_nonneg_lt m _ _ hπin).1
    have hidx : idxOf m.width sr sc =
        idxOf m.width (π.getD j ((0, 0) : Cell)).1 (π.getD j ((0, 0) : Cell)).2 := by
      omega
    have hcell := idxOf_inj m sr sc _ _ hsin hπin hidx
    refine ⟨⟨sr, sc, some 0, some (Pathfinding.heuristic sr sc gr gc)⟩,
      List.mem_singleton_self _, ?_, 0, rfl, Nat.zero_le j⟩
    rw [hcell.1, hcell.2]
  · rw [if_neg he] at hvv
    exact Option.noConfusion hvv

theorem GoalOpen_init (m : Map) (sr sc gr gc : Int)
    (hsin : inBounds m sr sc) (hgin : inBounds m gr gc)
    (h2 : (idxOf m.width sr sc).toNat < m.width * m.height) :
    GoalOpen m gr gc ⟨[⟨sr, sc, some 0, some (Pathfinding.heuristic sr sc gr gc)⟩],
      (List.replicate (m.width * m.height) (none : Option Nat)).set
        (idxOf m.width sr sc).toNat (some 0), []⟩ := by
  intro hsome
  have hG : (⟨[⟨sr, sc, some 0, some (Pathfinding.heuristic sr sc gr gc)⟩],
      (List.replicate (m.width * m.height) (none : Option Nat)).set
        (idxOf m.width sr sc).toNat (some 0), []⟩ : AState).gCosts =
      (List.replicate (m.width * m.height) (none : Option Nat)).set
        (idxOf m.width sr sc).toNat (some 0) := rfl
  rw [hG, gAt_init m sr sc h2] at hsome
  by_cases he : (idxOf m.width sr sc).toNat = (idxOf m.width gr gc).toNat
  · have hnn1 := (idxOf_nonneg_lt m sr sc hsin).1
    have hnn2 := (idxOf_nonneg_lt m gr gc hgin).1
    have hidx : idxOf m.width sr sc = idxOf m.width gr gc := by omega
    have hcell := idxOf_inj m sr sc gr gc hsin hgin hidx
    exact ⟨⟨sr, sc, some 0, some (Pathfinding.heuristic sr sc gr gc)⟩,
      List.mem_singleton_self _, hcell.1, hcell.2⟩
  · rw [if_neg he] at hsome
    exact Bool.noConfusion hsome

/-- One full non-goal loop iteration (pop + expand) preserves the frontier
and goal-open invariants. -/
theorem invs_preserved (m : Map) (sr sc gr gc : Int) (π : List Cell)
    (hπ : ValidPath m (sr, sc) (gr, gc) π)
    (hgin : inBounds m gr gc)
    (st : AState) (cur : Node) (rest : List Node) (st1 : AState)
    (hinv : AInv m sr sc gr gc st)
    (hW : WInv m π st) (hGO : GoalOpen m gr gc st)
    (hpop : popMin st.openSet = some (cur, rest))
    (hgoalc : ¬(cur.row = gr ∧ cur.col = gc))
    (hex : expandNode m gr gc cur { st with openSet := rest } = .ok st1) :
    WInv m π st1 ∧ GoalOpen m gr gc st1 := by
  obtain ⟨hπne, hπhead, hπlast, hπchain, hπcells⟩ := hπ
  obtain ⟨hinvP, hcurP⟩ := AInv_pop m sr sc gr gc st cur rest hinv hpop
  have hperm := popMin_perm st.openSet cur rest hpop
  have hexF : directions.foldlM (fun s d => relaxDir m gr gc cur d s)
      { st with openSet := rest } = .ok st1 := hex
  obtain ⟨homono, hgmono⟩ := fold_mono m gr gc cur directions { st with openSet := rest }
    st1 hexF
  have hgmono2 : ∀ i : Int, gle (gAt st1.gCosts i) (gAt st.gCosts i) := hgmono
  have homono2 : ∀ n ∈ rest, n ∈ st1.openSet := homono
  have hsetmono : ∀ (c : Cell) (k : Nat), settled st m.width c k → settled st1 m.width c k := by
    intro c k hs
    obtain ⟨v, hvv, hvk⟩ := hs
    have hgl := hgmono2 (idxOf m.width c.1 c.2)
    rw [hvv] at hgl
    cases hgn : gAt st1.gCosts (idxOf m.width c.1 c.2) with
    | none =>
      rw [hgn] at hgl
      exact absurd hgl (fun h => h)
    | some v2 =>
      rw [hgn] at hgl
      have hle2 : v2 ≤ v := hgl
      exact ⟨v2, hgn, by omega⟩
  constructor
  · intro j hj hset1 hnot1
    have hnotst : ¬ settled st m.width (π.getD (j + 1) ((0, 0) : Cell)) (j + 1) :=
      fun hs => hnot1 (hsetmono _ _ hs)
    by_cases hsetst : settled st m.width (π.getD j ((0, 0) : Cell)) j
    · obtain ⟨nw, hnmem, hncoords, gn, hngc, hgnj⟩ := hW j hj hsetst hnotst
      rcases List.mem_cons.mp (hperm.mem_iff.mp hnmem) with hn2 | hn2
      · exfalso
        apply hnot1
        have hπj1in := (hπcells _ (getD_mem_cell π (j + 1) (by omega))).1
        have hπj1blk := (hπcells _ (getD_mem_cell π (j + 1) (by omega))).2
        have hadj := chain_adj π hπchain j hj
        have hcoords : (cur.row, cur.col) = π.getD j ((0, 0) : Cell) := by
          rw [← hn2]
          exact hncoords
        have hcrow : cur.row = (π.getD j ((0, 0) : Cell)).1 := congrArg Prod.fst hcoords
        have hccol : cur.col = (π.getD j ((0, 0) : Cell)).2 := congrArg Prod.snd hcoords
        have hdirmem : ((π.getD (j + 1) ((0, 0) : Cell)).1 - cur.row,
            (π.getD (j + 1) ((0, 0) : Cell)).2 - cur.col) ∈ directions := by
          rw [hcrow, hccol]
          exact diff_mem_directions _ _ (adjCell_symm _ _ hadj)
        have hvP : ∃ v, gAt ({ st with openSet := rest } : AState).gCosts
            (idxOf m.width cur.row cur.col) = some v ∧ v ≤ j := by
          obtain ⟨v, hvv, hvj⟩ := hsetst
          refine ⟨v, ?_, hvj⟩
          show gAt st.gCosts (idxOf m.width cur.row cur.col) = some v
          rw [hcrow, hccol]
          exact hvv
        obtain ⟨v, hvv, hvle⟩ := fold_settles m sr sc gr gc cur
          (π.getD (j + 1) ((0, 0) : Cell)).1 (π.getD (j + 1) ((0, 0) : Cell)).2
          hπj1in hπj1blk j directions (fun _ hd => hd) hdirmem
          { st with openSet := rest } st1 hinvP hcurP hvP hexF
        exact ⟨v, hvv, hvle⟩
      · refine ⟨nw, homono2 nw hn2, hncoords, gn, hngc, hgnj⟩
    · obtain ⟨v, hvv, hvj⟩ := hset1
      have hπjin := (hπcells _ (getD_mem_cell π j (by omega))).1
      have hnn := (idxOf_nonneg_lt m _ _ hπjin).1
      have hchange : gAt st1.gCosts
          (idxOf m.width (π.getD j ((0, 0) : Cell)).1 (π.getD j ((0, 0) : Cell)).2) ≠
          gAt ({ st with openSet := rest } : AState).gCosts
          (idxOf m.width (π.getD j ((0, 0) : Cell)).1 (π.getD j ((0, 0) : Cell)).2) := by
        intro hcon
        apply hsetst
        have h2 : gAt ({ st with openSet := rest } : AState).gCosts
            (idxOf m.width (π.getD j ((0, 0) : Cell)).1 (π.getD j ((0, 0) : Cell)).2) =
            some v := by
          rw [← hcon]
          exact hvv
        exact ⟨v, h2, hvj⟩
      obtain ⟨n, hnmem, hnidx, hngc2, hnin, _⟩ := fold_change_witness m gr gc cur directions
        { st with openSet := rest } st1 hexF _ hnn hchange
      have hcells2 := idxOf_inj m n.row n.col _ _ hnin hπjin hnidx
      refine ⟨n, hnmem, ?_, v, ?_, hvj⟩
      · rw [hcells2.1, hcells2.2]
      · rw [hngc2]
        exact hvv
  · intro hsome1
    by_cases hch : gAt st1.gCosts (idxOf m.width gr gc) =
        gAt ({ st with openSet := rest } : AState).gCosts (idxOf m.width gr gc)
    · have hsome0 : (gAt st.gCosts (idxOf m.width gr gc)).isSome := by
        have h2 : gAt st.gCosts (idxOf m.width gr gc) =
            gAt st1.gCosts (idxOf m.width gr gc) := hch.symm
        rw [h2]
        exact hsome1
      obtain ⟨n, hnmem, hnr, hnc⟩ := hGO hsome0
      rcases List.mem_cons.mp (hperm.mem_iff.mp hnmem) with hn2 | hn2
      · exfalso
        apply hgoalc
        rw [hn2] at hnr hnc
        exact ⟨hnr, hnc⟩
      · exact ⟨n, homono2 n hn2, hnr, hnc⟩
    · have hnn : 0 ≤ idxOf m.width gr gc := (idxOf_nonneg_lt m gr gc hgin).1
      obtain ⟨n, hnmem, hnidx, _, hnin, _⟩ := fold_change_witness m gr gc cur directions
        { st with openSet := rest } st1 hexF _ hnn hch
      have hcells2 := idxOf_inj m n.row n.col gr gc hnin hgin hnidx
      exact ⟨n, hnmem, hcells2.1, hcells2.2⟩

/-- Conditional optimality of the A* main loop along any fixed valid route
`π`: under the three invariants the loop can only return with the goal found
and a goal table entry of at most `π.length - 1`. -/
theorem aStarLoop_opt (m : Map) (sr sc gr gc : Int) (π : List Cell)
    (hπ : ValidPath m (sr, sc) (gr, gc) π)
    (hgin : inBounds m gr gc) :
    ∀ (fuel : Nat) (st : AState) (found : Bool) (stF : AState),
    AInv m sr sc gr gc st → WInv m π st → GoalOpen m gr gc st →
    aStarLoop m gr gc fuel st = .ok (found, stF) →
    found = true ∧ ∃ gb, gAt stF.gCosts (idxOf m.width gr gc) = some gb ∧
      gb + 1 ≤ π.length := by
  intro fuel
  induction fuel with
  | zero =>
    intro st found stF _ _ _ hok
    exact Except.noConfusion hok
  | succ n ih =>
    intro st found stF hinv hW hGO hok
    simp only [aStarLoop] at hok
    cases hpop : popMin st.openSet with
    | none =>
      exfalso
      have hopenE : st.openSet = [] := (popMin_none_iff _).mp hpop
      have hset0 : settled st m.width (π.getD 0 ((0, 0) : Cell)) 0 := by
        refine ⟨0, ?_, le_refl 0⟩
        have hh : π.getD 0 ((0, 0) : Cell) = (sr, sc) := by
          cases π with
          | nil => exact absurd rfl hπ.1
          | cons c t => exact Option.some.inj hπ.2.1
        rw [hh]
        exact hinv.gstart
      have hsettle : ∀ j, j < π.length → settled st m.width (π.getD j ((0, 0) : Cell)) j := by
        intro j
        induction j with
        | zero =>
          intro _
          exact hset0
        | succ k ihk =>
          intro hk
          by_cases hsk : settled st m.width (π.getD (k + 1) ((0, 0) : Cell)) (k + 1)
          · exact hsk
          · exfalso
            obtain ⟨nw, hmem, _⟩ := hW k (by omega) (ihk (by omega)) hsk
            rw [hopenE] at hmem
            exact List.not_mem_nil nw hmem
      have hlp : 0 < π.length := List.length_pos.mpr hπ.1
      have hlast : π.getD (π.length - 1) ((0, 0) : Cell) = (gr, gc) :=
        getD_last π _ hπ.2.2.1
      obtain ⟨v, hvv, _⟩ := hsettle (π.length - 1) (by omega)
      rw [hlast] at hvv
      dsimp only at hvv
      have hsome : (gAt st.gCosts (idxOf m.width gr gc)).isSome := by
        rw [hvv]
        rfl
      obtain ⟨nw, hmem, _, _⟩ := hGO hsome
      rw [hopenE] at hmem
      exact List.not_mem_nil nw hmem
    | some p =>
      rw [hpop] at hok
      obtain ⟨cur, rest⟩ := p
      dsimp only at hok
      obtain ⟨hinvP, hcurP⟩ := AInv_pop m sr sc gr gc st cur rest hinv hpop
      have hlp : 0 < π.length := List.length_pos.mpr hπ.1
      by_cases hgoalc : cur.row = gr ∧ cur.col = gc
      · rw [if_pos hgoalc] at hok
        have hp := Except.ok.inj hok
        have hf : true = found := congrArg Prod.fst hp
        have hs2 : ({ st with openSet := rest } : AState) = stF := congrArg Prod.snd hp
        refine ⟨hf.symm, ?_⟩
        by_cases hsetg : settled st m.width ((gr, gc) : Cell) (π.length - 1)
        · obtain ⟨v, hvv, hvle⟩ := hsetg
          refine ⟨v, ?_, by omega⟩
          rw [← hs2]
          exact hvv
        · have hset0 : settled st m.width (π.getD 0 ((0, 0) : Cell)) 0 := by
            refine ⟨0, ?_, le_refl 0⟩
            have hh : π.getD 0 ((0, 0) : Cell) = (sr, sc) := by
              cases π with
              | nil => exact absurd rfl hπ.1
              | cons c t => exact Option.some.inj hπ.2.1
            rw [hh]
            exact hinv.gstart
          have hlast : π.getD (π.length - 1) ((0, 0) : Cell) = (gr, gc) :=
            getD_last π _ hπ.2.2.1
          have hnotlast : ¬ settled st m.width (π.getD (π.length - 1) ((0, 0) : Cell))
              (π.length - 1) := by
            rw [hlast]
            exact hsetg
          obtain ⟨j, hjlt, hPj, hPj1⟩ := first_failure
            (fun j => settled st m.width (π.getD j ((0, 0) : Cell)) j)
            (π.length - 1) hset0 hnotlast
          obtain ⟨nw, hnmem, hncoords, gn, hngc, hgnj⟩ := hW j (by omega) hPj hPj1
          have hmin := popMin_min st.openSet cur rest hpop nw hnmem
          have hgle := gle_of_gclt_false _ _ hmin
          have hnwOK := hinv.nodes nw hnmem
          unfold NodeOK at hnwOK
          obtain ⟨_, hnwH, _, _⟩ := hnwOK
          have hcurOK := hcurP
          unfold NodeOK at hcurOK
          obtain ⟨_, hcurH, ⟨gcn, tvc, hgc2, htc2, htlc⟩, _⟩ := hcurOK
          have hsuffix := heuristic_le_chain ((gr, gc) : Cell) (π.drop j)
            (π.getD j ((0, 0) : Cell))
            (stepChain_drop j π hπ.2.2.2.1)
            (head_drop_getD j π (by omega))
            (by rw [getLast_drop_eq j π (by omega)]; exact hπ.2.2.1)
          rw [List.length_drop] at hsuffix
          dsimp only at hsuffix
          have hfnw : nw.fCost = some (gn + Pathfinding.heuristic
              (π.getD j ((0, 0) : Cell)).1 (π.getD j ((0, 0) : Cell)).2 gr gc) := by
            unfold Node.fCost
            have hr1 : nw.row = (π.getD j ((0, 0) : Cell)).1 := congrArg Prod.fst hncoords
            have hr2 : nw.col = (π.getD j ((0, 0) : Cell)).2 := congrArg Prod.snd hncoords
            rw [hngc, hnwH, hr1, hr2]
            rfl
          have hfcur : cur.fCost = some gcn := by
            unfold Node.fCost
            rw [hgc2, hcurH, hgoalc.1, hgoalc.2, heuristic_self]
            rfl
          rw [hfcur, hfnw] at hgle
          have hle2 : gcn ≤ gn + Pathfinding.heuristic
              (π.getD j ((0, 0) : Cell)).1 (π.getD j ((0, 0) : Cell)).2 gr gc := hgle
          refine ⟨tvc, ?_, ?_⟩
          · rw [← hs2]
            have htc3 := htc2
            rw [hgoalc.1, hgoalc.2] at htc3
            exact htc3
          · omega
      · rw [if_neg hgoalc] at hok
        cases hex : expandNode m gr gc cur { st with openSet := rest } with
        | error e =>
          rw [hex] at hok
          exact Except.noConfusion hok
        | ok st1 =>
          rw [hex] at hok
          dsimp only at hok
          obtain ⟨hinv1, _, _, _, _, _⟩ :=
            AInv_expand m sr sc gr gc cur { st with openSet := rest } st1 hinvP hcurP hex
          obtain ⟨hW1, hGO1⟩ := invs_preserved m sr sc gr gc π
            ⟨hπ.1, hπ.2.1, hπ.2.2.1, hπ.2.2.2.1, hπ.2.2.2.2⟩ hgin st cur rest st1
            hinv hW hGO hpop hgoalc hex
          exact ih st1 found stF hinv1 hW1 hGO1 hok

theorem head?_mem (l : List Cell) (x : Cell) (h : l.head? = some x) : x ∈ l := by
  cases l with
  | nil => exact Option.noConfusion h
  | cons a t =>
    rw [← Option.some.inj h]
    exact List.mem_cons_self a t

theorem getLast?_mem (l : List Cell) (x : Cell) (h : l.getLast? = some x) : x ∈ l := by
  induction l with
  | nil => exact Option.noConfusion h
  | cons a t ih =>
    cases t with
    | nil =>
      rw [← Option.some.inj h]
      exact List.mem_cons_self _ _
    | cons b t2 =>
      rw [List.getLast?_cons_cons] at h
      exact List.mem_cons_of_mem a (ih h)

/-- With fuel above the (finite) table entry of the starting index, the
backward walk terminates. -/
theorem reconstructPath_total (m : Map) (sr sc gr gc : Int) (st : AState)
    (hinv : AInv m sr sc gr gc st) :
    ∀ (fuel : Nat) (k : Int) (a : Nat), gAt st.gCosts k = some a → a < fuel →
    ∃ p, reconstructPath m.width st.cameFrom fuel k = .ok p := by
  intro fuel
  induction fuel with
  | zero =>
    intro k a _ ha
    exact absurd ha (Nat.not_lt_zero a)
  | succ n ih =>
    intro k a hval _
    simp only [reconstructPath]
    cases hlk : st.cameFrom.lookup k with
    | none => exact ⟨[], rfl⟩
    | some v =>
      obtain ⟨a2, b2, ha2, hb2, hgap⟩ := hinv.cfGap k v hlk
      have haa : a2 = a := by
        rw [hval] at ha2
        exact (Option.some.inj ha2).symm
      obtain ⟨rest, hrest⟩ := ih v b2 hb2 (by omega)
      dsimp only
      rw [hrest]
      exact ⟨_, rfl⟩

/-- The backward walk collects at most `table value at the starting index`
cells. -/
theorem reconstructPath_len (m : Map) (sr sc gr gc : Int) (st : AState)
    (hinv : AInv m sr sc gr gc st) :
    ∀ (fuel : Nat) (k : Int) (p : List Cell) (a : Nat),
    reconstructPath m.width st.cameFrom fuel k = .ok p →
    gAt st.gCosts k = some a →
    p.length ≤ a := by
  intro fuel
  induction fuel with
  | zero =>
    intro k p a hok _
    exact Except.noConfusion hok
  | succ n ih =>
    intro k p a hok hval
    simp only [reconstructPath] at hok
    cases hlk : st.cameFrom.lookup k with
    | none =>
      rw [hlk] at hok
      dsimp only at hok
      have hpe : ([] : List Cell) = p := Except.ok.inj hok
      rw [← hpe]
      exact Nat.zero_le a
    | some v =>
      rw [hlk] at hok
      dsimp only at hok
      cases hrec : reconstructPath m.width st.cameFrom n v with
      | error e =>
        rw [hrec] at hok
        exact Except.noConfusion hok
      | ok rest =>
        rw [hrec] at hok
        dsimp only at hok
        have hpe : ((k.tdiv (m.width : Int), k.tmod (m.width : Int)) : Cell) :: rest = p :=
          Except.ok.inj hok
        obtain ⟨a2, b2, ha2, hb2, hgap⟩ := hinv.cfGap k v hlk
        have haa : a2 = a := by
          rw [hval] at ha2
          exact (Option.some.inj ha2).symm
        have hrle := ih v rest b2 hrec hb2
        rw [← hpe]
        simp only [List.length_cons]
        omega

/-- Once the loop ends with the goal found, reconstruction succeeds and
yields a valid route of at most `goal table entry + 1` cells. -/
theorem found_implies_path (m : Map) (sr sc gr gc : Int) (stF : AState)
    (hinvF : AInv m sr sc gr gc stF)
    (hsin : inBounds m sr sc) (hsblk : ¬ blockedAt m sr sc)
    (hfact : ((gr, gc) : Cell) = (sr, sc) ∨
      (inBounds m gr gc ∧ ¬ blockedAt m gr gc ∧
        (stF.cameFrom.lookup (idxOf m.width gr gc)).isSome))
    (gb : Nat) (hgb : gAt stF.gCosts (idxOf m.width gr gc) = some gb) :
    ∃ p0, reconstructPath m.width stF.cameFrom (m.width * m.height + 1)
        (idxOf m.width gr gc) = .ok p0 ∧
      ValidPath m (sr, sc) (gr, gc) ((p0 ++ [((sr, sc) : Cell)]).reverse) ∧
      (p0 ++ [((sr, sc) : Cell)]).reverse.length ≤ gb + 1 := by
  have hbound := AInv_value_bound m sr sc gr gc stF hinvF _ _ hgb
  rw [hinvF.glen] at hbound
  obtain ⟨p0, hp0⟩ := reconstructPath_total m sr sc gr gc stF hinvF
    (m.width * m.height + 1) _ gb hgb (by omega)
  refine ⟨p0, hp0, ?_, ?_⟩
  · rcases reconstructPath_spec m sr sc gr gc stF hinvF _ _ _ hp0 with
      ⟨hlnone, hp0nil⟩ | ⟨nr, nc, hkeq, hkin, hkblk, hksome, hhead, hall, hchain⟩
    · have hgs2 : ((gr, gc) : Cell) = (sr, sc) := by
        rcases hfact with h | ⟨_, _, hsome⟩
        · exact h
        · rw [hlnone] at hsome
          exact Bool.noConfusion hsome
      subst hp0nil
      rw [show (([] : List Cell) ++ [((sr, sc) : Cell)]).reverse = [((sr, sc) : Cell)]
        from rfl]
      refine ⟨List.cons_ne_nil _ _, rfl, ?_, True.intro, ?_⟩
      · rw [hgs2]
        rfl
      · intro c hc
        rw [List.mem_singleton.mp hc]
        exact ⟨hsin, hsblk⟩
    · have hp0ne : p0 ≠ [] := by
        intro hcon
        rw [hcon] at hhead
        exact Option.noConfusion hhead
      have hgoal_in : inBounds m gr gc := by
        rcases hfact with h | ⟨hin2, _, _⟩
        · exfalso
          have h1 : gr = sr := congrArg Prod.fst h
          have h2 : gc = sc := congrArg Prod.snd h
          have hnone := lookup_start_none m sr sc gr gc stF hinvF
          rw [← h1, ← h2] at hnone
          rw [hnone] at hksome
          exact Bool.noConfusion hksome
        · exact hin2
      have hinj := idxOf_inj m nr nc gr gc hkin hgoal_in hkeq.symm
      have hrev : (p0 ++ [((sr, sc) : Cell)]).reverse = (sr, sc) :: p0.reverse := by
        simp
      refine ⟨?_, ?_, ?_, ?_, ?_⟩
      · rw [hrev]
        exact List.cons_ne_nil _ _
      · rw [hrev]
        rfl
      · rw [List.getLast?_reverse]
        cases p0 with
        | nil => exact absurd rfl hp0ne
        | cons c0 p1 =>
          have hc0 : c0 = (nr, nc) := Option.some.inj hhead
          show some c0 = some ((gr, gc) : Cell)
          rw [hc0, hinj.1, hinj.2]
      · exact stepChain_reverse _ hchain
      · intro c hc
        rw [List.mem_reverse] at hc
        rcases List.mem_append.mp hc with hc | hc
        · exact hall c hc
        · rw [List.mem_singleton.mp hc]
          exact ⟨hsin, hsblk⟩
  · have hlen := reconstructPath_len m sr sc gr gc stF hinvF
      (m.width * m.height + 1) (idxOf m.width gr gc) p0 gb hp0 hgb
    rw [List.length_reverse, List.length_append]
    simp only [List.length_cons, List.length_nil]
    omega

/-- C1: whenever the goal is reachable from the start through in-bounds
non-blocked 4-connected cells, `aStar` returns a non-empty valid path of
minimal length (so its step count equals the true shortest step count); and
for an in-bounds unblocked start with no route at all, the frontier empties
and the search returns the empty sequence. -/
theorem aStar_optimal (m : Map) (sr sc gr gc : Int) :
    (∀ q1 : List Cell, ValidPath m (sr, sc) (gr, gc) q1 →
      ∃ p : List Cell, Pathfinding.aStar m sr sc gr gc = .ok p ∧ p ≠ [] ∧
        ValidPath m (sr, sc) (gr, gc) p ∧
        ∀ q : List Cell, ValidPath m (sr, sc) (gr, gc) q → p.length ≤ q.length) ∧
    (inBounds m sr sc → ¬ blockedAt m sr sc →
      (¬ ∃ q1 : List Cell, ValidPath m (sr, sc) (gr, gc) q1) →
      Pathfinding.aStar m sr sc gr gc = .ok []) := by
  constructor
  · intro q1 hq1
    obtain ⟨π0, hπ0, hmin⟩ := exists_min_valid m (sr, sc) (gr, gc) q1 hq1
    have hscell := hπ0.2.2.2.2 _ (head?_mem π0 _ hπ0.2.1)
    have hgcell := hπ0.2.2.2.2 _ (getLast?_mem π0 _ hπ0.2.2.1)
    have hsin : inBounds m sr sc := hscell.1
    have hsblk : ¬ blockedAt m sr sc := hscell.2
    have hgin : inBounds m gr gc := hgcell.1
    have hidx := idxOf_nonneg_lt m sr sc hsin
    unfold Pathfinding.aStar
    rw [(gSet_ok (List.replicate (m.width * m.height) none)
      (idxOf m.width sr sc) (some 0) _).mpr
      ⟨⟨hidx.1, by rw [List.length_replicate]; exact hidx.2⟩, rfl⟩]
    dsimp only
    have hinv0 := AInv_init m sr sc gr gc hidx.1 hidx.2
    obtain ⟨found, stF, hloop⟩ := aStarLoop_total m sr sc gr gc
      (5 * (m.width * m.height) * (m.width * m.height) + 2) _ hinv0
      (measure_init_lt m sr sc gr gc)
    rw [hloop]
    dsimp only
    obtain ⟨hfoundT, gb, hgb, hgbd⟩ := aStarLoop_opt m sr sc gr gc π0 hπ0 hgin _ _ _ _
      hinv0 (WInv_init m sr sc gr gc π0 hsin hπ0.2.2.2.2 hidx.2)
      (GoalOpen_init m sr sc gr gc hsin hgin hidx.2) hloop
    subst hfoundT
    rw [if_pos rfl]
    obtain ⟨hinvF, hfact⟩ := aStarLoop_spec m sr sc gr gc _ _ _ _ hinv0 hloop
    obtain ⟨p0, hp0, hvalid, hlen⟩ := found_implies_path m sr sc gr gc stF hinvF
      hsin hsblk (hfact rfl) gb hgb
    rw [hp0]
    dsimp only
    refine ⟨(p0 ++ [((sr, sc) : Cell)]).reverse, rfl, hvalid.1, hvalid, ?_⟩
    intro q hq
    have hmq := hmin q hq
    omega
  · intro hsin hsblk hnone
    have hidx := idxOf_nonneg_lt m sr sc hsin
    unfold Pathfinding.aStar
    rw [(gSet_ok (List.replicate (m.width * m.height) none)
      (idxOf m.width sr sc) (some 0) _).mpr
      ⟨⟨hidx.1, by rw [List.length_replicate]; exact hidx.2⟩, rfl⟩]
    dsimp only
    have hinv0 := AInv_init m sr sc gr gc hidx.1 hidx.2
    obtain ⟨found, stF, hloop⟩ := aStarLoop_total m sr sc gr gc
      (5 * (m.width * m.height) * (m.width * m.height) + 2) _ hinv0
      (measure_init_lt m sr sc gr gc)
    rw [hloop]
    dsimp only
    obtain ⟨hinvF, hfact⟩ := aStarLoop_spec m sr sc gr gc _ _ _ _ hinv0 hloop
    cases found with
    | false => rfl
    | true =>
      exfalso
      apply hnone
      rcases hfact rfl with h | ⟨hginB, hgblkB, hsome⟩
      · refine ⟨[((sr, sc) : Cell)], List.cons_ne_nil _ _, rfl, ?_, True.intro, ?_⟩
        · rw [h]
          rfl
        · intro c hc
          rw [List.mem_singleton.mp hc]
          exact ⟨hsin, hsblk⟩
      · obtain ⟨v, hv⟩ := Option.isSome_iff_exists.mp hsome
        obtain ⟨a2, b2, ha2, _, _⟩ := hinvF.cfGap _ v hv
        obtain ⟨p0, hp0, hvalid, _⟩ := found_implies_path m sr sc gr gc stF hinvF
          hsin hsblk (Or.inr ⟨hginB, hgblkB, hsome⟩) a2 ha2
        exact ⟨_, hvalid⟩

/-- A two-cell corridor whose far cell is blocked. -/
def mBlk : Map := ⟨2, 1, [0, 3]⟩

theorem aStar_optimal_witness :
    (ValidPath mC7 (0, 0) (0, 1) [((0 : Int), (0 : Int)), (0, 1)] ∧
      ∃ p : List Cell, Pathfinding.aStar mC7 0 0 0 1 = .ok p ∧ p ≠ [] ∧
        ValidPath mC7 (0, 0) (0, 1) p ∧
        ∀ q : List Cell, ValidPath mC7 (0, 0) (0, 1) q → p.length ≤ q.length) ∧
    (inBounds mBlk 0 0 ∧ ¬ blockedAt mBlk 0 0 ∧
      Pathfinding.aStar mBlk 0 0 0 1 = .ok []) :=
  ⟨⟨by decide, (aStar_optimal mC7 0 0 0 1).1 [((0 : Int), (0 : Int)), (0, 1)] (by decide)⟩,
   ⟨by decide, by decide,
    (aStar_optimal mBlk 0 0 0 1).2 (by decide) (by decide)
      (fun hex => by
        obtain ⟨π, hπ⟩ := hex
        have hcell := hπ.2.2.2.2 _ (getLast?_mem π _ hπ.2.2.1)
        exact hcell.2 (by decide))⟩⟩
